import Mathlib

/-!
# upgrademinio: a verification development

A shallow embedding of `utils/cache.go` (the LRU cache with sliding TTL),
`utils/util.go` (release tags, archive extraction, layer selection) and
`handlers/service.go` (the retrieval service), followed by theorems about the
embedded code.

Modelling conventions.

* A `*Node[T]` is an address (`Nat`); `nil` is `none`.  The heap `mem` maps
  every address to a node; `fresh` is the next address handed out by an
  allocation.  Nodes are never freed (Go's collector only reclaims what
  nothing refers to).
* `map[string]*Node[T]` is an association list without a fixed iteration
  order in Go; here it is the list `items`, `len(c.items)` is its length.
* `time.Time` is an integer count of nanoseconds since the zero instant, so
  `IsZero` is `= 0` and `a.Before(b)` is `a < b`; `time.Duration` is an
  integer.  Every reading of the clock is an explicit argument.
  `Get` reads the clock twice (the expiry test, then the refresh), so it takes
  two readings.
* One tick of the background sweep is the pair `cleanupScan`, `cleanupRemove`;
  other calls may run between the two.
* `stopChan` is the flag `stopClosed`; closing a closed channel panics, and
  so does `time.NewTicker` on an interval that is not positive.
* A run-time panic is the outcome `Outcome.panic`.
* `time.Parse` of the Go standard library is a parameter of
  `ParseReleaseTag`; `timeParse` is its model for the two layouts of
  `util.go`, after `time/format.go` of Go 1.17 and later.  Strings are lists
  of characters where Go has bytes; every test `time.Parse` makes on these
  layouts is on an ASCII character, so the two agree.  `strings.Split` is
  modelled for a separator of one character, the only way the code calls it.
* An archive is the sequence of entries `tar.Reader` delivers; a directory is
  a map from file name to content, and writes succeed.
* The registry client, the file system and the archive reader that
  `handlers/service.go` calls are the record `Env` of their answers, and the
  calls a function makes are returned next to its results as a list of
  `Event`s.  A `name.Reference` is the string it was parsed from.
-/

namespace Upgrademinio

/-! ## utils/cache.go -/

/-- A list node: `Node[T]` of `cache.go`. -/
structure Node (T : Type) where
  key : String
  value : T
  expireAt : Int
  prev : Option Nat
  next : Option Nat

/-- The cache: `LRUCache[T]` of `cache.go`.  `stopClosed` says whether
`stopChan` has been closed. -/
structure LRUCache (T : Type) where
  mem : Nat → Node T
  fresh : Nat
  items : List (String × Nat)
  head : Option Nat
  tail : Option Nat
  capacity : Int
  ttl : Int
  stopClosed : Bool

/-- The zero value of `Node[T]`. -/
def Node.zero (T : Type) [Inhabited T] : Node T :=
  { key := "", value := default, expireAt := 0, prev := none, next := none }

/-- Store `n` at address `p`. -/
def store {T : Type} (m : Nat → Node T) (p : Nat) (n : Node T) : Nat → Node T :=
  fun q => if q = p then n else m q

/-- Map lookup `c.items[key]`. -/
def mapGet : List (String × Nat) → String → Option Nat
  | [], _ => none
  | (k, p) :: rest, key => if k = key then some p else mapGet rest key

/-- Map removal `delete(c.items, key)`. -/
def mapDelete (items : List (String × Nat)) (key : String) : List (String × Nat) :=
  items.filter (fun e => decide (e.1 ≠ key))

/-- Map assignment `c.items[key] = p`. -/
def mapSet (items : List (String × Nat)) (key : String) (p : Nat) : List (String × Nat) :=
  (key, p) :: mapDelete items key

/-- The result of a call that may panic or return an error. -/
inductive Outcome (α : Type) where
  | ok (a : α)
  | error (msg : String)
  | panic (msg : String)
  deriving DecidableEq, Repr

/-- `NewLRUCache(capacity, ttl)`.  The background sweep started when
`ttl > 0` is modelled by `startSweep`, `cleanupScan` and `cleanupRemove`. -/
def NewLRUCache (T : Type) [Inhabited T] (capacity : Int) (ttl : Int) : Outcome (LRUCache T) :=
  if capacity ≤ 0 then
    Outcome.panic "capacity must be greater than zero"
  else
    Outcome.ok
      { mem := fun _ => Node.zero T
        fresh := 0
        items := []
        head := none
        tail := none
        capacity := capacity
        ttl := ttl
        stopClosed := false }

/-- `c.unlinkNode(node)`. -/
def unlinkNode {T : Type} (c : LRUCache T) (node : Nat) : LRUCache T :=
  let c₁ : LRUCache T :=
    match (c.mem node).prev with
    | some q => { c with mem := store c.mem q { c.mem q with next := (c.mem node).next } }
    | none => { c with head := (c.mem node).next }
  let c₂ : LRUCache T :=
    match (c₁.mem node).next with
    | some q => { c₁ with mem := store c₁.mem q { c₁.mem q with prev := (c₁.mem node).prev } }
    | none => { c₁ with tail := (c₁.mem node).prev }
  { c₂ with mem := store c₂.mem node { c₂.mem node with prev := none, next := none } }

/-- `c.addToFront(node)`. -/
def addToFront {T : Type} (c : LRUCache T) (node : Nat) : LRUCache T :=
  let c₁ : LRUCache T :=
    { c with mem := store c.mem node { c.mem node with prev := none, next := c.head } }
  let c₂ : LRUCache T :=
    match c₁.head with
    | some h => { c₁ with mem := store c₁.mem h { c₁.mem h with prev := some node } }
    | none => c₁
  let c₃ : LRUCache T := { c₂ with head := some node }
  if c₃.tail = none then { c₃ with tail := some node } else c₃

/-- `c.moveToFront(node)`. -/
def moveToFront {T : Type} (c : LRUCache T) (node : Nat) : LRUCache T :=
  if some node = c.head then c
  else addToFront (unlinkNode c node) node

/-- `c.removeNode(node)`. -/
def removeNode {T : Type} (c : LRUCache T) (node : Nat) : LRUCache T :=
  unlinkNode { c with items := mapDelete c.items (c.mem node).key } node

/-- `c.removeOldest()`. -/
def removeOldest {T : Type} (c : LRUCache T) : LRUCache T :=
  match c.tail with
  | some t => removeNode c t
  | none => c

/-- `c.Get(key)`: the new state, the value and the found flag.  `now₁` is the
clock reading of the expiry test, `now₂` the one of the refresh. -/
def Get {T : Type} [Inhabited T] (c : LRUCache T) (key : String) (now₁ now₂ : Int) :
    LRUCache T × T × Bool :=
  match mapGet c.items key with
  | some node =>
    if (c.mem node).expireAt ≠ 0 ∧ (c.mem node).expireAt < now₁ then
      (removeNode c node, default, false)
    else
      let c₁ : LRUCache T :=
        if c.ttl > 0 then
          { c with mem := store c.mem node { c.mem node with expireAt := now₂ + c.ttl } }
        else c
      let c₂ := moveToFront c₁ node
      (c₂, (c₂.mem node).value, true)
  | none => (c, default, false)

/-- `c.Set(key, value)` with clock reading `now`. -/
def Set {T : Type} (c : LRUCache T) (key : String) (value : T) (now : Int) : LRUCache T :=
  let expireAt : Int := if c.ttl > 0 then now + c.ttl else 0
  match mapGet c.items key with
  | some node =>
    let c₁ : LRUCache T :=
      { c with mem := store c.mem node { c.mem node with value := value, expireAt := expireAt } }
    moveToFront c₁ node
  | none =>
    let node := c.fresh
    let c₁ : LRUCache T :=
      { c with
        mem := store c.mem node
          { key := key, value := value, expireAt := expireAt, prev := none, next := none }
        fresh := c.fresh + 1 }
    let c₂ : LRUCache T := { c₁ with items := mapSet c₁.items key node }
    let c₃ := addToFront c₂ node
    if (c₃.items.length : Int) > c₃.capacity then removeOldest c₃ else c₃

/-- `c.Delete(key)`. -/
def Delete {T : Type} (c : LRUCache T) (key : String) : LRUCache T :=
  match mapGet c.items key with
  | some node => removeNode c node
  | none => c

/-- The scan of one sweep tick of `cleanupExpiredItems` (under the read
lock): the nodes of the map that are expired at `now`. -/
def cleanupScan {T : Type} (c : LRUCache T) (now : Int) : List Nat :=
  (c.items.map Prod.snd).filter
    (fun node => decide ((c.mem node).expireAt ≠ 0 ∧ (c.mem node).expireAt < now))

/-- The removal of one sweep tick of `cleanupExpiredItems` (under the
exclusive lock), with a fresh clock reading `now`. -/
def cleanupRemove {T : Type} (c : LRUCache T) (expiredNodes : List Nat) (now : Int) :
    LRUCache T :=
  expiredNodes.foldl
    (fun c node => if (c.mem node).expireAt < now then removeNode c node else c) c

/-- `close(ch)` on a channel whose closed flag is `closed`: closing a channel
that is already closed panics, otherwise the flag becomes `true`. -/
def closeChan (closed : Bool) : Outcome Bool :=
  if closed then Outcome.panic "close of closed channel" else Outcome.ok true

/-- `c.Close()`: the `select` takes the receive case when `stopChan` is
closed (a receive on a closed channel does not block) and the default case,
which closes the channel, when it is open. -/
def Close {T : Type} (c : LRUCache T) : Outcome (LRUCache T) :=
  if c.stopClosed then Outcome.ok c
  else
    match closeChan c.stopClosed with
    | Outcome.ok closed => Outcome.ok { c with stopClosed := closed }
    | Outcome.error msg => Outcome.error msg
    | Outcome.panic msg => Outcome.panic msg

/-- The interval `c.ttl / 2` that `cleanupExpiredItems` hands to
`time.NewTicker` (Go's integer division truncates). -/
def cleanupInterval {T : Type} (c : LRUCache T) : Int :=
  Int.tdiv c.ttl 2

/-- `time.NewTicker(d)`: it panics unless `d` is greater than zero. -/
def NewTicker (d : Int) : Outcome Int :=
  if d ≤ 0 then Outcome.panic "non-positive interval for NewTicker" else Outcome.ok d

/-- The start of the background sweep in `NewLRUCache`: when `ttl > 0` the
goroutine `cleanupExpiredItems` runs, and the first thing it does is to create
its ticker. -/
def startSweep {T : Type} (c : LRUCache T) : Option (Outcome Int) :=
  if c.ttl > 0 then some (NewTicker (cleanupInterval c)) else none

/-! ### Observations of a cache state -/

/-- Follow `next` from `start`, at most `fuel` nodes. -/
def walk {T : Type} (m : Nat → Node T) : Nat → Option Nat → List Nat
  | 0, _ => []
  | _ + 1, none => []
  | fuel + 1, some p => p :: walk m fuel (m p).next

/-- The nodes of the recency list, most recently used first: what following
`next` from `head` visits, `len(items)` nodes at most. -/
def order {T : Type} (c : LRUCache T) : List Nat :=
  walk c.mem c.items.length c.head

/-- What a cache entry holds: key, value and expiration instant. -/
structure Entry (T : Type) where
  key : String
  value : T
  expireAt : Int
  deriving DecidableEq, Repr

/-- The entry stored in a node. -/
def Node.entry {T : Type} (n : Node T) : Entry T :=
  { key := n.key, value := n.value, expireAt := n.expireAt }

/-- The entries of the cache in recency order, most recently used first. -/
def entries {T : Type} (c : LRUCache T) : List (Entry T) :=
  (order c).map (fun p => (c.mem p).entry)

/-- The keys of the cache in recency order, most recently used first. -/
def keys {T : Type} (c : LRUCache T) : List String :=
  (order c).map (fun p => (c.mem p).key)

/-- The entry the map holds for `key`, if any. -/
def lookup {T : Type} (c : LRUCache T) (key : String) : Option (Entry T) :=
  (mapGet c.items key).map (fun p => (c.mem p).entry)

variable {T : Type}

/-! ### The structural invariant -/

/-- A singly linked segment through the pointer field `f`: starting at `a`,
the nodes `ps` are visited in order and the last one points to `b`. -/
def Lseg {T : Type} (f : Node T → Option Nat) (m : Nat → Node T) :
    Option Nat → List Nat → Option Nat → Prop
  | a, [], b => a = b
  | a, p :: ps, b => a = some p ∧ Lseg f m (f (m p)) ps b

/-- The structural invariant of the cache with recency list `ps`. -/
structure WF {T : Type} (c : LRUCache T) (ps : List Nat) : Prop where
  nodup : ps.Nodup
  fwd : Lseg Node.next c.mem c.head ps none
  bwd : Lseg Node.prev c.mem c.tail ps.reverse none
  lt : ∀ p ∈ ps, p < c.fresh
  perm : c.items.Perm (ps.map fun p => ((c.mem p).key, p))
  distinct : (ps.map fun p => (c.mem p).key).Nodup

/-- The pointer structure of the recency list `ps`: no node twice, `next`
leads from `head` through `ps` to `nil`, `prev` from `tail` back to `nil`. -/
def Linked {T : Type} (c : LRUCache T) (ps : List Nat) : Prop :=
  ps.Nodup ∧ Lseg Node.next c.mem c.head ps none ∧
    Lseg Node.prev c.mem c.tail ps.reverse none

/-- The state of `Set` on an absent key just before the capacity test. -/
def insertFront (c : LRUCache T) (k : String) (v : T) (e : Int) : LRUCache T :=
  addToFront { c with
    mem := store c.mem c.fresh
      ({ key := k, value := v, expireAt := e, prev := none, next := none })
    fresh := c.fresh + 1
    items := mapSet c.items k c.fresh } c.fresh

/-- The structural invariant of a cache state: some list of nodes is its
recency list. -/
def Inv (c : LRUCache T) : Prop := ∃ ps, WF c ps

/-! ### Sequences of calls -/

/-- A call of the cache interface that reads or writes an entry. -/
inductive Call (T : Type) where
  | set (key : String) (value : T) (now : Int)
  | get (key : String) (now₁ now₂ : Int)

/-- The state after one call. -/
def Call.apply [Inhabited T] (c : LRUCache T) : Call T → LRUCache T
  | Call.set k v now => Set c k v now
  | Call.get k now₁ now₂ => (Get c k now₁ now₂).1

/-- The state after a sequence of calls, the first call first. -/
def run [Inhabited T] (c : LRUCache T) (calls : List (Call T)) : LRUCache T :=
  calls.foldl Call.apply c

/-- Record a touch of `k` in a log of distinct keys, most recently touched first. -/
def touch (log : List String) (k : String) : List String :=
  k :: log.filter (fun x => decide (x ≠ k))

/-- One call on a state paired with its touch log: a `Set` touches its key, a
`Get` touches its key when it finds it. -/
def touchedStep [Inhabited T] (s : LRUCache T × List String) : Call T → LRUCache T × List String
  | Call.set k v now => (Set s.1 k v now, touch s.2 k)
  | Call.get k now₁ now₂ =>
    ((Get s.1 k now₁ now₂).1, if (Get s.1 k now₁ now₂).2.2 then touch s.2 k else s.2)

/-- The distinct keys touched by a sequence of calls on `c`, most recently
touched first. -/
def touched [Inhabited T] (c : LRUCache T) (calls : List (Call T)) : List String :=
  (calls.foldl touchedStep (c, [])).2

/-- The keys of the `Set` calls of a sequence. -/
def keysSet (calls : List (Call T)) : List String :=
  calls.filterMap (fun call => match call with
    | Call.set k _ _ => some k
    | Call.get _ _ _ => none)

/-- The invariant behind the resident-set theorem: with expiration disabled
the recency list is the front of the touch log. -/
structure Resident (C : Int) (c : LRUCache T) (log : List String) : Prop where
  inv : Inv c
  ttl : c.ttl = 0
  cap : c.capacity = C
  noexp : ∀ e ∈ entries c, e.expireAt = 0
  len : (c.items.length : Int) ≤ C
  nodup : log.Nodup
  split : ∃ rest, log = keys c ++ rest ∧ (rest ≠ [] → ((keys c).length : Int) = C)

/-! ## utils/util.go -/

/-- Split a list of characters at every occurrence of `sep`. -/
def splitChars (sep : Char) : List Char → List (List Char)
  | [] => [[]]
  | c :: cs =>
    if c = sep then [] :: splitChars sep cs
    else
      match splitChars sep cs with
      | [] => [[c]]
      | w :: ws => (c :: w) :: ws

/-- `strings.Split(s, sep)` for a separator of one character. -/
def Split (s : String) (sep : Char) : List String :=
  (splitChars sep s.data).map String.mk

def releaseTagTimeLayout : String := "2006-01-02T15-04-05Z"

def releaseTagTimeLayoutBackup : String := "2006-01-02T15:04:05Z"

/-- `ParseReleaseTag(releaseTag)`.  `timeParse layout value` stands for
`time.Parse` of the Go standard library. -/
def ParseReleaseTag {Time : Type} (timeParse : String → String → Except String Time)
    (releaseTag : String) : Except String Time :=
  let fields := Split releaseTag '.'
  if fields.length < 1 then
    Except.error ("invalid release tag: " ++ releaseTag)
  else
    let releaseTimeStr := fields.getD 0 ""
    let releaseTimeStr := if fields.length > 1 then fields.getD 1 "" else releaseTimeStr
    match timeParse releaseTagTimeLayout releaseTimeStr with
    | Except.error _ => timeParse releaseTagTimeLayoutBackup releaseTimeStr
    | Except.ok releaseTime => Except.ok releaseTime

/-- `FindInSlice(slice, val)`. -/
def FindInSlice : List String → String → String × Bool
  | [], _ => ("", false)
  | item :: rest, val => if item = val then (item, true) else FindInSlice rest val

/-- `path.Base(name)`. -/
def pathBase (name : String) : String :=
  if name = "" then "."
  else
    let stripped := name.data.reverse.dropWhile (fun ch => ch = '/')
    let last := (stripped.takeWhile (fun ch => ch ≠ '/')).reverse
    if last = [] then "/" else String.mk last

/-- One entry of an archive as `tar.Reader` delivers it. -/
structure TarEntry where
  Name : String
  Typeflag : Char
  content : String

/-- `tar.TypeReg`. -/
def TypeReg : Char := '0'

/-- A directory: file name to content. -/
abbrev Dir := String → Option String

/-- `ExtractFile(tr, basePath, name)` with a write that succeeds: the current
entry's content is written to `basePath/Base(name)`. -/
def ExtractFile (dir : Dir) (content : String) (name : String) : Dir :=
  fun f => if f = pathBase name then some content else dir f

/-- A Go `error` value: `nil` is `none`. -/
abbrev GoError := Option String

/-- The read loop of `ExtractTar` over the remaining entries. -/
def ExtractTarLoop (filesToExtract : List String) :
    List TarEntry → Int → Dir → Dir × GoError
  | [], remaining, dir =>
    if remaining = 0 then (dir, none)
    else (dir, some "EOF reached before extracting")
  | header :: rest, remaining, dir =>
    if header.Typeflag = TypeReg then
      if (FindInSlice filesToExtract header.Name).2 then
        ExtractTarLoop filesToExtract rest (remaining - 1)
          (ExtractFile dir header.content (FindInSlice filesToExtract header.Name).1)
      else ExtractTarLoop filesToExtract rest remaining dir
    else ExtractTarLoop filesToExtract rest remaining dir

/-- `ExtractTar(filesToExtract, basePath, tarFileName)` on an archive that
opens and reads without error: `archive` is its sequence of entries, `dir`
the directory `basePath`. -/
def ExtractTar (filesToExtract : List String) (dir : Dir) (archive : List TarEntry) :
    Dir × GoError :=
  ExtractTarLoop filesToExtract archive filesToExtract.length dir

/-- `v1.Hash` of go-containerregistry. -/
structure Hash where
  Algorithm : String
  Hex : String

/-- `Hash.String()`. -/
def Hash.string (h : Hash) : String := h.Algorithm ++ ":" ++ h.Hex

/-- A layer as `FindLargestLayer` sees it: the results of `Digest()` and
`Size()`. -/
structure Layer where
  digest : Hash
  size : Int

/-- An image as `FindLargestLayer` sees it: the result of `Layers()`. -/
structure Image where
  Layers : Except String (List Layer)

/-- The `for i := range layers[start+1:]` loop of `FindLargestLayer`, over
the index values `is`. -/
def largestLoop (layers : List Layer) :
    List Nat → Hash × Int → Outcome (Hash × Int)
  | [], acc => Outcome.ok acc
  | i :: is, (maxSizeHash, maxSize) =>
    match layers[i]? with
    | none => Outcome.panic "index out of range"
    | some layer =>
      if layer.size > maxSize then largestLoop layers is (layer.digest, layer.size)
      else largestLoop layers is (maxSizeHash, maxSize)

/-- `FindLargestLayer(img)`: digest (hex part) and size. -/
def FindLargestLayer (img : Image) : Outcome (String × Int) :=
  match img.Layers with
  | Except.error e => Outcome.error ("error getting layers: " ++ e)
  | Except.ok layers =>
    let start := if layers.length ≥ 2 then 1 else 0
    match layers[start]? with
    | none => Outcome.panic "index out of range"
    | some first =>
      match largestLoop layers (List.range (layers.drop (start + 1)).length)
          (first.digest, first.size) with
      | Outcome.ok (maxSizeHash, maxSize) =>
        match (Split maxSizeHash.string ':')[1]? with
        | some hex => Outcome.ok (hex, maxSize)
        | none => Outcome.panic "index out of range"
      | Outcome.error e => Outcome.error e
      | Outcome.panic e => Outcome.panic e

/-! ## handlers/service.go -/

def latestAssets : List String :=
  ["opt/bin/minio", "opt/bin/minio.sha256sum", "opt/bin/minio.minisig"]

def legacyAssets : List String :=
  ["usr/bin/minio", "usr/bin/minio.sha256sum", "usr/bin/minio.minisig"]

/-- The artifact-location step of `createContentImage`: the modern attempt,
and the legacy attempt when the modern one returns an error.  The flag says
whether the legacy attempt ran. -/
def locateArtifacts (dir : Dir) (archive : List TarEntry) : Dir × GoError × Bool :=
  match ExtractTar latestAssets dir archive with
  | (dir₁, none) => (dir₁, none, false)
  | (dir₁, some _) =>
    ((ExtractTar legacyAssets dir₁ archive).1, (ExtractTar legacyAssets dir₁ archive).2, true)

/-- The result of `time.Parse` without a zone: a UTC instant in civil form,
the fraction of the second in nanoseconds. -/
structure Instant where
  year : Nat
  month : Nat
  day : Nat
  hour : Nat
  minute : Nat
  second : Nat
  nanosecond : Nat
  deriving DecidableEq, Repr

deriving instance DecidableEq for Except

/-! ### time.Parse of the Go standard library, for the two layouts -/

/-! `nextStdChunk` cuts the layout `2006-01-02T15-04-05Z` into the chunks
`2006`, `01`, `02`, `15`, `04`, `05` with the literal text `-`, `-`, `T`,
`-`, `-` before them and the literal `Z` at the end (a `Z` that `07` does not
follow is not a zone chunk); the backup layout has `:` for the last two
hyphens.  The functions below are those of `time/format.go` that `parse` runs
on these chunks.  The text of a parse error is not modelled. -/

/-- The value of a decimal digit: `int(c - 48)`. -/
def digit (c : Char) : Nat := c.toNat - 48

/-- The decimal value of a string of digits. -/
def decimal (s : List Char) : Nat :=
  s.foldl (fun n c => 10 * n + digit c) 0

/-- `isDigit(s, i)`: the string has a character at `i` and it is a digit. -/
def isDigit (s : List Char) (i : Nat) : Bool :=
  match s.get? i with
  | some c => c.isDigit
  | none => false

/-- `commaOrPeriod(c)`. -/
def commaOrPeriod (c : Char) : Bool := c = '.' || c = ','

/-- `atoi(s)` on a string that starts with a digit, which is how `parse`
calls it: the value when every character is a digit, an error otherwise. -/
def atoi (s : List Char) : Option Nat :=
  if s.all Char.isDigit then some (decimal s) else none

/-- `getnum(s, fixed)`: the number in `s[0:1]` or `s[0:2]` (`fixed` forces
two digits) and the rest of the string. -/
def getnum (s : List Char) (fixed : Bool) : Option (Nat × List Char) :=
  if !isDigit s 0 then none
  else if !isDigit s 1 then
    if fixed then none else some (decimal (s.take 1), s.drop 1)
  else some (decimal (s.take 2), s.drop 2)

/-- `skip(value, lit)` for a literal of one character other than a blank. -/
def skip (value : List Char) (lit : Char) : Option (List Char) :=
  match value with
  | [] => none
  | c :: rest => if c = lit then some rest else none

/-- `parseNanoseconds(value, nbytes)`: the digits of `value[1:nbytes]`, nine at
most, scaled to nanoseconds. -/
def parseNanoseconds (value : List Char) (nbytes : Nat) : Option Nat :=
  match value with
  | [] => none
  | c :: _ =>
    if !commaOrPeriod c then none
    else
      let value := if nbytes > 10 then value.take 10 else value
      let nbytes := if nbytes > 10 then 10 else nbytes
      (atoi ((value.take nbytes).drop 1)).map (fun ns => ns * 10 ^ (10 - nbytes))

/-- The fractional second that `parse` accepts after the seconds although the
layout has none: a comma or period followed by digits.  The result is the
nanoseconds and the rest of the string. -/
def fractionalSecond (value : List Char) : Option (Nat × List Char) :=
  if value.length ≥ 2 && isDigit value 1 &&
      (match value with
       | c :: _ => commaOrPeriod c
       | [] => false) then
    let n := 1 + ((value.drop 1).takeWhile Char.isDigit).length
    (parseNanoseconds value n).map (fun nsec => (nsec, value.drop n))
  else some (0, value)

/-- `daysIn(m, year)`. -/
def daysIn (m year : Nat) : Nat :=
  if m = 2 ∧ (year % 4 = 0 ∧ (year % 100 ≠ 0 ∨ year % 400 = 0)) then 29
  else if m = 2 then 28
  else if m = 4 ∨ m = 6 ∨ m = 9 ∨ m = 11 then 30 else 31

/-- `parse(layout, value, UTC, Local)` for the layout
`2006-01-02T15<sep>04<sep>05Z`, chunk by chunk: a range error ends the
parse at its chunk, the day is validated at the end. -/
def parse (sep : Char) (value : List Char) : Option Instant :=
  if value.length < 4 || !isDigit value 0 then none
  else
    (atoi (value.take 4)).bind fun year =>
    (skip (value.drop 4) '-').bind fun value =>
    (getnum value true).bind fun month =>
    if month.1 ≤ 0 ∨ 12 < month.1 then none
    else
      (skip month.2 '-').bind fun value =>
      (getnum value true).bind fun day =>
      (skip day.2 'T').bind fun value =>
      (getnum value false).bind fun hour =>
      if 24 ≤ hour.1 then none
      else
        (skip hour.2 sep).bind fun value =>
        (getnum value true).bind fun min =>
        if 60 ≤ min.1 then none
        else
          (skip min.2 sep).bind fun value =>
          (getnum value true).bind fun sec =>
          if 60 ≤ sec.1 then none
          else
            (fractionalSecond sec.2).bind fun nsec =>
            (skip nsec.2 'Z').bind fun value =>
            if value.length ≠ 0 then none
            else if day.1 < 1 ∨ day.1 > daysIn month.1 year then none
            else
              some ⟨year, month.1, day.1, hour.1, min.1, sec.1, nsec.1⟩

/-- `time.Parse(layout, value)` for the two layouts of `util.go`.  Another
layout is outside the model. -/
def timeParse (layout value : String) : Except String Instant :=
  let sep : Option Char :=
    if layout = releaseTagTimeLayout then some '-'
    else if layout = releaseTagTimeLayoutBackup then some ':' else none
  match sep with
  | none => Except.error "layout outside the model"
  | some c =>
    match parse c value.data with
    | some t => Except.ok t
    | none => Except.error ("parsing time " ++ value ++ ": cannot parse")

/-! ### Timestamps in words -/

/-- A string of exactly `n` decimal digits. -/
def Digits (n : Nat) (s : List Char) : Prop :=
  s.length = n ∧ ∀ c ∈ s, c.isDigit = true

/-- A fractional second in a timestamp: nothing, or a period or comma
followed by one or more digits. -/
def Fraction (f : List Char) : Prop :=
  f = [] ∨ ∃ p ds, f = p :: ds ∧ (p = '.' ∨ p = ',') ∧ ds ≠ [] ∧ ∀ c ∈ ds, c.isDigit = true

/-- The nanoseconds a fractional second stands for: its first nine digits,
filled up with zeros on the right. -/
def nanoseconds (f : List Char) : Nat :=
  decimal ((f.drop 1).take 9) * 10 ^ (9 - min 9 (f.length - 1))

/-- The timestamps of the layout with separator `sep` and the instants they
stand for: `YYYY-MM-DDTHH<sep>MM<sep>SS` followed by `Z`, where the hour may
have one digit and a fractional second may follow the seconds; the month is
1 to 12, the day exists in that month, the hour is below 24, minute and
second are below 60. -/
def Timestamp (sep : Char) (s : List Char) (t : Instant) : Prop :=
  ∃ Y M D h m sc f : List Char,
    s = Y ++ ('-' :: (M ++ ('-' :: (D ++ ('T' :: (h ++ (sep :: (m ++ (sep :: (sc ++
      (f ++ ['Z']))))))))))) ∧
    Digits 4 Y ∧ Digits 2 M ∧ Digits 2 D ∧ (Digits 1 h ∨ Digits 2 h) ∧ Digits 2 m ∧
    Digits 2 sc ∧ Fraction f ∧
    t = ⟨decimal Y, decimal M, decimal D, decimal h, decimal m, decimal sc, nanoseconds f⟩ ∧
    1 ≤ t.month ∧ t.month ≤ 12 ∧ 1 ≤ t.day ∧ t.day ≤ daysIn t.month t.year ∧
    t.hour < 24 ∧ t.minute < 60 ∧ t.second < 60

/-- The strict shape `YYYY-MM-DDTHH<sep>MM<sep>SSZ`: twenty characters, digits
at the places of the letters. -/
def strictShape (sep : Char) (s : String) : Bool :=
  match s.data with
  | [y₁, y₂, y₃, y₄, d₁, m₁, m₂, d₂, a₁, a₂, t, h₁, h₂, s₁, n₁, n₂, s₂, c₁, c₂, z] =>
    [y₁, y₂, y₃, y₄, m₁, m₂, a₁, a₂, h₁, h₂, n₁, n₂, c₁, c₂].all Char.isDigit &&
      d₁ = '-' && d₂ = '-' && t = 'T' && s₁ = sep && s₂ = sep && z = 'Z'
  | _ => false

/-! ### Calls with Delete -/

/-- A call of the cache interface: `Set`, `Get` or `Delete`. -/
inductive Op (T : Type) where
  | set (key : String) (value : T) (now : Int)
  | get (key : String) (now₁ now₂ : Int)
  | delete (key : String)

/-- The state after one call. -/
def Op.apply [Inhabited T] (c : LRUCache T) : Op T → LRUCache T
  | Op.set k v now => Set c k v now
  | Op.get k now₁ now₂ => (Get c k now₁ now₂).1
  | Op.delete k => Delete c k

/-- `unicode.IsSpace`. -/
def IsSpace (ch : Char) : Bool :=
  let n := ch.toNat
  decide ((9 ≤ n ∧ n ≤ 13) ∨ n = 32 ∨ n = 0x85 ∨ n = 0xA0 ∨ n = 0x1680 ∨
    (0x2000 ≤ n ∧ n ≤ 0x200A) ∨ n = 0x2028 ∨ n = 0x2029 ∨ n = 0x202F ∨ n = 0x205F ∨
    n = 0x3000)

/-- `strings.TrimSpace(s)`. -/
def TrimSpace (s : String) : String :=
  String.mk (((s.data.dropWhile IsSpace).reverse.dropWhile IsSpace).reverse)

/-- The lookup `labels[key]` of a `map[string]string` with the comma-ok flag. -/
def labelGet : List (String × String) → String → String × Bool
  | [], _ => ("", false)
  | (k, v) :: rest, key => if k = key then (v, true) else labelGet rest key

/-- `Binaries`: the artifact descriptor. -/
structure Binaries where
  Minio : String
  MinioSha256 : String
  Minisig : String
  deriving DecidableEq, Repr

/-- `ImgRefs`.  A `name.Reference` is kept as the string it stands for. -/
structure ImgRefs where
  Tag : String
  Reference : String
  Img : Image

/-- `RetrieveContentServiceImpl`. -/
structure RetrieveContentServiceImpl where
  basePath : String
  cache : LRUCache String

/-- A call to an external collaborator: the registry client, the file system
or the archive reader, with the arguments that identify it. -/
inductive Event where
  | parseReference (imageName : String)
  | remoteImage (imageName : String)
  | configFile (imageName : String)
  | stat (path : String)
  | mkdirAll (hashbasePath : String)
  | create (hashbasePath : String)
  | tarballWrite (ref : String)
  | extractTar (files : List String) (basePath tarFileName : String)
  | rename (hashbasePath src dest : String)
  | remove (path : String)
  deriving DecidableEq, Repr

/-- The events of `createContentImage`. -/
def Event.isExtraction : Event → Bool
  | Event.mkdirAll _ => true
  | Event.create _ => true
  | Event.tarballWrite _ => true
  | Event.extractTar _ _ _ => true
  | Event.rename _ _ _ => true
  | Event.remove _ => true
  | _ => false

/-- What the external collaborators answer during one call of the service.
The contents of the file system are not tracked: a file-system call is
reduced to the error it returns. -/
structure Env where
  /-- `name.ParseReference(imageName)`. -/
  ParseReference : String → Except String String
  /-- `remote.Image(ref, ...)`, by the image name. -/
  RemoteImage : String → Except String Image
  /-- `img.ConfigFile()`, by the image name, reduced to `cfg.Config.Labels`. -/
  ConfigFile : String → Except String (List (String × String))
  /-- `os.Stat(path)`. -/
  Stat : String → GoError
  /-- `os.MkdirAll(filepath.Dir(hashbasePath), 0777)`, by `hashbasePath`. -/
  MkdirAll : String → GoError
  /-- `os.Create(path.Join(hashbasePath, "image.tar"))`, by `hashbasePath`. -/
  Create : String → GoError
  /-- `tarball.Write(ref, img, f)`. -/
  TarballWrite : String → Image → GoError
  /-- `utils.ExtractTar(filesToExtract, basePath, tarFileName)`. -/
  ExtractTar : List String → String → String → GoError
  /-- `time.Parse(layout, value)`. -/
  timeParse : String → String → Except String Instant
  /-- The position of the order in which `range filesToRename` visits the map
  among the orders of its three entries. -/
  mapOrder : Nat
  /-- `os.Rename(path.Join(hashbasePath, src), path.Join(hashbasePath, dest))`,
  by `hashbasePath`, `src` and `dest`. -/
  Rename : String → String → String → GoError
  /-- `os.Remove(path)`. -/
  Remove : String → GoError

/-- `utils.FetchImage(imageName)` with the calls it makes. -/
def FetchImage (env : Env) (imageName : String) : Except String Image × List Event :=
  match env.ParseReference imageName with
  | Except.error e => (Except.error ("error parsing image name: " ++ e),
      [Event.parseReference imageName])
  | Except.ok _ =>
    match env.RemoteImage imageName with
    | Except.error e => (Except.error ("error fetching image: " ++ e),
        [Event.parseReference imageName, Event.remoteImage imageName])
    | Except.ok img => (Except.ok img,
        [Event.parseReference imageName, Event.remoteImage imageName])

/-- `GetTag(imageName)` with the calls it makes. -/
def GetTag (env : Env) (imageName : String) : Except String ImgRefs × List Event :=
  match env.ParseReference imageName with
  | Except.error e => (Except.error e, [Event.parseReference imageName])
  | Except.ok ref =>
    match FetchImage env imageName with
    | (Except.error e, ev) => (Except.error e, Event.parseReference imageName :: ev)
    | (Except.ok img, ev) =>
      match env.ConfigFile imageName with
      | Except.error e =>
        (Except.error e, Event.parseReference imageName :: ev ++ [Event.configFile imageName])
      | Except.ok labels =>
        let first := labelGet labels "release"
        let sel := if !first.2 then labelGet labels "version" else first
        let tag := TrimSpace sel.1
        if !sel.2 || tag = "" then
          (Except.error "release tag not found",
            Event.parseReference imageName :: ev ++ [Event.configFile imageName])
        else
          (Except.ok { Tag := tag, Reference := ref, Img := img },
            Event.parseReference imageName :: ev ++ [Event.configFile imageName])

/-- All orders of a list. -/
def orderings {α : Type} : List α → List (List α)
  | [] => [[]]
  | a :: l =>
    (orderings l).flatMap (fun p => (List.range (p.length + 1)).map (fun i => p.insertIdx i a))

/-- The order in which a `range` over a map with the entries `l` visits them,
picked by `n`. -/
def rangeOrder {α : Type} (n : Nat) (l : List α) : List α :=
  (orderings l).getD (n % (orderings l).length) l

/-- The map `filesToRename` of `createContentImage`. -/
def filesToRename (tag : String) : List (String × String) :=
  [("minio", "minio." ++ tag),
   ("minio.sha256sum", "minio." ++ tag ++ ".sha256sum"),
   ("minio.minisig", "minio." ++ tag ++ ".minisig")]

/-- The rename loop of `createContentImage` over the entries in the order of
the `range`: the first error ends it. -/
def renameAll (env : Env) (hashbasePath : String) : List (String × String) → GoError × List Event
  | [] => (none, [])
  | (src, dest) :: rest =>
    match env.Rename hashbasePath src dest with
    | some e => (some e, [Event.rename hashbasePath src dest])
    | none =>
      ((renameAll env hashbasePath rest).1,
        Event.rename hashbasePath src dest :: (renameAll env hashbasePath rest).2)

/-- `createContentImage(basePath, refImg)`: the three results of the Go
function, or a panic, with the calls it makes. -/
def createContentImage (env : Env) (basePath : String) (refImg : ImgRefs) :
    Outcome (Option Binaries × String × GoError) × List Event :=
  match FindLargestLayer refImg.Img with
  | Outcome.panic msg => (Outcome.panic msg, [])
  | Outcome.error e => (Outcome.ok (none, "", some e), [])
  | Outcome.ok (largestLayerHash, _) =>
    let hashbasePath := basePath ++ "/" ++ largestLayerHash ++ "/"
    match env.MkdirAll hashbasePath with
    | some e => (Outcome.ok (none, "", some e), [Event.mkdirAll hashbasePath])
    | none =>
    match env.Create hashbasePath with
    | some e => (Outcome.ok (none, "", some e),
        [Event.mkdirAll hashbasePath, Event.create hashbasePath])
    | none =>
    match env.TarballWrite refImg.Reference refImg.Img with
    | some e => (Outcome.ok (none, "", some e),
        [Event.mkdirAll hashbasePath, Event.create hashbasePath,
         Event.tarballWrite refImg.Reference])
    | none =>
    let fileNameToExtract := largestLayerHash ++ ".tar.gz"
    let ev₁ := [Event.mkdirAll hashbasePath, Event.create hashbasePath,
      Event.tarballWrite refImg.Reference,
      Event.extractTar [fileNameToExtract] hashbasePath "image.tar"]
    match env.ExtractTar [fileNameToExtract] hashbasePath "image.tar" with
    | some e => (Outcome.ok (none, "", some e), ev₁)
    | none =>
    let located : GoError × List Event :=
      match env.ExtractTar latestAssets hashbasePath fileNameToExtract with
      | none => (none, [Event.extractTar latestAssets hashbasePath fileNameToExtract])
      | some _ => (env.ExtractTar legacyAssets hashbasePath fileNameToExtract,
          [Event.extractTar latestAssets hashbasePath fileNameToExtract,
           Event.extractTar legacyAssets hashbasePath fileNameToExtract])
    match located.1 with
    | some e => (Outcome.ok (none, "", some e), ev₁ ++ located.2)
    | none =>
    match ParseReleaseTag env.timeParse refImg.Tag with
    | Except.error e => (Outcome.ok (none, "", some e), ev₁ ++ located.2)
    | Except.ok _ =>
    let renamed := renameAll env hashbasePath (rangeOrder env.mapOrder (filesToRename refImg.Tag))
    match renamed.1 with
    | some e => (Outcome.ok (none, "", some e), ev₁ ++ located.2 ++ renamed.2)
    | none =>
    match env.Remove (hashbasePath ++ "/" ++ fileNameToExtract) with
    | some e => (Outcome.ok (none, "", some e),
        ev₁ ++ located.2 ++ renamed.2 ++ [Event.remove (hashbasePath ++ "/" ++ fileNameToExtract)])
    | none =>
    match env.Remove (hashbasePath ++ "/" ++ "image.tar") with
    | some e => (Outcome.ok (none, "", some e),
        ev₁ ++ located.2 ++ renamed.2 ++
          [Event.remove (hashbasePath ++ "/" ++ fileNameToExtract),
           Event.remove (hashbasePath ++ "/" ++ "image.tar")])
    | none =>
      (Outcome.ok
        (some { Minio := "minio." ++ refImg.Tag
                MinioSha256 := "minio." ++ refImg.Tag ++ ".sha256sum"
                Minisig := "minio." ++ refImg.Tag ++ ".minisig" },
          largestLayerHash, none),
        ev₁ ++ located.2 ++ renamed.2 ++
          [Event.remove (hashbasePath ++ "/" ++ fileNameToExtract),
           Event.remove (hashbasePath ++ "/" ++ "image.tar")])

/-- `r.RetrieveContent(imageName)`: the service afterwards, the two results of
the Go method (or a panic) and the calls made.  `now₁`, `now₂` are the clock
readings of the cache's `Get`, `now₃` the one of its `Set`. -/
def RetrieveContent (r : RetrieveContentServiceImpl) (env : Env) (imageName : String)
    (now₁ now₂ now₃ : Int) :
    RetrieveContentServiceImpl × Outcome (Option Binaries × GoError) × List Event :=
  match GetTag env imageName with
  | (Except.error e, ev) => (r, Outcome.ok (none, some e), ev)
  | (Except.ok refImg, ev) =>
    let got := Get r.cache refImg.Tag now₁ now₂
    let r₁ : RetrieveContentServiceImpl := { r with cache := got.1 }
    if got.2.2 then
      let basePath := r.basePath ++ "/" ++ got.2.1 ++ "/"
      match env.Stat basePath with
      | some e => (r₁, Outcome.ok (none, some e), ev ++ [Event.stat basePath])
      | none =>
        (r₁,
          Outcome.ok
            (some { Minio := "minio." ++ refImg.Tag
                    MinioSha256 := "minio." ++ refImg.Tag ++ ".sha256sum"
                    Minisig := "minio." ++ refImg.Tag ++ ".minisig" }, none),
          ev ++ [Event.stat basePath])
    else
      match createContentImage env r.basePath refImg with
      | (Outcome.panic msg, ev₁) => (r₁, Outcome.panic msg, ev ++ ev₁)
      | (Outcome.error msg, ev₁) => (r₁, Outcome.error msg, ev ++ ev₁)
      | (Outcome.ok (data, hash, err), ev₁) =>
        if err = none then
          ({ r₁ with cache := Set r₁.cache refImg.Tag hash now₃ }, Outcome.ok (data, err),
            ev ++ ev₁)
        else (r₁, Outcome.ok (data, err), ev ++ ev₁)

/-- `NewRetrieveService(basePath)`: a cache of 20 entries with a TTL of ten
minutes, in nanoseconds. -/
def NewRetrieveService (basePath : String) : Outcome RetrieveContentServiceImpl :=
  match NewLRUCache String 20 (10 * 60000000000) with
  | Outcome.ok cache => Outcome.ok { basePath := basePath, cache := cache }
  | Outcome.error msg => Outcome.error msg
  | Outcome.panic msg => Outcome.panic msg

/-! ## Concrete inputs -/

/-- A new cache of capacity 2 with a TTL of 10. -/
def exNew : LRUCache Nat :=
  { mem := fun _ => Node.zero Nat, fresh := 0, items := [], head := none, tail := none,
    capacity := 2, ttl := 10, stopClosed := false }

/-- The cache `exNew` after `Set("a", 1)` at time 5: `a` expires at 15. -/
def exOne : LRUCache Nat := Set exNew "a" 1 5

/-- A new cache of capacity 2 without expiration. -/
def exNoTTL : LRUCache Nat :=
  { mem := fun _ => Node.zero Nat, fresh := 0, items := [], head := none, tail := none,
    capacity := 2, ttl := 0, stopClosed := false }

/-- The calls `Set a`, `Set b`, `Get a`, `Set c`, `Get b`. -/
def exCalls : List (Call Nat) :=
  [Call.set "a" 1 0, Call.set "b" 2 0, Call.get "a" 0 0, Call.set "c" 3 0, Call.get "b" 0 0]

/-- The sweep scenario, start: capacity 2, TTL 10, `Set("a", 1)` at time 1,
so `a` expires at 11. -/
def sweepStart : LRUCache Nat := Set exNew "a" 1 1

/-- The sweep scenario, scan at time 20: the nodes collected as expired. -/
def sweepCandidates : List Nat := cleanupScan sweepStart 20

/-- The sweep scenario, between scan and removal: `Get("a")` at 20 (a miss
that removes the expired node), then `Set("a", 2)` and `Set("b", 3)` at 21. -/
def sweepMiddle : LRUCache Nat := Set (Set (Get sweepStart "a" 20 20).1 "a" 2 21) "b" 3 21

/-- The sweep scenario, removal at time 22. -/
def sweepEnd : LRUCache Nat := cleanupRemove sweepMiddle sweepCandidates 22

def sha256 (hex : String) : Hash := { Algorithm := "sha256", Hex := hex }

/-- Layers of sizes 10, 50, 5. -/
def layersSpecExample : Image :=
  { Layers := Except.ok [⟨sha256 "aa", 10⟩, ⟨sha256 "bb", 50⟩, ⟨sha256 "cc", 5⟩] }

/-- Layers of sizes 10, 5, 50: the largest candidate is the last layer. -/
def layersLastLargest : Image :=
  { Layers := Except.ok [⟨sha256 "aa", 10⟩, ⟨sha256 "bb", 5⟩, ⟨sha256 "cc", 50⟩] }

/-- Layers of sizes 100, 50, 5: the first layer is the largest of the image. -/
def layersFirstLargest : Image :=
  { Layers := Except.ok [⟨sha256 "aa", 100⟩, ⟨sha256 "bb", 50⟩, ⟨sha256 "cc", 5⟩] }

/-- An image without layers. -/
def noLayers : Image := { Layers := Except.ok [] }

/-- An empty directory. -/
def emptyDir : Dir := fun _ => none

/-- A nested archive with one modern entry and a legacy checksum stored twice. -/
def mixedArchive : List TarEntry :=
  [⟨"opt/bin/minio", TypeReg, "modern binary"⟩,
   ⟨"usr/bin/minio.sha256sum", TypeReg, "legacy checksum 1"⟩,
   ⟨"usr/bin/minio.sha256sum", TypeReg, "legacy checksum 2"⟩,
   ⟨"usr/bin/minio.minisig", TypeReg, "legacy signature"⟩]

/-- The orphan scenario, between scan and removal: `Get("a")` at 20 (a miss
that removes the expired node), then `Set("b", 2)` at 21, which expires at
31. -/
def orphanMiddle : LRUCache Nat := Set (Get sweepStart "a" 20 20).1 "b" 2 21

/-- The orphan scenario, removal at time 22 and `Set("c", 3)` at 23: the map
holds `b` and `c`, the recency list only `c`. -/
def orphanState : LRUCache Nat :=
  Set (cleanupRemove orphanMiddle sweepCandidates 22) "c" 3 23

/-- The eviction scenario: after the scan at 20, `Set("b", 2)` and
`Set("c", 3)` at 21 evict `a`; then the removal at 22.  The map holds `b` and
`c`, two entries for a capacity of 2, and `head` and `tail` are nil. -/
def evictedState : LRUCache Nat :=
  cleanupRemove (Set (Set sweepStart "b" 2 21) "c" 3 21) sweepCandidates 22

/-- The cache `exOne` after `Set("b", 2)` at time 6: `b` before `a`. -/
def exTwo : LRUCache Nat := Set exOne "b" 2 6

/-- A cache of capacity 1 whose TTL is one nanosecond. -/
def exShortTTL : LRUCache Nat :=
  { mem := fun _ => Node.zero Nat, fresh := 0, items := [], head := none, tail := none,
    capacity := 1, ttl := 1, stopClosed := false }

/-- The release tag of the example image. -/
def exTag : String := "RELEASE.2024-01-02T03-04-05Z"

/-- A registry that holds one image, with layers of sizes 10, 50, 5 and a
`release` label padded with blanks, and a file system on which every call
succeeds. -/
def exEnv : Env :=
  { ParseReference := fun imageName => Except.ok imageName
    RemoteImage := fun _ => Except.ok layersSpecExample
    ConfigFile := fun _ => Except.ok [("maintainer", "minio"), ("release", "  " ++ exTag ++ "\n")]
    Stat := fun _ => none
    MkdirAll := fun _ => none
    Create := fun _ => none
    TarballWrite := fun _ _ => none
    ExtractTar := fun _ _ _ => none
    timeParse := timeParse
    mapOrder := 0
    Rename := fun _ _ _ => none
    Remove := fun _ => none }

/-- A registry whose image has no layers. -/
def exEnvNoLayers : Env :=
  { exEnv with RemoteImage := fun _ => Except.ok noLayers }

/-- The cache of a new service. -/
def exCache : LRUCache String :=
  { mem := fun _ => Node.zero String, fresh := 0, items := [], head := none, tail := none,
    capacity := 20, ttl := 600000000000, stopClosed := false }

/-- A new service over `/data`. -/
def exService : RetrieveContentServiceImpl := { basePath := "/data", cache := exCache }

/-- The registry of `exEnv` with a blank `release` label next to a `version`
label. -/
def exEnvBlank : Env :=
  { exEnv with ConfigFile := fun _ => Except.ok [("version", "1.0"), ("release", " \t ")] }

/-- The registry of `exEnv` with a `version` label only. -/
def exEnvVersion : Env :=
  { exEnv with ConfigFile := fun _ => Except.ok [("version", " 1.0 ")] }

/-- An archive with the modern binary stored twice, the checksum and no
signature. -/
def repeatedArchive : List TarEntry :=
  [⟨"opt/bin/minio", TypeReg, "binary 1"⟩,
   ⟨"opt/bin/minio", TypeReg, "binary 2"⟩,
   ⟨"opt/bin/minio.sha256sum", TypeReg, "checksum"⟩]

/-- An archive with the three modern artifacts, the binary stored twice. -/
def completeArchive : List TarEntry :=
  [⟨"opt/bin/minio", TypeReg, "binary 1"⟩,
   ⟨"opt/bin/minio.sha256sum", TypeReg, "checksum"⟩,
   ⟨"opt/bin/minio.minisig", TypeReg, "signature"⟩,
   ⟨"opt/bin/minio", TypeReg, "binary 2"⟩]

/-! ## Auxiliary notions -/

/-- The entries of an archive that `ExtractTar` extracts: regular files whose
name is one of `filesToExtract`. -/
def extracted (filesToExtract : List String) (archive : List TarEntry) : List TarEntry :=
  archive.filter (fun e => decide (e.Typeflag = TypeReg) && (FindInSlice filesToExtract e.Name).2)

/-! ## Lemmas: linked segments and the map -/

/-- A segment over an appended list splits at the junction. -/
theorem Lseg_append (f : Node T → Option Nat) (m : Nat → Node T) (l₁ l₂ : List Nat)
    (a b : Option Nat) :
    Lseg f m a (l₁ ++ l₂) b ↔ ∃ x, Lseg f m a l₁ x ∧ Lseg f m x l₂ b := by
  induction l₁ generalizing a with
  | nil => simp [Lseg]
  | cons p l ih =>
    show (a = some p ∧ Lseg f m (f (m p)) (l ++ l₂) b) ↔
      ∃ x, (a = some p ∧ Lseg f m (f (m p)) l x) ∧ Lseg f m x l₂ b
    rw [ih]
    constructor
    · rintro ⟨h, x, h1, h2⟩; exact ⟨x, ⟨h, h1⟩, h2⟩
    · rintro ⟨x, ⟨h, h1⟩, h2⟩; exact ⟨h, x, h1, h2⟩

theorem Lseg_snoc (f : Node T → Option Nat) (m : Nat → Node T) (l : List Nat) (p : Nat)
    (a b : Option Nat) :
    Lseg f m a (l ++ [p]) b ↔ Lseg f m a l (some p) ∧ f (m p) = b := by
  rw [Lseg_append]
  constructor
  · rintro ⟨x, h1, h2, h3⟩; subst h2; exact ⟨h1, h3⟩
  · rintro ⟨h1, h2⟩; exact ⟨some p, h1, rfl, h2⟩

/-- A segment only depends on the pointer field of its own nodes. -/
theorem Lseg_congr (f : Node T → Option Nat) (m m' : Nat → Node T) (ps : List Nat)
    (a b : Option Nat) (h : ∀ p ∈ ps, f (m' p) = f (m p)) :
    Lseg f m' a ps b ↔ Lseg f m a ps b := by
  induction ps generalizing a with
  | nil => simp [Lseg]
  | cons p l ih =>
    simp only [Lseg]
    rw [h p (List.mem_cons_self _ _), ih _ (fun q hq => h q (List.mem_cons_of_mem _ hq))]

/-- A segment that ends in `nil` starts at the head of its list. -/
theorem Lseg_head (f : Node T → Option Nat) (m : Nat → Node T) (ps : List Nat)
    (a : Option Nat) (h : Lseg f m a ps none) : a = ps.head? := by
  cases ps with
  | nil => simpa [Lseg] using h
  | cons p l => simpa [Lseg] using h.1

/-- Following `next` along a segment visits exactly its nodes. -/
theorem walk_of_Lseg (m : Nat → Node T) (ps : List Nat) (a : Option Nat)
    (h : Lseg Node.next m a ps none) : walk m ps.length a = ps := by
  induction ps generalizing a with
  | nil => simp [walk]
  | cons p l ih =>
    obtain ⟨h1, h2⟩ := h
    subst h1
    simp [walk, ih _ h2]

theorem mapGet_eq_some_iff (l : List (String × Nat)) (hl : (l.map Prod.fst).Nodup)
    (k : String) (p : Nat) : mapGet l k = some p ↔ (k, p) ∈ l := by
  induction l with
  | nil => simp [mapGet]
  | cons e l ih =>
    obtain ⟨k', p'⟩ := e
    simp only [List.map_cons, List.nodup_cons, List.mem_map, not_exists, not_and] at hl
    simp only [mapGet, List.mem_cons, Prod.mk.injEq]
    by_cases hk : k' = k
    · subst hk
      simp only [if_true, Option.some.injEq, true_and]
      constructor
      · intro h; exact Or.inl h.symm
      · rintro (h | h)
        · exact h.symm
        · exact absurd rfl (hl.1 (k', p) h)
    · simp only [hk, if_false, ih hl.2]
      constructor
      · intro h; exact Or.inr h
      · rintro (h | h)
        · exact absurd h.1.symm hk
        · exact h

theorem mapGet_eq_none_iff (l : List (String × Nat)) (k : String) :
    mapGet l k = none ↔ ∀ p, (k, p) ∉ l := by
  induction l with
  | nil => simp [mapGet]
  | cons e l ih =>
    obtain ⟨k', p'⟩ := e
    simp only [mapGet, List.mem_cons, Prod.mk.injEq, not_or, not_and]
    by_cases hk : k' = k
    · subst hk
      simp only [if_true]
      constructor
      · intro h; cases h
      · intro h; exact absurd rfl ((h p').1 trivial)
    · simp only [hk, if_false, ih]
      constructor
      · intro h p; exact ⟨fun h' => absurd h'.symm hk, h p⟩
      · intro h p; exact (h p).2

/-- What `unlinkNode` writes: the fields of the cache and of every node afterwards. -/
theorem unlinkNode_spec (c : LRUCache T) (p : Nat)
    (hp : (c.mem p).prev ≠ some p) (hn : (c.mem p).next ≠ some p) :
    (unlinkNode c p).items = c.items ∧ (unlinkNode c p).fresh = c.fresh ∧
    (unlinkNode c p).capacity = c.capacity ∧ (unlinkNode c p).ttl = c.ttl ∧
    (unlinkNode c p).stopClosed = c.stopClosed ∧
    (unlinkNode c p).head = (if (c.mem p).prev = none then (c.mem p).next else c.head) ∧
    (unlinkNode c p).tail = (if (c.mem p).next = none then (c.mem p).prev else c.tail) ∧
    (∀ r, ((unlinkNode c p).mem r).entry = (c.mem r).entry) ∧
    ((unlinkNode c p).mem p).prev = none ∧ ((unlinkNode c p).mem p).next = none ∧
    (∀ r, r ≠ p → ((unlinkNode c p).mem r).next =
      if (c.mem p).prev = some r then (c.mem p).next else (c.mem r).next) ∧
    (∀ r, r ≠ p → ((unlinkNode c p).mem r).prev =
      if (c.mem p).next = some r then (c.mem p).prev else (c.mem r).prev) := by
  cases h1 : (c.mem p).prev with
  | none =>
    cases h2 : (c.mem p).next with
    | none =>
      simp [unlinkNode, h1, h2, store, Node.entry]
      refine ⟨?_, ?_, ?_⟩
      · intro r; split_ifs <;> simp_all
      · intro r hr; simp [hr]
      · intro r hr; simp [hr]
    | some b =>
      have hb : b ≠ p := fun h => hn (by rw [h2, h])
      simp [unlinkNode, h1, h2, store, Node.entry, hb.symm]
      refine ⟨?_, ?_, ?_⟩
      · intro r; split_ifs <;> simp_all
      · intro r hr; simp [hr]; split_ifs <;> first | rfl | (subst_vars; rfl)
      · intro r hr; simp [hr]; split_ifs <;> first | rfl | (subst_vars; simp_all)
  | some a =>
    have ha : a ≠ p := fun h => hp (by rw [h1, h])
    cases h2 : (c.mem p).next with
    | none =>
      simp [unlinkNode, h1, h2, store, Node.entry, ha.symm]
      refine ⟨?_, ?_, ?_⟩
      · intro r; split_ifs <;> simp_all
      · intro r hr; simp [hr]; split_ifs <;> first | rfl | (subst_vars; simp_all)
      · intro r hr; simp [hr]; split_ifs <;> first | rfl | (subst_vars; rfl)
    | some b =>
      have hb : b ≠ p := fun h => hn (by rw [h2, h])
      simp [unlinkNode, h1, h2, store, Node.entry, ha.symm, hb.symm]
      refine ⟨?_, ?_, ?_⟩
      · intro r; split_ifs <;> simp_all
      · intro r hr; simp [hr]; split_ifs <;> first | rfl | (subst_vars; simp_all)
      · intro r hr; simp [hr]; split_ifs <;> first | rfl | (subst_vars; simp_all)

/-- What `addToFront` writes: the fields of the cache and of every node afterwards. -/
theorem addToFront_spec (c : LRUCache T) (p : Nat) (hh : c.head ≠ some p) :
    (addToFront c p).items = c.items ∧ (addToFront c p).fresh = c.fresh ∧
    (addToFront c p).capacity = c.capacity ∧ (addToFront c p).ttl = c.ttl ∧
    (addToFront c p).stopClosed = c.stopClosed ∧
    (addToFront c p).head = some p ∧
    (addToFront c p).tail = (if c.tail = none then some p else c.tail) ∧
    (∀ r, ((addToFront c p).mem r).entry = (c.mem r).entry) ∧
    ((addToFront c p).mem p).prev = none ∧ ((addToFront c p).mem p).next = c.head ∧
    (∀ r, r ≠ p → ((addToFront c p).mem r).next = (c.mem r).next) ∧
    (∀ r, r ≠ p → ((addToFront c p).mem r).prev =
      if c.head = some r then some p else (c.mem r).prev) := by
  cases h1 : c.head with
  | none =>
    by_cases ht : c.tail = none
    · simp [addToFront, h1, ht, store, Node.entry]
      refine ⟨?_, ?_, ?_⟩
      · intro r; split_ifs <;> simp_all
      · intro r hr; simp [hr]
      · intro r hr; simp [hr]
    · simp [addToFront, h1, ht, store, Node.entry]
      refine ⟨?_, ?_, ?_⟩
      · intro r; split_ifs <;> simp_all
      · intro r hr; simp [hr]
      · intro r hr; simp [hr]
  | some a =>
    have ha : a ≠ p := fun h => hh (by rw [h1, h])
    by_cases ht : c.tail = none
    · simp [addToFront, h1, ht, store, Node.entry, ha, ha.symm]
      refine ⟨?_, ?_, ?_⟩
      · intro r; split_ifs <;> simp_all
      · intro r hr; simp [hr]; split_ifs <;> first | rfl | (subst_vars; rfl)
      · intro r hr; simp [hr]; split_ifs <;> first | rfl | (subst_vars; simp_all)
    · simp [addToFront, h1, ht, store, Node.entry, ha, ha.symm]
      refine ⟨?_, ?_, ?_⟩
      · intro r; split_ifs <;> simp_all
      · intro r hr; simp [hr]; split_ifs <;> first | rfl | (subst_vars; rfl)
      · intro r hr; simp [hr]; split_ifs <;> first | rfl | (subst_vars; simp_all)

/-- Removing `p` from a segment: its predecessor (or the start pointer) takes over the link of `p`. -/
theorem Lseg_remove (f : Node T → Option Nat) (m m' : Nat → Node T) (l₁ l₂ : List Nat)
    (p : Nat) (h h' g : Option Nat) (hnd : (l₁ ++ p :: l₂).Nodup)
    (H : Lseg f m h (l₁ ++ p :: l₂) none) (hg : g = l₁.getLast?)
    (hh : h' = if g = none then f (m p) else h)
    (hm : ∀ r, r ≠ p → f (m' r) = if g = some r then f (m p) else f (m r)) :
    Lseg f m' h' (l₁ ++ l₂) none := by
  rw [Lseg_append] at H
  obtain ⟨x, H1, hx, H2⟩ := H
  subst hx
  have hp1 : p ∉ l₁ := fun hp => by
    have := List.nodup_append.1 hnd
    exact this.2.2 hp (List.mem_cons_self _ _)
  have hp2 : p ∉ l₂ := by
    have := (List.nodup_append.1 hnd).2.1
    exact (List.nodup_cons.1 this).1
  rcases List.eq_nil_or_concat l₁ with rfl | ⟨l, q, rfl⟩
  · simp only [List.getLast?_nil] at hg
    subst hg
    rw [if_pos rfl] at hh
    subst hh
    simp only [List.nil_append]
    rw [Lseg_congr f m m' l₂ _ _ (fun r hr => ?_)]
    · exact H2
    · rw [hm r (fun h => hp2 (h ▸ hr))]; simp
  · simp only [List.concat_eq_append] at hg hnd hp1 H1 ⊢
    simp at hg
    subst hg
    rw [if_neg (by simp)] at hh
    subst hh
    rw [Lseg_snoc] at H1
    have hq : q ≠ p := fun h => hp1 (by simp [h])
    rw [List.append_assoc, Lseg_append]
    refine ⟨some q, ?_, ?_⟩
    · rw [Lseg_congr f m m' l _ _ (fun r hr => ?_)]
      · exact H1.1
      · have hrq : r ≠ q := by
          rintro rfl
          have := (List.nodup_append.1 (List.nodup_append.1 hnd).1).2.2 hr (List.mem_singleton_self _)
          exact this
        have hrp : r ≠ p := fun h => hp1 (by simp [← h, hr])
        rw [hm r hrp]; simp [hrq.symm]
    · show some q = some q ∧ Lseg f m' (f (m' q)) l₂ none
      refine ⟨rfl, ?_⟩
      rw [hm q hq]; simp only [if_true]
      rw [Lseg_congr f m m' l₂ _ _ (fun r hr => ?_)]
      · exact H2
      · have hrq : r ≠ q := by
          rintro rfl
          exact (List.nodup_append.1 hnd).2.2 (by simp) (List.mem_cons_of_mem _ hr)
        rw [hm r (fun h => hp2 (h ▸ hr))]; simp [hrq.symm]

/-- In a linked list the pointers of a node are its neighbours. -/
theorem Linked_ptrs (c : LRUCache T) (l₁ l₂ : List Nat) (p : Nat)
    (h : Linked c (l₁ ++ p :: l₂)) :
    (c.mem p).prev = l₁.getLast? ∧ (c.mem p).next = l₂.head? ∧ p ∉ l₁ ∧ p ∉ l₂ := by
  obtain ⟨hnd, hf, hb⟩ := h
  have hp1 : p ∉ l₁ := fun hp =>
    (List.nodup_append.1 hnd).2.2 hp (List.mem_cons_self _ _)
  have hp2 : p ∉ l₂ := (List.nodup_cons.1 (List.nodup_append.1 hnd).2.1).1
  rw [Lseg_append] at hf
  obtain ⟨x, _, hx, hf2⟩ := hf
  have hb' : Lseg Node.prev c.mem c.tail (l₂.reverse ++ p :: l₁.reverse) none := by
    simpa using hb
  rw [Lseg_append] at hb'
  obtain ⟨y, _, hy, hb2⟩ := hb'
  have e1 := Lseg_head _ _ _ _ hf2
  have e2 := Lseg_head _ _ _ _ hb2
  rw [List.head?_reverse] at e2
  exact ⟨e2, e1, hp1, hp2⟩

/-- `unlinkNode` takes a node out of the linked list. -/
theorem unlinkNode_linked (c : LRUCache T) (l₁ l₂ : List Nat) (p : Nat)
    (h : Linked c (l₁ ++ p :: l₂)) : Linked (unlinkNode c p) (l₁ ++ l₂) := by
  obtain ⟨e1, e2, hp1, hp2⟩ := Linked_ptrs c l₁ l₂ p h
  have hp : (c.mem p).prev ≠ some p := fun h' =>
    hp1 (List.mem_of_getLast?_eq_some (e1 ▸ h'))
  have hn : (c.mem p).next ≠ some p := fun h' =>
    hp2 (List.mem_of_mem_head? (by rw [← e2, h']; rfl))
  obtain ⟨-, -, -, -, -, hhead, htail, -, -, -, hnext, hprev⟩ := unlinkNode_spec c p hp hn
  obtain ⟨hnd, hf, hb⟩ := h
  refine ⟨?_, ?_, ?_⟩
  · have := List.nodup_append.1 hnd
    exact List.nodup_append.2 ⟨this.1, (List.nodup_cons.1 this.2.1).2,
      fun a h1 h2 => this.2.2 h1 (List.mem_cons_of_mem _ h2)⟩
  · exact Lseg_remove Node.next c.mem _ l₁ l₂ p c.head _ (c.mem p).prev hnd hf e1 hhead hnext
  · rw [List.reverse_append]
    have hnd' : (l₂.reverse ++ p :: l₁.reverse).Nodup := by
      have := List.nodup_reverse.2 hnd
      simpa using this
    have hb' : Lseg Node.prev c.mem c.tail (l₂.reverse ++ p :: l₁.reverse) none := by
      simpa using hb
    exact Lseg_remove Node.prev c.mem _ l₂.reverse l₁.reverse p c.tail _ (c.mem p).next hnd' hb'
      (by rw [e2, List.getLast?_reverse]) htail hprev

/-- `addToFront` puts a node that is not in the list in front of it. -/
theorem addToFront_linked (c : LRUCache T) (ps : List Nat) (p : Nat)
    (h : Linked c ps) (hp : p ∉ ps) : Linked (addToFront c p) (p :: ps) := by
  obtain ⟨hnd, hf, hb⟩ := h
  have e1 := Lseg_head _ _ _ _ hf
  have e2 := Lseg_head _ _ _ _ hb
  rw [List.head?_reverse] at e2
  have hh : c.head ≠ some p := fun h' =>
    hp (List.mem_of_mem_head? (by rw [← e1, h']; rfl))
  obtain ⟨-, -, -, -, -, hhead, htail, -, hpp, hpn, hnext, hprev⟩ := addToFront_spec c p hh
  refine ⟨List.nodup_cons.2 ⟨hp, hnd⟩, ?_, ?_⟩
  · refine ⟨hhead, ?_⟩
    rw [hpn, Lseg_congr Node.next c.mem _ ps _ _ (fun r hr => hnext r (fun h' => hp (h' ▸ hr)))]
    exact hf
  · rw [List.reverse_cons, Lseg_snoc]
    refine ⟨?_, hpp⟩
    rw [htail]
    cases ps with
    | nil =>
      simp only [List.getLast?_nil] at e2
      simp [e2, Lseg]
    | cons hd tl =>
      have ht : c.tail ≠ none := by
        rw [e2]; simp [List.getLast?_eq_none_iff]
      have eh : c.head = some hd := by simpa using e1
      rw [if_neg ht, List.reverse_cons, Lseg_snoc]
      rw [List.reverse_cons, Lseg_snoc] at hb
      have hhd : hd ≠ p := fun h' => hp (by simp [h'])
      refine ⟨?_, ?_⟩
      · rw [Lseg_congr Node.prev c.mem _ tl.reverse _ _ (fun r hr => ?_)]
        · exact hb.1
        · have hr' : r ∈ tl := List.mem_reverse.1 hr
          have h1 : r ≠ p := fun h' => hp (by simp [← h', hr'])
          have h2 : hd ≠ r := fun h' => (List.nodup_cons.1 hnd).1 (h' ▸ hr')
          rw [hprev r h1, eh]; simp [h2]
      · rw [hprev hd hhd, eh]; simp

theorem WF.linked {c : LRUCache T} {ps : List Nat} (h : WF c ps) : Linked c ps :=
  ⟨h.nodup, h.fwd, h.bwd⟩

theorem WF.length_items {c : LRUCache T} {ps : List Nat} (h : WF c ps) :
    c.items.length = ps.length := by
  rw [h.perm.length_eq, List.length_map]

theorem WF.order_eq {c : LRUCache T} {ps : List Nat} (h : WF c ps) : order c = ps := by
  unfold order
  rw [h.length_items]
  exact walk_of_Lseg _ _ _ h.fwd

theorem WF.items_nodup {c : LRUCache T} {ps : List Nat} (h : WF c ps) :
    (c.items.map Prod.fst).Nodup := by
  have := (h.perm.map Prod.fst).nodup_iff
  rw [this, List.map_map]
  exact h.distinct

theorem WF.mem_items {c : LRUCache T} {ps : List Nat} (h : WF c ps) (k : String) (p : Nat) :
    (k, p) ∈ c.items ↔ p ∈ ps ∧ (c.mem p).key = k := by
  rw [h.perm.mem_iff, List.mem_map]
  constructor
  · rintro ⟨q, hq, he⟩
    simp only [Prod.mk.injEq] at he
    obtain ⟨h1, h2⟩ := he
    subst h2
    exact ⟨hq, h1⟩
  · rintro ⟨hp, hk⟩
    exact ⟨p, hp, by rw [hk]⟩

theorem WF.mapGet_some {c : LRUCache T} {ps : List Nat} (h : WF c ps) (k : String) (p : Nat) :
    mapGet c.items k = some p ↔ p ∈ ps ∧ (c.mem p).key = k := by
  rw [mapGet_eq_some_iff _ h.items_nodup, h.mem_items]

theorem WF.mapGet_none {c : LRUCache T} {ps : List Nat} (h : WF c ps) (k : String) :
    mapGet c.items k = none ↔ ∀ p ∈ ps, (c.mem p).key ≠ k := by
  rw [mapGet_eq_none_iff]
  constructor
  · intro h' p hp hk
    exact h' p ((h.mem_items k p).2 ⟨hp, hk⟩)
  · intro h' p hp
    exact h' p ((h.mem_items k p).1 hp).1 ((h.mem_items k p).1 hp).2

theorem WF.entries_eq {c : LRUCache T} {ps : List Nat} (h : WF c ps) :
    entries c = ps.map (fun p => (c.mem p).entry) := by
  unfold entries; rw [h.order_eq]

theorem WF.keys_eq {c : LRUCache T} {ps : List Nat} (h : WF c ps) :
    keys c = ps.map (fun p => (c.mem p).key) := by
  unfold keys; rw [h.order_eq]

theorem key_of_entry {m m' : Nat → Node T} {r : Nat}
    (h : (m' r).entry = (m r).entry) : (m' r).key = (m r).key :=
  congrArg Entry.key h

theorem filter_remove {α : Type} (g : Nat → α) (kf : α → String) (l₁ l₂ : List Nat) (p : Nat)
    (hk : ((l₁ ++ p :: l₂).map fun q => kf (g q)).Nodup) :
    ((l₁ ++ p :: l₂).map g).filter (fun e => decide (kf e ≠ kf (g p))) =
      (l₁ ++ l₂).map g := by
  have hne : ∀ q, q ∈ l₁ ∨ q ∈ l₂ → kf (g q) ≠ kf (g p) := by
    intro q hq heq
    rw [List.map_append, List.map_cons, List.nodup_append] at hk
    rcases hq with hq | hq
    · exact hk.2.2 (List.mem_map.2 ⟨q, hq, rfl⟩) (by rw [heq]; exact List.mem_cons_self _ _)
    · exact (List.nodup_cons.1 hk.2.1).1 (List.mem_map.2 ⟨q, hq, heq⟩)
  rw [List.map_append, List.map_cons, List.filter_append, List.filter_cons]
  simp only [ne_eq, not_true_eq_false, decide_False, Bool.false_eq_true, if_false]
  rw [List.map_append]
  congr 1
  · rw [List.filter_eq_self]
    intro e he
    obtain ⟨q, hq, rfl⟩ := List.mem_map.1 he
    simpa using hne q (Or.inl hq)
  · rw [List.filter_eq_self]
    intro e he
    obtain ⟨q, hq, rfl⟩ := List.mem_map.1 he
    simpa using hne q (Or.inr hq)

/-- `removeNode` on a node of the list keeps the invariant, drops that node and changes no entry. -/
theorem removeNode_WF (c : LRUCache T) (l₁ l₂ : List Nat) (p : Nat)
    (h : WF c (l₁ ++ p :: l₂)) :
    WF (removeNode c p) (l₁ ++ l₂) ∧
    (∀ r, ((removeNode c p).mem r).entry = (c.mem r).entry) ∧
    (removeNode c p).fresh = c.fresh ∧ (removeNode c p).capacity = c.capacity ∧
    (removeNode c p).ttl = c.ttl ∧ (removeNode c p).stopClosed = c.stopClosed := by
  have hl : Linked { c with items := mapDelete c.items (c.mem p).key } (l₁ ++ p :: l₂) :=
    h.linked
  obtain ⟨e1, e2, hp1, hp2⟩ := Linked_ptrs _ l₁ l₂ p hl
  have hp : (c.mem p).prev ≠ some p := fun h' =>
    hp1 (List.mem_of_getLast?_eq_some (e1 ▸ h'))
  have hn : (c.mem p).next ≠ some p := fun h' =>
    hp2 (List.mem_of_mem_head? (by rw [← e2, h']; rfl))
  obtain ⟨hitems, hfresh, hcap, httl, hstop, -, -, hent, -, -, -, -⟩ :=
    unlinkNode_spec { c with items := mapDelete c.items (c.mem p).key } p hp hn
  have hl' := unlinkNode_linked _ l₁ l₂ p hl
  have hkeys : ∀ r, ((removeNode c p).mem r).key = (c.mem r).key := fun r =>
    key_of_entry (hent r)
  refine ⟨⟨hl'.1, hl'.2.1, hl'.2.2, ?_, ?_, ?_⟩, hent, hfresh, hcap, httl, hstop⟩
  · intro r hr
    show r < (removeNode c p).fresh
    rw [show (removeNode c p).fresh = c.fresh from hfresh]
    apply h.lt
    rcases List.mem_append.1 hr with hr | hr
    · exact List.mem_append_left _ hr
    · exact List.mem_append_right _ (List.mem_cons_of_mem _ hr)
  · show (removeNode c p).items.Perm _
    rw [show (removeNode c p).items = mapDelete c.items (c.mem p).key from hitems]
    have := h.perm.filter (fun e => decide (e.1 ≠ (c.mem p).key))
    rw [filter_remove (fun q => ((c.mem q).key, q)) Prod.fst l₁ l₂ p h.distinct] at this
    simp only [hkeys]
    exact this
  · simp only [hkeys]
    have := h.distinct
    rw [List.map_append, List.map_cons] at this
    rw [List.map_append]
    have h3 := List.nodup_append.1 this
    exact List.nodup_append.2 ⟨h3.1, (List.nodup_cons.1 h3.2.1).2,
      fun a h1 h2 => h3.2.2 h1 (List.mem_cons_of_mem _ h2)⟩

/-! ## Lemmas: the list operations preserve the invariant -/

theorem Linked_self (c : LRUCache T) (l₁ l₂ : List Nat) (p : Nat)
    (h : Linked c (l₁ ++ p :: l₂)) :
    (c.mem p).prev ≠ some p ∧ (c.mem p).next ≠ some p := by
  obtain ⟨e1, e2, hp1, hp2⟩ := Linked_ptrs c l₁ l₂ p h
  exact ⟨fun h' => hp1 (List.mem_of_getLast?_eq_some (e1 ▸ h')),
    fun h' => hp2 (List.mem_of_mem_head? (by rw [← e2, h']; rfl))⟩

theorem Linked_head_ne (c : LRUCache T) (ps : List Nat) (p : Nat)
    (h : Linked c ps) (hp : p ∉ ps) : c.head ≠ some p := by
  have e1 := Lseg_head _ _ _ _ h.2.1
  exact fun h' => hp (List.mem_of_mem_head? (by rw [← e1, h']; rfl))

/-- `moveToFront` on a node of the list keeps the invariant, moves that node to the front and changes no entry. -/
theorem moveToFront_WF (c : LRUCache T) (l₁ l₂ : List Nat) (p : Nat)
    (h : WF c (l₁ ++ p :: l₂)) :
    WF (moveToFront c p) (p :: (l₁ ++ l₂)) ∧
    (∀ r, ((moveToFront c p).mem r).entry = (c.mem r).entry) ∧
    (moveToFront c p).fresh = c.fresh ∧ (moveToFront c p).capacity = c.capacity ∧
    (moveToFront c p).ttl = c.ttl ∧ (moveToFront c p).stopClosed = c.stopClosed := by
  obtain ⟨e1, e2, hp1, hp2⟩ := Linked_ptrs c l₁ l₂ p h.linked
  by_cases hh : some p = c.head
  · have hl : l₁ = [] := by
      have e := Lseg_head _ _ _ _ h.fwd
      cases l₁ with
      | nil => rfl
      | cons a l =>
        rw [← hh] at e
        simp only [List.cons_append, List.head?_cons, Option.some.injEq] at e
        exact absurd (by simp [e]) hp1
    subst hl
    have hm : moveToFront c p = c := by simp [moveToFront, hh]
    rw [hm]
    exact ⟨by simpa using h, fun _ => rfl, rfl, rfl, rfl, rfl⟩
  · obtain ⟨hp, hn⟩ := Linked_self c l₁ l₂ p h.linked
    obtain ⟨hi1, hf1, hc1, ht1, hs1, -, -, hent1, -, -, -, -⟩ := unlinkNode_spec c p hp hn
    have hl1 := unlinkNode_linked c l₁ l₂ p h.linked
    have hp12 : p ∉ l₁ ++ l₂ := fun h' => (List.mem_append.1 h').elim hp1 hp2
    have hne := Linked_head_ne _ _ p hl1 hp12
    obtain ⟨hi2, hf2, hc2, ht2, hs2, -, -, hent2, -, -, -, -⟩ :=
      addToFront_spec (unlinkNode c p) p hne
    have hl2 := addToFront_linked _ _ p hl1 hp12
    have hmv : moveToFront c p = addToFront (unlinkNode c p) p := by
      simp [moveToFront, hh]
    rw [hmv]
    have hent : ∀ r, ((addToFront (unlinkNode c p) p).mem r).entry = (c.mem r).entry :=
      fun r => (hent2 r).trans (hent1 r)
    have hkeys : ∀ r, ((addToFront (unlinkNode c p) p).mem r).key = (c.mem r).key :=
      fun r => key_of_entry (hent r)
    refine ⟨⟨hl2.1, hl2.2.1, hl2.2.2, ?_, ?_, ?_⟩, hent, hf2.trans hf1, hc2.trans hc1,
      ht2.trans ht1, hs2.trans hs1⟩
    · intro r hr
      rw [hf2.trans hf1]
      apply h.lt
      rcases List.mem_cons.1 hr with rfl | hr
      · simp
      · rcases List.mem_append.1 hr with hr | hr
        · exact List.mem_append_left _ hr
        · exact List.mem_append_right _ (List.mem_cons_of_mem _ hr)
    · rw [hi2.trans hi1]
      simp only [hkeys]
      exact h.perm.trans (List.perm_middle.map _)
    · simp only [hkeys]
      exact ((List.perm_middle.map _).nodup_iff).1 h.distinct

/-- `removeOldest` keeps the invariant and drops the last node of the list. -/
theorem removeOldest_WF (c : LRUCache T) (ps : List Nat) (h : WF c ps) :
    WF (removeOldest c) ps.dropLast ∧
    (∀ r, ((removeOldest c).mem r).entry = (c.mem r).entry) ∧
    (removeOldest c).fresh = c.fresh ∧ (removeOldest c).capacity = c.capacity ∧
    (removeOldest c).ttl = c.ttl ∧ (removeOldest c).stopClosed = c.stopClosed := by
  have e2 := Lseg_head _ _ _ _ h.bwd
  rw [List.head?_reverse] at e2
  rcases List.eq_nil_or_concat ps with rfl | ⟨l, q, rfl⟩
  · simp only [List.getLast?_nil] at e2
    have hm : removeOldest c = c := by simp [removeOldest, e2]
    rw [hm]
    exact ⟨h, fun _ => rfl, rfl, rfl, rfl, rfl⟩
  · simp only [List.concat_eq_append] at h e2 ⊢
    have e3 : c.tail = some q := by simpa using e2
    have hm : removeOldest c = removeNode c q := by simp [removeOldest, e3]
    rw [hm, List.dropLast_concat]
    have := removeNode_WF c l [] q h
    rw [List.append_nil] at this
    exact this

/-- Overwriting value and expiration of a node keeps the invariant. -/
theorem store_data_WF (c : LRUCache T) (ps : List Nat) (h : WF c ps) (p : Nat) (n : Node T)
    (hk : n.key = (c.mem p).key) (hp : n.prev = (c.mem p).prev)
    (hn : n.next = (c.mem p).next) :
    WF { c with mem := store c.mem p n } ps := by
  have hnext : ∀ r, (store c.mem p n r).next = (c.mem r).next := by
    intro r; unfold store; split_ifs with hr
    · rw [hr, hn]
    · rfl
  have hprev : ∀ r, (store c.mem p n r).prev = (c.mem r).prev := by
    intro r; unfold store; split_ifs with hr
    · rw [hr, hp]
    · rfl
  have hkey : ∀ r, (store c.mem p n r).key = (c.mem r).key := by
    intro r; unfold store; split_ifs with hr
    · rw [hr, hk]
    · rfl
  refine ⟨h.nodup, ?_, ?_, h.lt, ?_, ?_⟩
  · exact (Lseg_congr Node.next c.mem _ ps _ _ (fun r _ => hnext r)).2 h.fwd
  · exact (Lseg_congr Node.prev c.mem _ ps.reverse _ _ (fun r _ => hprev r)).2 h.bwd
  · show c.items.Perm _
    simp only [hkey]
    exact h.perm
  · simp only [hkey]
    exact h.distinct

theorem Get_miss (c : LRUCache T) [Inhabited T] (k : String) (now₁ now₂ : Int)
    (hk : mapGet c.items k = none) : Get c k now₁ now₂ = (c, default, false) := by
  simp [Get, hk]

theorem Get_expired (c : LRUCache T) [Inhabited T] (k : String) (p : Nat) (now₁ now₂ : Int)
    (hk : mapGet c.items k = some p)
    (hexp : (c.mem p).expireAt ≠ 0 ∧ (c.mem p).expireAt < now₁) :
    Get c k now₁ now₂ = (removeNode c p, default, false) := by
  simp only [Get, hk]
  rw [if_pos hexp]

/-- `Get` on a present key that is not expired, at the level of nodes. -/
theorem Get_hit (c : LRUCache T) [Inhabited T] (l₁ l₂ : List Nat) (p : Nat) (k : String)
    (now₁ now₂ : Int) (h : WF c (l₁ ++ p :: l₂)) (hk : (c.mem p).key = k)
    (hlive : ¬ ((c.mem p).expireAt ≠ 0 ∧ (c.mem p).expireAt < now₁)) :
    WF (Get c k now₁ now₂).1 (p :: (l₁ ++ l₂)) ∧
    (Get c k now₁ now₂).2 = ((c.mem p).value, true) ∧
    ((Get c k now₁ now₂).1.mem p).entry =
      ⟨k, (c.mem p).value, if c.ttl > 0 then now₂ + c.ttl else (c.mem p).expireAt⟩ ∧
    (∀ q, q ≠ p → ((Get c k now₁ now₂).1.mem q).entry = (c.mem q).entry) ∧
    (Get c k now₁ now₂).1.fresh = c.fresh ∧ (Get c k now₁ now₂).1.capacity = c.capacity ∧
    (Get c k now₁ now₂).1.ttl = c.ttl ∧ (Get c k now₁ now₂).1.stopClosed = c.stopClosed := by
  have hg : mapGet c.items k = some p := (h.mapGet_some k p).2 ⟨by simp, hk⟩
  by_cases httl : c.ttl > 0
  · have h1 := store_data_WF c _ h p { c.mem p with expireAt := now₂ + c.ttl } rfl rfl rfl
    obtain ⟨hw, hent, hf, hc, ht, hs⟩ := moveToFront_WF _ l₁ l₂ p h1
    generalize hc₁ : ({ c with
      mem := store c.mem p ({ c.mem p with expireAt := now₂ + c.ttl }) } : LRUCache T) = c₁
      at hw hent hf hc ht hs
    have hG : Get c k now₁ now₂ = (moveToFront c₁ p, ((moveToFront c₁ p).mem p).value, true) := by
      simp only [Get, hg]
      rw [if_neg hlive, if_pos httl, hc₁]
    rw [hG]
    subst hc₁
    refine ⟨hw, ?_, ?_, ?_, hf, hc, ht, hs⟩
    · have := congrArg Entry.value (hent p)
      simp only [Node.entry, store, if_true] at this
      simp only [this]
    · rw [hent p]; simp [Node.entry, store, httl, hk]
    · intro q hq; rw [hent q]; simp [Node.entry, store, hq]
  · obtain ⟨hw, hent, hf, hc, ht, hs⟩ := moveToFront_WF _ l₁ l₂ p h
    have hG : Get c k now₁ now₂ = (moveToFront c p, ((moveToFront c p).mem p).value, true) := by
      simp only [Get, hg]
      rw [if_neg hlive, if_neg httl]
    rw [hG]
    refine ⟨hw, ?_, ?_, ?_, hf, hc, ht, hs⟩
    · have := congrArg Entry.value (hent p)
      simp only [Node.entry] at this
      simp only [this]
    · rw [hent p]; simp [Node.entry, httl, hk]
    · intro q _; exact hent q

/-- `Set` on a present key, at the level of nodes. -/
theorem Set_present (c : LRUCache T) (l₁ l₂ : List Nat) (p : Nat) (k : String) (v : T)
    (now : Int) (h : WF c (l₁ ++ p :: l₂)) (hk : (c.mem p).key = k) :
    WF (Set c k v now) (p :: (l₁ ++ l₂)) ∧
    ((Set c k v now).mem p).entry = ⟨k, v, if c.ttl > 0 then now + c.ttl else 0⟩ ∧
    (∀ q, q ≠ p → ((Set c k v now).mem q).entry = (c.mem q).entry) ∧
    (Set c k v now).fresh = c.fresh ∧ (Set c k v now).capacity = c.capacity ∧
    (Set c k v now).ttl = c.ttl ∧ (Set c k v now).stopClosed = c.stopClosed := by
  have hg : mapGet c.items k = some p := (h.mapGet_some k p).2 ⟨by simp, hk⟩
  have h1 := store_data_WF c _ h p
    { c.mem p with value := v, expireAt := if c.ttl > 0 then now + c.ttl else 0 } rfl rfl rfl
  obtain ⟨hw, hent, hf, hc, ht, hs⟩ := moveToFront_WF _ l₁ l₂ p h1
  have hS : Set c k v now = moveToFront { c with
      mem := store c.mem p
        ({ c.mem p with value := v, expireAt := if c.ttl > 0 then now + c.ttl else 0 }) } p := by
    simp only [Set, hg]
  rw [hS]
  refine ⟨hw, ?_, ?_, hf, hc, ht, hs⟩
  · rw [hent p]; simp [Node.entry, store, hk]
  · intro q hq; rw [hent q]; simp [Node.entry, store, hq]

theorem mapDelete_absent (items : List (String × Nat)) (k : String)
    (hk : mapGet items k = none) : mapDelete items k = items := by
  unfold mapDelete
  rw [List.filter_eq_self]
  intro e he
  have := (mapGet_eq_none_iff items k).1 hk e.2
  simp only [ne_eq, decide_not, Bool.not_eq_eq_eq_not, Bool.not_true, decide_eq_false_iff_not]
  intro h'
  exact this (by rw [← h']; exact he)

/-- `Set` on an absent key up to the capacity test, at the level of nodes. -/
theorem insertFront_WF (c : LRUCache T) (ps : List Nat) (k : String) (v : T) (e : Int)
    (h : WF c ps) (hk : mapGet c.items k = none) :
    WF (insertFront c k v e) (c.fresh :: ps) ∧
    ((insertFront c k v e).mem c.fresh).entry = ⟨k, v, e⟩ ∧
    (∀ q, q ≠ c.fresh → ((insertFront c k v e).mem q).entry = (c.mem q).entry) ∧
    (insertFront c k v e).fresh = c.fresh + 1 ∧ (insertFront c k v e).capacity = c.capacity ∧
    (insertFront c k v e).ttl = c.ttl ∧ (insertFront c k v e).stopClosed = c.stopClosed := by
  unfold insertFront
  generalize hc₂ : ({ c with
        mem := store c.mem c.fresh
          ({ key := k, value := v, expireAt := e, prev := none, next := none })
        fresh := c.fresh + 1
        items := mapSet c.items k c.fresh } : LRUCache T) = c₂
  have hmem : ∀ q, q ≠ c.fresh → c₂.mem q = c.mem q := by
    intro q hq; subst hc₂; simp [store, hq]
  have hmemf : c₂.mem c.fresh = { key := k, value := v, expireAt := e, prev := none, next := none } := by
    subst hc₂; simp [store]
  have hhead : c₂.head = c.head := by subst hc₂; rfl
  have htail : c₂.tail = c.tail := by subst hc₂; rfl
  have hitems : c₂.items = mapSet c.items k c.fresh := by subst hc₂; rfl
  have hfresh : c₂.fresh = c.fresh + 1 := by subst hc₂; rfl
  have hfr : c.fresh ∉ ps := fun h' => lt_irrefl _ (h.lt _ h')
  have hne : ∀ r ∈ ps, r ≠ c.fresh := fun r hr h' => hfr (h' ▸ hr)
  have hl : Linked c₂ ps := by
    refine ⟨h.nodup, ?_, ?_⟩
    · rw [hhead, Lseg_congr Node.next c.mem c₂.mem ps _ _ (fun r hr => by rw [hmem r (hne r hr)])]
      exact h.fwd
    · rw [htail, Lseg_congr Node.prev c.mem c₂.mem ps.reverse _ _
        (fun r hr => by rw [hmem r (hne r (List.mem_reverse.1 hr))])]
      exact h.bwd
  have hl' := addToFront_linked c₂ ps c.fresh hl hfr
  obtain ⟨hi, hf, hcap, httl, hstop, -, -, hent, -, -, -, -⟩ :=
    addToFront_spec c₂ c.fresh (Linked_head_ne c₂ ps _ hl hfr)
  have hkey : ∀ r ∈ ps, ((addToFront c₂ c.fresh).mem r).key = (c.mem r).key := by
    intro r hr
    rw [key_of_entry (hent r), hmem r (hne r hr)]
  have hkeyf : ((addToFront c₂ c.fresh).mem c.fresh).key = k := by
    rw [key_of_entry (hent c.fresh), hmemf]
  refine ⟨⟨hl'.1, hl'.2.1, hl'.2.2, ?_, ?_, ?_⟩, ?_, ?_, hf.trans hfresh,
    hcap.trans (by subst hc₂; rfl), httl.trans (by subst hc₂; rfl),
    hstop.trans (by subst hc₂; rfl)⟩
  · intro r hr
    rw [hf, hfresh]
    rcases List.mem_cons.1 hr with rfl | hr
    · exact Nat.lt_succ_self _
    · exact Nat.lt_succ_of_lt (h.lt r hr)
  · rw [hi, hitems, mapSet, mapDelete_absent _ _ hk, List.map_cons, hkeyf]
    refine List.Perm.cons _ ?_
    rw [List.map_congr_left (fun r hr => by rw [hkey r hr])]
    exact h.perm
  · rw [List.map_cons, hkeyf, List.map_congr_left (fun r hr => hkey r hr)]
    refine List.nodup_cons.2 ⟨?_, h.distinct⟩
    intro h'
    obtain ⟨r, hr, hrk⟩ := List.mem_map.1 h'
    exact (h.mapGet_none k).1 hk r hr hrk
  · rw [hent c.fresh, hmemf]; rfl
  · intro q hq; rw [hent q, hmem q hq]

/-- `Set` on an absent key, at the level of nodes. -/
theorem Set_absent (c : LRUCache T) (ps : List Nat) (k : String) (v : T) (now : Int)
    (h : WF c ps) (hk : mapGet c.items k = none) :
    WF (Set c k v now)
      (if ((ps.length + 1 : Nat) : Int) > c.capacity then (c.fresh :: ps).dropLast
       else c.fresh :: ps) ∧
    ((Set c k v now).mem c.fresh).entry = ⟨k, v, if c.ttl > 0 then now + c.ttl else 0⟩ ∧
    (∀ q, q ≠ c.fresh → ((Set c k v now).mem q).entry = (c.mem q).entry) ∧
    (Set c k v now).fresh = c.fresh + 1 ∧ (Set c k v now).capacity = c.capacity ∧
    (Set c k v now).ttl = c.ttl ∧ (Set c k v now).stopClosed = c.stopClosed := by
  obtain ⟨hw, he, hq, hf, hc, ht, hs⟩ :=
    insertFront_WF c ps k v (if c.ttl > 0 then now + c.ttl else 0) h hk
  have hS : Set c k v now =
      if ((insertFront c k v (if c.ttl > 0 then now + c.ttl else 0)).items.length : Int) >
          (insertFront c k v (if c.ttl > 0 then now + c.ttl else 0)).capacity
      then removeOldest (insertFront c k v (if c.ttl > 0 then now + c.ttl else 0))
      else insertFront c k v (if c.ttl > 0 then now + c.ttl else 0) := by
    simp only [Set, hk, insertFront]
  rw [hS, hw.length_items, hc, List.length_cons]
  generalize (if c.ttl > 0 then now + c.ttl else 0) = e at hw he hq hf hc ht hs ⊢
  by_cases hgt : ((ps.length + 1 : Nat) : Int) > c.capacity
  · rw [if_pos hgt, if_pos hgt]
    obtain ⟨hw', hent', hf', hc', ht', hs'⟩ := removeOldest_WF _ _ hw
    exact ⟨hw', (hent' _).trans he, fun q hq' => (hent' q).trans (hq q hq'),
      hf'.trans hf, hc'.trans hc, ht'.trans ht, hs'.trans hs⟩
  · rw [if_neg hgt, if_neg hgt]
    exact ⟨hw, he, hq, hf, hc, ht, hs⟩

/-! ## Lemmas: entries after Get and Set -/

theorem find_map_of_mem {α : Type} (g : Nat → α) (kf : α → String) (ps : List Nat) (p : Nat)
    (hk : (ps.map fun q => kf (g q)).Nodup) (hp : p ∈ ps) :
    (ps.map g).find? (fun e => decide (kf e = kf (g p))) = some (g p) := by
  induction ps with
  | nil => cases hp
  | cons a l ih =>
    rw [List.map_cons, List.nodup_cons] at hk
    rw [List.map_cons, List.find?_cons]
    by_cases ha : a = p
    · subst ha; simp
    · have hp' : p ∈ l := (List.mem_cons.1 hp).resolve_left (fun h => ha h.symm)
      have hne : kf (g a) ≠ kf (g p) := fun h' =>
        hk.1 (List.mem_map.2 ⟨p, hp', h'.symm⟩)
      simp only [hne, decide_False]
      exact ih hk.2 hp'

/-- Under the invariant the map and the recency list hold the same entries. -/
theorem WF.lookup_eq {c : LRUCache T} {ps : List Nat} (h : WF c ps) (k : String) :
    lookup c k = (entries c).find? (fun e => decide (e.key = k)) := by
  rw [h.entries_eq]
  unfold lookup
  cases hg : mapGet c.items k with
  | none =>
    have := (h.mapGet_none k).1 hg
    symm
    simp only [Option.map_none', List.find?_eq_none, List.mem_map, decide_eq_true_eq,
      forall_exists_index, and_imp]
    rintro e p hp rfl
    exact this p hp
  | some p =>
    obtain ⟨hp, hk⟩ := (h.mapGet_some k p).1 hg
    have := find_map_of_mem (fun q => (c.mem q).entry) Entry.key ps p h.distinct hp
    simp only [Option.map_some']
    rw [← hk]
    exact this.symm

theorem WF.lookup_some {c : LRUCache T} {ps : List Nat} (h : WF c ps) (k : String)
    (e : Entry T) (hl : lookup c k = some e) :
    ∃ l₁ l₂ p, ps = l₁ ++ p :: l₂ ∧ (c.mem p).key = k ∧ (c.mem p).entry = e ∧
      mapGet c.items k = some p := by
  unfold lookup at hl
  cases hg : mapGet c.items k with
  | none => rw [hg] at hl; cases hl
  | some p =>
    rw [hg] at hl
    obtain ⟨hp, hk⟩ := (h.mapGet_some k p).1 hg
    obtain ⟨l₁, l₂, rfl⟩ := List.append_of_mem hp
    exact ⟨l₁, l₂, p, rfl, hk, by simpa using hl, rfl⟩

theorem WF.mem_keys {c : LRUCache T} {ps : List Nat} (h : WF c ps) (k : String) :
    k ∈ keys c ↔ mapGet c.items k ≠ none := by
  rw [h.keys_eq, Ne, h.mapGet_none, List.mem_map]
  constructor
  · rintro ⟨p, hp, hk⟩ h'
    exact h' p hp hk
  · intro h'
    by_contra hc
    exact h' (fun p hp hk => hc ⟨p, hp, hk⟩)

theorem lookup_eq_none_iff (c : LRUCache T) (k : String) :
    lookup c k = none ↔ mapGet c.items k = none := by
  unfold lookup; cases mapGet c.items k <;> simp

theorem find_filter_ne {α : Type} (kf : α → String) (es : List α) (k k' : String)
    (hk : k' ≠ k) :
    (es.filter (fun e => decide (kf e ≠ k))).find? (fun e => decide (kf e = k')) =
      es.find? (fun e => decide (kf e = k')) := by
  induction es with
  | nil => rfl
  | cons a l ih =>
    by_cases h1 : kf a = k
    · have h2 : kf a ≠ k' := fun h' => hk (h'.symm.trans h1)
      simp [List.filter_cons, List.find?_cons, h1, h2, ← ih, hk.symm]
    · by_cases h2 : kf a = k'
      · simp [List.filter_cons, List.find?_cons, h1, h2, hk]
      · simp only [List.filter_cons, ne_eq, h1, not_false_eq_true, decide_True, if_true,
          List.find?_cons, h2, decide_False]
        exact ih

theorem entries_remove {c c' : LRUCache T} {l₁ l₂ : List Nat} {p : Nat}
    (h : WF c (l₁ ++ p :: l₂)) (h' : WF c' (l₁ ++ l₂))
    (hent : ∀ q, q ≠ p → (c'.mem q).entry = (c.mem q).entry) :
    entries c' = (entries c).filter (fun x => decide (x.key ≠ (c.mem p).key)) := by
  obtain ⟨-, -, hp1, hp2⟩ := Linked_ptrs c l₁ l₂ p h.linked
  have hf : List.filter (fun x => decide (x.key ≠ (c.mem p).key))
      ((l₁ ++ p :: l₂).map fun q => (c.mem q).entry) =
      (l₁ ++ l₂).map fun q => (c.mem q).entry :=
    filter_remove (fun q => (c.mem q).entry) Entry.key l₁ l₂ p h.distinct
  rw [h.entries_eq, h'.entries_eq, hf]
  refine List.map_congr_left (fun q hq => hent q ?_)
  rintro rfl
  exact (List.mem_append.1 hq).elim hp1 hp2

theorem entries_move {c c' : LRUCache T} {l₁ l₂ : List Nat} {p : Nat}
    (h : WF c (l₁ ++ p :: l₂)) (h' : WF c' (p :: (l₁ ++ l₂)))
    (hent : ∀ q, q ≠ p → (c'.mem q).entry = (c.mem q).entry) :
    entries c' =
      (c'.mem p).entry :: (entries c).filter (fun x => decide (x.key ≠ (c.mem p).key)) := by
  obtain ⟨-, -, hp1, hp2⟩ := Linked_ptrs c l₁ l₂ p h.linked
  have hf : List.filter (fun x => decide (x.key ≠ (c.mem p).key))
      ((l₁ ++ p :: l₂).map fun q => (c.mem q).entry) =
      (l₁ ++ l₂).map fun q => (c.mem q).entry :=
    filter_remove (fun q => (c.mem q).entry) Entry.key l₁ l₂ p h.distinct
  rw [h.entries_eq, h'.entries_eq, List.map_cons, hf]
  congr 1
  refine List.map_congr_left (fun q hq => hent q ?_)
  rintro rfl
  exact (List.mem_append.1 hq).elim hp1 hp2

theorem find_filter_self {α : Type} (kf : α → String) (es : List α) (k : String) :
    (es.filter (fun e => decide (kf e ≠ k))).find? (fun e => decide (kf e = k)) = none := by
  simp only [List.find?_eq_none, List.mem_filter, decide_eq_true_eq]
  rintro e ⟨-, he⟩
  exact he

theorem lookup_of_cons {c c' : LRUCache T} (hi : Inv c) (hi' : Inv c') (e : Entry T)
    (he : entries c' = e :: (entries c).filter (fun x => decide (x.key ≠ e.key))) (k' : String) :
    lookup c' k' = if k' = e.key then some e else lookup c k' := by
  obtain ⟨ps, h⟩ := hi
  obtain ⟨ps', h'⟩ := hi'
  rw [h'.lookup_eq, h.lookup_eq, he, List.find?_cons]
  by_cases hk : k' = e.key
  · simp [hk]
  · have : e.key ≠ k' := fun h'' => hk h''.symm
    simp only [this, decide_False, hk, if_false]
    exact find_filter_ne Entry.key _ _ _ hk

theorem lookup_of_filter {c c' : LRUCache T} (hi : Inv c) (hi' : Inv c') (k : String)
    (he : entries c' = (entries c).filter (fun x => decide (x.key ≠ k))) (k' : String) :
    lookup c' k' = if k' = k then none else lookup c k' := by
  obtain ⟨ps, h⟩ := hi
  obtain ⟨ps', h'⟩ := hi'
  rw [h'.lookup_eq, h.lookup_eq, he]
  by_cases hk : k' = k
  · subst hk; simp only [if_true]; exact find_filter_self Entry.key _ _
  · simp only [hk, if_false]
    exact find_filter_ne Entry.key _ _ _ hk

/-- The entries after a `Get` on a live key. -/
theorem Get_live_entries [Inhabited T] (c : LRUCache T) (k : String) (now₁ now₂ : Int)
    (e : Entry T) (hinv : Inv c) (hk : lookup c k = some e)
    (hlive : e.expireAt = 0 ∨ now₁ ≤ e.expireAt) :
    (Get c k now₁ now₂).2 = (e.value, true) ∧
    entries (Get c k now₁ now₂).1 =
      ⟨k, e.value, if c.ttl > 0 then now₂ + c.ttl else e.expireAt⟩ ::
        (entries c).filter (fun x => decide (x.key ≠ k)) ∧
    Inv (Get c k now₁ now₂).1 ∧
    (Get c k now₁ now₂).1.capacity = c.capacity ∧ (Get c k now₁ now₂).1.ttl = c.ttl := by
  obtain ⟨ps, h⟩ := hinv
  obtain ⟨l₁, l₂, p, rfl, hpk, hpe, -⟩ := h.lookup_some k e hk
  have hv : (c.mem p).value = e.value := by rw [← hpe]; rfl
  have hx : (c.mem p).expireAt = e.expireAt := by rw [← hpe]; rfl
  have hlive' : ¬ ((c.mem p).expireAt ≠ 0 ∧ (c.mem p).expireAt < now₁) := by
    rw [hx]
    rintro ⟨h1, h2⟩
    rcases hlive with h3 | h3
    · exact h1 h3
    · exact absurd h2 (not_lt.2 h3)
  obtain ⟨hw, hres, hent, hfr, -, hcap, httl, -⟩ := Get_hit c l₁ l₂ p k now₁ now₂ h hpk hlive'
  rw [hv] at hres
  rw [hv, hx] at hent
  have hE := entries_move h hw hfr
  rw [hent, hpk] at hE
  exact ⟨hres, hE, ⟨_, hw⟩, hcap, httl⟩

theorem keys_eq_map_entries (c : LRUCache T) : keys c = (entries c).map Entry.key := by
  unfold keys entries
  rw [List.map_map]
  rfl

/-- On a cache that satisfies the structural invariant: a `Get` on an absent
key returns the zero value and `false` and leaves the cache as it was.  With
`ttl > 0`, when the entry of `k` was last touched
at time `t` (its expiration is `t + ttl`; clock readings are not before the
zero instant), a `Get(k)` whose clock reading `now₁` is after `t + ttl`
returns the zero value and `false` and removes the entry: `k` is in neither
the map nor the recency list, and every other entry keeps its value,
expiration and relative position. -/
theorem Get_expired_removes [Inhabited T] (c : LRUCache T) (k : String) (now₁ now₂ : Int)
    (hinv : Inv c) :
    (lookup c k = none → Get c k now₁ now₂ = (c, default, false)) ∧
    (∀ (t : Int) (e : Entry T), 0 < c.ttl → 0 ≤ t → lookup c k = some e →
      e.expireAt = t + c.ttl → t + c.ttl < now₁ →
      (Get c k now₁ now₂).2 = (default, false) ∧
      lookup (Get c k now₁ now₂).1 k = none ∧
      k ∉ keys (Get c k now₁ now₂).1 ∧
      entries (Get c k now₁ now₂).1 = (entries c).filter (fun x => decide (x.key ≠ k)) ∧
      (∀ k', k' ≠ k → lookup (Get c k now₁ now₂).1 k' = lookup c k') ∧
      Inv (Get c k now₁ now₂).1) := by
  refine ⟨fun hk => Get_miss c k now₁ now₂ ((lookup_eq_none_iff c k).1 hk), ?_⟩
  intro t e httl ht hk he hnow
  obtain ⟨ps, h⟩ := hinv
  obtain ⟨l₁, l₂, p, rfl, hpk, hpe, hg⟩ := h.lookup_some k e hk
  have hx : (c.mem p).expireAt = t + c.ttl := by rw [← he, ← hpe]; rfl
  have hexp : (c.mem p).expireAt ≠ 0 ∧ (c.mem p).expireAt < now₁ := by
    rw [hx]; exact ⟨by omega, hnow⟩
  rw [Get_expired c k p now₁ now₂ hg hexp]
  obtain ⟨hw, hent, -⟩ := removeNode_WF c l₁ l₂ p h
  have hE := entries_remove h hw (fun q _ => hent q)
  rw [hpk] at hE
  have hL := lookup_of_filter ⟨_, h⟩ ⟨_, hw⟩ k hE
  refine ⟨rfl, ?_, ?_, hE, ?_, ⟨_, hw⟩⟩
  · have := hL k; simpa using this
  · show k ∉ keys (removeNode c p)
    rw [keys_eq_map_entries, hE]
    simp only [List.mem_map, List.mem_filter, decide_eq_true_eq, not_exists, not_and]
    rintro x ⟨-, hx1⟩ hx2
    exact hx1 hx2
  · intro k' hk'
    have := hL k'
    simpa [hk'] using this

/-- The entries after a `Set`. -/
theorem Set_entries (c : LRUCache T) (k : String) (v : T) (now : Int)
    (hinv : Inv c) (hcap : 1 ≤ c.capacity) (hn : (c.items.length : Int) ≤ c.capacity) :
    entries (Set c k v now) =
      ⟨k, v, if c.ttl > 0 then now + c.ttl else 0⟩ ::
        (if k ∈ keys c then (entries c).filter (fun x => decide (x.key ≠ k))
         else if (c.items.length : Int) < c.capacity then entries c
         else (entries c).dropLast) ∧
    Inv (Set c k v now) ∧
    ((Set c k v now).items.length : Int) ≤ c.capacity ∧
    (Set c k v now).capacity = c.capacity ∧ (Set c k v now).ttl = c.ttl := by
  obtain ⟨ps, h⟩ := hinv
  have key : ∃ ps', WF (Set c k v now) ps' ∧
      entries (Set c k v now) =
        ⟨k, v, if c.ttl > 0 then now + c.ttl else 0⟩ ::
          (if k ∈ keys c then (entries c).filter (fun x => decide (x.key ≠ k))
           else if (c.items.length : Int) < c.capacity then entries c
           else (entries c).dropLast) ∧
      (ps'.length : Int) ≤ c.capacity ∧
      (Set c k v now).capacity = c.capacity ∧ (Set c k v now).ttl = c.ttl := by
    cases hg : mapGet c.items k with
    | some p =>
      obtain ⟨hp, hpk⟩ := (h.mapGet_some k p).1 hg
      obtain ⟨l₁, l₂, rfl⟩ := List.append_of_mem hp
      obtain ⟨hw, hent, hfr, -, hc, ht, -⟩ := Set_present c l₁ l₂ p k v now h hpk
      have hE := entries_move h hw hfr
      rw [hent, hpk] at hE
      have hmem : k ∈ keys c := (h.mem_keys k).2 (by rw [hg]; simp)
      refine ⟨_, hw, ?_, ?_, hc, ht⟩
      · rw [if_pos hmem]; exact hE
      · have := h.length_items
        simp only [List.length_append, List.length_cons] at this ⊢
        omega
    | none =>
      obtain ⟨hw, hent, hfr, -, hc, ht, -⟩ := Set_absent c ps k v now h hg
      have hmem : k ∉ keys c := fun h' => (h.mem_keys k).1 h' hg
      have hlen := h.length_items
      have hfresh : c.fresh ∉ ps := fun h' => lt_irrefl _ (h.lt _ h')
      have hmap : ∀ l : List Nat, (∀ q ∈ l, q ∈ ps) →
          l.map (fun q => ((Set c k v now).mem q).entry) = l.map (fun q => (c.mem q).entry) :=
        fun l hl => List.map_congr_left (fun q hq => hfr q (fun h' => hfresh (h' ▸ hl q hq)))
      by_cases hlt : (c.items.length : Int) < c.capacity
      · have hgt : ¬ ((ps.length + 1 : Nat) : Int) > c.capacity := by
          rw [hlen] at hlt; push_cast; omega
        rw [if_neg hgt] at hw
        refine ⟨_, hw, ?_, ?_, hc, ht⟩
        · rw [if_neg hmem, if_pos hlt, hw.entries_eq, List.map_cons, hent, h.entries_eq,
            hmap ps (fun _ hq => hq)]
        · rw [hlen] at hlt; simp only [List.length_cons]; push_cast; omega
      · have hgt : ((ps.length + 1 : Nat) : Int) > c.capacity := by
          rw [hlen] at hlt hn; push_cast; omega
        have hne : ps ≠ [] := by
          rintro rfl
          simp at hgt
          omega
        rw [if_pos hgt, List.dropLast_cons_of_ne_nil hne] at hw
        refine ⟨_, hw, ?_, ?_, hc, ht⟩
        · rw [if_neg hmem, if_neg hlt, hw.entries_eq, List.map_cons, hent, h.entries_eq,
            hmap ps.dropLast (fun _ hq => List.mem_of_mem_dropLast hq), List.map_dropLast]
        · rw [hlen] at hn
          simp only [List.length_cons, List.length_dropLast]
          have : 0 < ps.length := List.length_pos.2 hne
          push_cast
          omega
  obtain ⟨ps', hw, hE, hlen', hc, ht⟩ := key
  refine ⟨hE, ⟨_, hw⟩, ?_, hc, ht⟩
  rw [hw.length_items]; exact hlen'

theorem Inv.lookup_find {c : LRUCache T} (h : Inv c) (k : String) :
    lookup c k = (entries c).find? (fun e => decide (e.key = k)) := by
  obtain ⟨ps, h⟩ := h
  exact h.lookup_eq k

/-! ## Lemmas: the resident set -/

/-- A new cache satisfies the invariant with an empty list. -/
theorem WF_new [Inhabited T] (capacity ttl : Int) (c : LRUCache T)
    (h : NewLRUCache T capacity ttl = Outcome.ok c) :
    WF c [] ∧ c.capacity = capacity ∧ c.ttl = ttl ∧ 0 < capacity := by
  unfold NewLRUCache at h
  split_ifs at h with hc
  simp only [Outcome.ok.injEq] at h
  subst h
  refine ⟨⟨List.nodup_nil, rfl, rfl, ?_, List.Perm.refl _, List.nodup_nil⟩, rfl, rfl, by omega⟩
  intro p hp; cases hp

/-- `Set` keeps the invariant. -/
theorem Inv_Set (c : LRUCache T) (k : String) (v : T) (now : Int) (h : Inv c) :
    Inv (Set c k v now) := by
  obtain ⟨ps, h⟩ := h
  cases hg : mapGet c.items k with
  | some p =>
    obtain ⟨hp, hpk⟩ := (h.mapGet_some k p).1 hg
    obtain ⟨l₁, l₂, rfl⟩ := List.append_of_mem hp
    exact ⟨_, (Set_present c l₁ l₂ p k v now h hpk).1⟩
  | none => exact ⟨_, (Set_absent c ps k v now h hg).1⟩

/-- `Get` keeps the invariant. -/
theorem Inv_Get [Inhabited T] (c : LRUCache T) (k : String) (now₁ now₂ : Int) (h : Inv c) :
    Inv (Get c k now₁ now₂).1 := by
  obtain ⟨ps, h⟩ := h
  cases hg : mapGet c.items k with
  | some p =>
    obtain ⟨hp, hpk⟩ := (h.mapGet_some k p).1 hg
    obtain ⟨l₁, l₂, rfl⟩ := List.append_of_mem hp
    by_cases hexp : (c.mem p).expireAt ≠ 0 ∧ (c.mem p).expireAt < now₁
    · rw [Get_expired c k p now₁ now₂ hg hexp]
      exact ⟨_, (removeNode_WF c l₁ l₂ p h).1⟩
    · exact ⟨_, (Get_hit c l₁ l₂ p k now₁ now₂ h hpk hexp).1⟩
  | none => rw [Get_miss c k now₁ now₂ hg]; exact ⟨_, h⟩

/-- Every sequence of `Set` and `Get` calls keeps the invariant. -/
theorem Inv_run [Inhabited T] (calls : List (Call T)) (c : LRUCache T) (h : Inv c) :
    Inv (run c calls) := by
  induction calls generalizing c with
  | nil => exact h
  | cons call calls ih =>
    cases call with
    | set k v now => exact ih _ (Inv_Set c k v now h)
    | get k now₁ now₂ => exact ih _ (Inv_Get c k now₁ now₂ h)

theorem Inv.length_keys {c : LRUCache T} (h : Inv c) : (keys c).length = c.items.length := by
  obtain ⟨ps, h⟩ := h
  rw [h.keys_eq, List.length_map, h.length_items]

theorem Inv.keys_nodup {c : LRUCache T} (h : Inv c) : (keys c).Nodup := by
  obtain ⟨ps, h⟩ := h
  rw [h.keys_eq]; exact h.distinct

theorem Inv.lookup_isSome {c : LRUCache T} (h : Inv c) (k : String) :
    (lookup c k).isSome ↔ k ∈ keys c := by
  obtain ⟨ps, h⟩ := h
  rw [h.mem_keys, ← Option.ne_none_iff_isSome, Ne, Ne, lookup_eq_none_iff]

theorem Inv.mem_entries_of_lookup {c : LRUCache T} (h : Inv c) (k : String) (e : Entry T)
    (hl : lookup c k = some e) : e ∈ entries c ∧ e.key = k := by
  obtain ⟨ps, h⟩ := h
  rw [h.lookup_eq] at hl
  exact ⟨List.mem_of_find?_eq_some hl, by simpa using List.find?_some hl⟩

theorem filter_ne_of_not_mem (l : List String) (k : String) (h : k ∉ l) :
    l.filter (fun x => decide (x ≠ k)) = l := by
  rw [List.filter_eq_self]
  intro x hx
  simp only [ne_eq, decide_not, Bool.not_eq_eq_eq_not, Bool.not_true, decide_eq_false_iff_not]
  rintro rfl
  exact h hx

theorem length_filter_ne (l : List String) (k : String) (hnd : l.Nodup) (hk : k ∈ l) :
    (l.filter (fun x => decide (x ≠ k))).length + 1 = l.length := by
  induction l with
  | nil => cases hk
  | cons a l ih =>
    rw [List.nodup_cons] at hnd
    by_cases ha : a = k
    · subst ha
      simp only [List.filter_cons, ne_eq, not_true_eq_false, decide_False, Bool.false_eq_true,
        if_false, List.length_cons]
      rw [filter_ne_of_not_mem l a hnd.1]
    · have hk' : k ∈ l := (List.mem_cons.1 hk).resolve_left (fun h => ha h.symm)
      simp only [List.filter_cons, ne_eq, ha, not_false_eq_true, decide_True, if_true,
        List.length_cons]
      rw [ih hnd.2 hk']

theorem touch_nodup (log : List String) (k : String) (h : log.Nodup) : (touch log k).Nodup := by
  unfold touch
  refine List.nodup_cons.2 ⟨?_, h.filter _⟩
  simp [List.mem_filter]

theorem mem_touch (log : List String) (k x : String) : x ∈ touch log k ↔ x = k ∨ x ∈ log := by
  unfold touch
  simp only [List.mem_cons, List.mem_filter, ne_eq, decide_not, Bool.not_eq_eq_eq_not,
    Bool.not_true, decide_eq_false_iff_not]
  constructor
  · rintro (h | ⟨h, -⟩)
    · exact Or.inl h
    · exact Or.inr h
  · rintro (h | h)
    · exact Or.inl h
    · by_cases hx : x = k
      · exact Or.inl hx
      · exact Or.inr ⟨h, hx⟩

theorem touch_present (ks rest : List String) (k : String) (hnd : (ks ++ rest).Nodup)
    (hk : k ∈ ks) :
    touch (ks ++ rest) k = (k :: ks.filter (fun x => decide (x ≠ k))) ++ rest := by
  unfold touch
  have : k ∉ rest := fun h => (List.nodup_append.1 hnd).2.2 hk h
  rw [List.filter_append, filter_ne_of_not_mem rest k this]
  rfl

theorem touch_absent_full (ks rest : List String) (k : String) (hk : k ∉ ks) (hne : ks ≠ []) :
    touch (ks ++ rest) k =
      (k :: ks.dropLast) ++ (ks.getLast hne :: rest.filter (fun x => decide (x ≠ k))) := by
  unfold touch
  rw [List.filter_append, filter_ne_of_not_mem ks k hk]
  conv_lhs => rw [← List.dropLast_append_getLast hne]
  simp

theorem keys_filter (c : LRUCache T) (k : String) :
    ((entries c).filter (fun x => decide (x.key ≠ k))).map Entry.key =
      (keys c).filter (fun x => decide (x ≠ k)) := by
  rw [keys_eq_map_entries, List.filter_map]
  rfl

/-- `Set` keeps the resident-set invariant and touches its key. -/
theorem Resident_set (C : Int) (hC : 1 ≤ C) (c : LRUCache T) (log : List String)
    (k : String) (v : T) (now : Int) (h : Resident C c log) :
    Resident C (Set c k v now) (touch log k) := by
  obtain ⟨hinv, httl, hcap, hnoexp, hlen, hnd, rest, hlog, hrest⟩ := h
  obtain ⟨hE, hinv', hlen', hcap', httl'⟩ :=
    Set_entries c k v now hinv (by rw [hcap]; exact hC) (by rw [hcap]; exact hlen)
  have hK : keys (Set c k v now) =
      k :: (if k ∈ keys c then (keys c).filter (fun x => decide (x ≠ k))
        else if (c.items.length : Int) < c.capacity then keys c else (keys c).dropLast) := by
    rw [keys_eq_map_entries, hE, List.map_cons]
    congr 1
    split_ifs
    · exact keys_filter c k
    · exact (keys_eq_map_entries c).symm
    · rw [List.map_dropLast, keys_eq_map_entries]
  have hkl := hinv.length_keys
  refine ⟨hinv', httl'.trans httl, hcap'.trans hcap, ?_, by rw [← hcap]; exact hlen',
    touch_nodup _ _ hnd, ?_⟩
  · intro e he
    rw [hE] at he
    rcases List.mem_cons.1 he with rfl | he
    · simp [httl]
    · split_ifs at he
      · exact hnoexp e (List.mem_of_mem_filter he)
      · exact hnoexp e he
      · exact hnoexp e (List.mem_of_mem_dropLast he)
  · subst hlog
    by_cases hmem : k ∈ keys c
    · refine ⟨rest, ?_, ?_⟩
      · rw [hK, if_pos hmem]; exact touch_present _ _ _ hnd hmem
      · intro hr
        rw [hK, if_pos hmem, List.length_cons, length_filter_ne _ _ hinv.keys_nodup hmem]
        exact hrest hr
    · by_cases hlt : (c.items.length : Int) < c.capacity
      · have hr : rest = [] := by
          by_contra hr
          have := hrest hr
          rw [hkl] at this
          omega
        subst hr
        refine ⟨[], ?_, fun h => absurd rfl h⟩
        rw [hK, if_neg hmem, if_pos hlt]
        have : k ∉ keys c ++ [] := by simpa using hmem
        unfold touch
        rw [filter_ne_of_not_mem _ _ this]
        simp
      · have hne : keys c ≠ [] := by
          intro h0
          rw [h0] at hkl
          simp only [List.length_nil] at hkl
          rw [← hkl] at hlt
          simp only [Nat.cast_zero] at hlt
          omega
        refine ⟨(keys c).getLast hne :: rest.filter (fun x => decide (x ≠ k)), ?_, ?_⟩
        · rw [hK, if_neg hmem, if_neg hlt]
          exact touch_absent_full _ rest k hmem hne
        · intro _
          rw [hK, if_neg hmem, if_neg hlt, List.length_cons, List.length_dropLast, hkl]
          have : 0 < (keys c).length := List.length_pos.2 hne
          rw [hkl] at this
          push_cast
          omega

/-- `Get` keeps the resident-set invariant and touches its key when it finds it. -/
theorem Resident_get [Inhabited T] (C : Int) (c : LRUCache T) (log : List String)
    (k : String) (now₁ now₂ : Int) (h : Resident C c log) :
    Resident C (Get c k now₁ now₂).1
      (if (Get c k now₁ now₂).2.2 then touch log k else log) := by
  obtain ⟨hinv, httl, hcap, hnoexp, hlen, hnd, rest, hlog, hrest⟩ := h
  cases hl : lookup c k with
  | none =>
    rw [Get_miss c k now₁ now₂ ((lookup_eq_none_iff c k).1 hl)]
    exact ⟨hinv, httl, hcap, hnoexp, hlen, hnd, rest, hlog, hrest⟩
  | some e =>
    obtain ⟨hmemE, hek⟩ := hinv.mem_entries_of_lookup k e hl
    obtain ⟨hres, hE, hinv', hcap', httl'⟩ :=
      Get_live_entries c k now₁ now₂ e hinv hl (Or.inl (hnoexp e hmemE))
    have hmem : k ∈ keys c := (hinv.lookup_isSome k).1 (by rw [hl]; rfl)
    have hK : keys (Get c k now₁ now₂).1 = k :: (keys c).filter (fun x => decide (x ≠ k)) := by
      rw [keys_eq_map_entries, hE, List.map_cons, keys_filter]
    have hfound : (Get c k now₁ now₂).2.2 = true := by rw [hres]
    have hkl := hinv.length_keys
    have hkl' := hinv'.length_keys
    have hlenK : (keys (Get c k now₁ now₂).1).length = (keys c).length := by
      rw [hK, List.length_cons, length_filter_ne _ _ hinv.keys_nodup hmem]
    rw [hfound, if_pos rfl]
    refine ⟨hinv', httl'.trans httl, hcap'.trans hcap, ?_, ?_, touch_nodup _ _ hnd, rest, ?_, ?_⟩
    · intro x hx
      rw [hE] at hx
      rcases List.mem_cons.1 hx with rfl | hx
      · simp only [httl, lt_self_iff_false, if_false]
        exact hnoexp e hmemE
      · exact hnoexp x (List.mem_of_mem_filter hx)
    · rw [← hkl', hlenK, hkl]; exact hlen
    · subst hlog
      rw [hK]; exact touch_present _ _ _ hnd hmem
    · intro hr
      rw [hlenK]; exact hrest hr

theorem Resident_new [Inhabited T] (C : Int) (c : LRUCache T)
    (h : NewLRUCache T C 0 = Outcome.ok c) : Resident C c [] := by
  obtain ⟨hw, hcap, httl, hpos⟩ := WF_new C 0 c h
  have hk : keys c = [] := by rw [hw.keys_eq]; rfl
  have he : entries c = [] := by rw [hw.entries_eq]; rfl
  refine ⟨⟨_, hw⟩, httl, hcap, ?_, ?_, List.nodup_nil, [], by rw [hk]; rfl, fun h => absurd rfl h⟩
  · intro e he'; rw [he] at he'; cases he'
  · have := hw.length_items
    rw [this]; simp only [List.length_nil, Nat.cast_zero]; omega

/-- The resident-set invariant along a sequence of calls. -/
theorem Resident_fold [Inhabited T] (C : Int) (hC : 1 ≤ C) (calls : List (Call T))
    (c : LRUCache T) (log : List String) (h : Resident C c log) :
    Resident C (calls.foldl touchedStep (c, log)).1 (calls.foldl touchedStep (c, log)).2 ∧
    (calls.foldl touchedStep (c, log)).1 = run c calls ∧
    (∀ k, k ∈ (calls.foldl touchedStep (c, log)).2 ↔ k ∈ log ∨ k ∈ keysSet calls) := by
  induction calls generalizing c log with
  | nil => exact ⟨h, rfl, fun k => by simp [keysSet]⟩
  | cons call calls ih =>
    cases call with
    | set k v now =>
      have h' := Resident_set C hC c log k v now h
      obtain ⟨h1, h2, h3⟩ := ih _ _ h'
      refine ⟨h1, h2, fun x => ?_⟩
      have := h3 x
      simp only [List.foldl_cons, touchedStep]
      rw [this, mem_touch]
      simp only [keysSet, List.filterMap_cons, List.mem_cons]
      tauto
    | get k now₁ now₂ =>
      have h' := Resident_get C c log k now₁ now₂ h
      obtain ⟨h1, h2, h3⟩ := ih _ _ h'
      refine ⟨h1, h2, fun x => ?_⟩
      have := h3 x
      simp only [List.foldl_cons, touchedStep]
      rw [this]
      simp only [keysSet, List.filterMap_cons]
      by_cases hf : (Get c k now₁ now₂).2.2 = true
      · rw [if_pos hf, mem_touch]
        have hk : k ∈ log := by
          obtain ⟨rest, hlog, -⟩ := h.split
          have hs : (lookup c k).isSome := by
            cases hl : lookup c k with
            | none =>
              rw [Get_miss c k now₁ now₂ ((lookup_eq_none_iff c k).1 hl)] at hf
              cases hf
            | some e => rfl
          rw [hlog]
          exact List.mem_append_left _ ((h.inv.lookup_isSome k).1 hs)
        constructor
        · rintro ((rfl | h4) | h4)
          · exact Or.inl hk
          · exact Or.inl h4
          · exact Or.inr h4
        · rintro (h4 | h4)
          · exact Or.inl (Or.inr h4)
          · exact Or.inr h4
      · rw [if_neg hf]

theorem Resident.keys_take {C : Int} {c : LRUCache T} {log : List String}
    (h : Resident C c log) : keys c = log.take C.toNat := by
  obtain ⟨rest, hlog, hrest⟩ := h.split
  have hlen := h.len
  rw [← h.inv.length_keys] at hlen
  subst hlog
  by_cases hr : rest = []
  · subst hr
    rw [List.append_nil, List.take_of_length_le]
    omega
  · have := hrest hr
    have h2 : C.toNat = (keys c).length := by omega
    rw [h2, List.take_left']
    rfl

/-! ## Lemmas: release tags -/

theorem splitChars_ne_nil (sep : Char) (cs : List Char) : splitChars sep cs ≠ [] := by
  cases cs with
  | nil => simp [splitChars]
  | cons c cs =>
    unfold splitChars
    split_ifs
    · simp
    · split <;> simp

theorem splitChars_single (sep : Char) (cs w : List Char) (h : splitChars sep cs = [w]) :
    w = cs := by
  induction cs generalizing w with
  | nil => simpa [splitChars] using h.symm
  | cons c cs ih =>
    unfold splitChars at h
    split_ifs at h with hc
    · simp only [List.cons.injEq] at h
      exact absurd h.2 (splitChars_ne_nil sep cs)
    · split at h
      · rename_i h0
        exact absurd h0 (splitChars_ne_nil sep cs)
      · rename_i w' ws h0
        simp only [List.cons.injEq] at h
        obtain ⟨h1, h2⟩ := h
        subst h2
        rw [← h1, ih w' h0]

theorem Split_ne_nil (s : String) (sep : Char) : Split s sep ≠ [] := by
  unfold Split
  intro h
  exact splitChars_ne_nil sep s.data (List.map_eq_nil_iff.1 h)

/-- A string without the separator is its own single segment. -/
theorem Split_single (s : String) (sep : Char) (h : (Split s sep).length ≤ 1) :
    Split s sep = [s] := by
  unfold Split at h ⊢
  rw [List.length_map] at h
  cases hs : splitChars sep s.data with
  | nil => exact absurd hs (splitChars_ne_nil sep s.data)
  | cons w ws =>
    rw [hs] at h
    cases ws with
    | nil =>
      have := splitChars_single sep s.data w hs
      subst this
      rfl
    | cons w' ws' => simp at h

/-- `ParseReleaseTag` never takes its "invalid release tag" exit: it tries the
two layouts on the segment it selects. -/
theorem ParseReleaseTag_eq {Time : Type} (timeParse : String → String → Except String Time)
    (tag : String) :
    ParseReleaseTag timeParse tag =
      (match timeParse releaseTagTimeLayout
          (if (Split tag '.').length > 1 then (Split tag '.').getD 1 ""
           else (Split tag '.').getD 0 "") with
       | Except.ok t => Except.ok t
       | Except.error _ => timeParse releaseTagTimeLayoutBackup
          (if (Split tag '.').length > 1 then (Split tag '.').getD 1 ""
           else (Split tag '.').getD 0 "")) := by
  have hlen : ¬ (Split tag '.').length < 1 := by
    cases hs : Split tag '.' with
    | nil => exact absurd hs (Split_ne_nil tag '.')
    | cons a l => simp
  unfold ParseReleaseTag
  simp only [hlen, if_false]
  cases timeParse releaseTagTimeLayout (if (Split tag '.').length > 1
    then (Split tag '.').getD 1 "" else (Split tag '.').getD 0 "") <;> rfl

/-- The segments `ParseReleaseTag` hands to `time.Parse` for the three tags of
the specification, whatever `time.Parse` makes of them. -/
theorem ParseReleaseTag_segments {Time : Type}
    (timeParse : String → String → Except String Time) :
    ParseReleaseTag timeParse "RELEASE.2024-01-01T00-00-00Z" =
      (match timeParse releaseTagTimeLayout "2024-01-01T00-00-00Z" with
       | Except.ok t => Except.ok t
       | Except.error _ => timeParse releaseTagTimeLayoutBackup "2024-01-01T00-00-00Z") ∧
    ParseReleaseTag timeParse "2024-01-01T00:00:05Z" =
      (match timeParse releaseTagTimeLayout "2024-01-01T00:00:05Z" with
       | Except.ok t => Except.ok t
       | Except.error _ => timeParse releaseTagTimeLayoutBackup "2024-01-01T00:00:05Z") ∧
    ParseReleaseTag timeParse "garbage" =
      (match timeParse releaseTagTimeLayout "garbage" with
       | Except.ok t => Except.ok t
       | Except.error _ => timeParse releaseTagTimeLayoutBackup "garbage") := by
  have s₁ : Split "RELEASE.2024-01-01T00-00-00Z" '.' = ["RELEASE", "2024-01-01T00-00-00Z"] := by
    decide
  have s₂ : Split "2024-01-01T00:00:05Z" '.' = ["2024-01-01T00:00:05Z"] := by decide
  have s₃ : Split "garbage" '.' = ["garbage"] := by decide
  refine ⟨?_, ?_, ?_⟩
  · rw [ParseReleaseTag_eq, s₁]; rfl
  · rw [ParseReleaseTag_eq, s₂]; rfl
  · rw [ParseReleaseTag_eq, s₃]; rfl

/-- Whatever `time.Parse` answers, `ParseReleaseTag` never takes its "invalid
release tag" exit; it reads
the second `.`-separated segment of the tag when there is more than one and
the whole tag otherwise, returns the hyphen-layout reading of that segment
when `time.Parse` accepts it and the colon-layout reading otherwise, and so
succeeds exactly when one of the two layouts accepts the segment. -/
theorem ParseReleaseTag_spec {Time : Type} (timeParse : String → String → Except String Time)
    (tag : String) :
    ∃ seg : String,
      (1 < (Split tag '.').length → (Split tag '.')[1]? = some seg) ∧
      ((Split tag '.').length ≤ 1 → seg = tag) ∧
      ParseReleaseTag timeParse tag =
        (match timeParse releaseTagTimeLayout seg with
         | Except.ok t => Except.ok t
         | Except.error _ => timeParse releaseTagTimeLayoutBackup seg) ∧
      ((∃ t, ParseReleaseTag timeParse tag = Except.ok t) ↔
        (∃ t, timeParse releaseTagTimeLayout seg = Except.ok t) ∨
        (∃ t, timeParse releaseTagTimeLayoutBackup seg = Except.ok t)) := by
  have hne := Split_ne_nil tag '.'
  have hP := ParseReleaseTag_eq timeParse tag
  refine ⟨_, ?_, ?_, hP, ?_⟩
  · intro h
    rw [if_pos h]
    cases hs : Split tag '.' with
    | nil => exact absurd hs hne
    | cons a l =>
      cases l with
      | nil => rw [hs] at h; simp at h
      | cons b l' => simp
  · intro h
    rw [if_neg (by omega), Split_single tag '.' h]
    rfl
  · rw [hP]
    generalize (if (Split tag '.').length > 1 then (Split tag '.').getD 1 ""
      else (Split tag '.').getD 0 "") = seg
    cases h1 : timeParse releaseTagTimeLayout seg with
    | error e =>
      simp only
      constructor
      · intro h; exact Or.inr h
      · rintro (⟨t, ht⟩ | h)
        · cases ht
        · exact h
    | ok t =>
      simp only
      constructor
      · intro _; exact Or.inl ⟨t, rfl⟩
      · intro _; exact ⟨t, rfl⟩

/-! ## Lemmas: time.Parse on the two layouts -/

theorem Digits_one (s : List Char) : Digits 1 s ↔ ∃ a, s = [a] ∧ a.isDigit = true := by
  constructor
  · rintro ⟨hl, hd⟩
    match s, hl with
    | [a], _ => exact ⟨a, rfl, hd a (by simp)⟩
  · rintro ⟨a, rfl, ha⟩
    exact ⟨rfl, by simpa using ha⟩

theorem Digits_two (s : List Char) :
    Digits 2 s ↔ ∃ a b, s = [a, b] ∧ a.isDigit = true ∧ b.isDigit = true := by
  constructor
  · rintro ⟨hl, hd⟩
    match s, hl with
    | [a, b], _ => exact ⟨a, b, rfl, hd a (by simp), hd b (by simp)⟩
  · rintro ⟨a, b, rfl, ha, hb⟩
    exact ⟨rfl, by simp [ha, hb]⟩

theorem Digits_four (s : List Char) :
    Digits 4 s ↔ ∃ a b c d, s = [a, b, c, d] ∧ a.isDigit = true ∧ b.isDigit = true ∧
      c.isDigit = true ∧ d.isDigit = true := by
  constructor
  · rintro ⟨hl, hd⟩
    match s, hl with
    | [a, b, c, d], _ =>
      exact ⟨a, b, c, d, rfl, hd a (by simp), hd b (by simp), hd c (by simp), hd d (by simp)⟩
  · rintro ⟨a, b, c, d, rfl, ha, hb, hc, hd⟩
    exact ⟨rfl, by simp [ha, hb, hc, hd]⟩

theorem skip_iff (s : List Char) (c : Char) (r : List Char) :
    skip s c = some r ↔ s = c :: r := by
  cases s with
  | nil => simp [skip]
  | cons a l =>
    unfold skip
    by_cases h : a = c
    · simp [h]
    · simp [h]

/-- `getnum` with two digits forced. -/
theorem getnum_fixed_iff (s : List Char) (p : Nat × List Char) :
    getnum s true = some p ↔
      ∃ a b, a.isDigit = true ∧ b.isDigit = true ∧ s = a :: b :: p.2 ∧ p.1 = decimal [a, b] := by
  obtain ⟨n, r⟩ := p
  match s with
  | [] =>
    simp [getnum, isDigit]
  | [a] =>
    simp [getnum, isDigit]
  | a :: b :: l =>
    have e0 : isDigit (a :: b :: l) 0 = a.isDigit := rfl
    have e1 : isDigit (a :: b :: l) 1 = b.isDigit := rfl
    unfold getnum
    rw [e0, e1]
    constructor
    · intro h
      by_cases ha : a.isDigit = true
      · by_cases hb : b.isDigit = true
        · simp only [ha, hb, Bool.not_true, Bool.false_eq_true, if_false] at h
          have h' := Option.some.inj h
          refine ⟨a, b, ha, hb, ?_, ?_⟩
          · have : l = r := congrArg Prod.snd h'
            simp [this]
          · exact (congrArg Prod.fst h').symm
        · simp [ha, hb] at h
      · simp [ha] at h
    · rintro ⟨a', b', ha', hb', hs, hn⟩
      simp only [List.cons.injEq] at hs
      obtain ⟨rfl, rfl, rfl⟩ := hs
      simp only [ha', hb', Bool.not_true, Bool.false_eq_true, if_false]
      simp only at hn
      rw [hn]
      rfl

/-- `getnum` with one or two digits. -/
theorem getnum_free_iff (s : List Char) (p : Nat × List Char) :
    getnum s false = some p ↔
      (∃ a b, a.isDigit = true ∧ b.isDigit = true ∧ s = a :: b :: p.2 ∧ p.1 = decimal [a, b]) ∨
      (∃ a, a.isDigit = true ∧ s = a :: p.2 ∧ isDigit p.2 0 = false ∧ p.1 = decimal [a]) := by
  obtain ⟨n, r⟩ := p
  match s with
  | [] =>
    simp [getnum, isDigit]
  | [a] =>
    have e0 : isDigit [a] 0 = a.isDigit := rfl
    have e1 : isDigit [a] 1 = false := rfl
    unfold getnum
    rw [e0, e1]
    constructor
    · intro h
      by_cases ha : a.isDigit = true
      · simp only [ha, Bool.not_true, Bool.false_eq_true, if_false, Bool.not_false, if_true] at h
        have h' := Option.some.inj h
        right
        have hr : [] = r := congrArg Prod.snd h'
        subst hr
        exact ⟨a, ha, rfl, rfl, (congrArg Prod.fst h').symm⟩
      · simp [ha] at h
    · rintro (⟨a', b', -, -, hs, -⟩ | ⟨a', ha', hs, -, hn⟩)
      · simp at hs
      · simp only [List.cons.injEq] at hs
        obtain ⟨rfl, rfl⟩ := hs
        simp only [ha', Bool.not_true, Bool.false_eq_true, if_false, Bool.not_false, if_true]
        simp only at hn
        rw [hn]
        rfl
  | a :: b :: l =>
    have e0 : isDigit (a :: b :: l) 0 = a.isDigit := rfl
    have e1 : isDigit (a :: b :: l) 1 = b.isDigit := rfl
    unfold getnum
    rw [e0, e1]
    constructor
    · intro h
      by_cases ha : a.isDigit = true
      · by_cases hb : b.isDigit = true
        · simp only [ha, hb, Bool.not_true, Bool.false_eq_true, if_false] at h
          have h' := Option.some.inj h
          left
          refine ⟨a, b, ha, hb, ?_, ?_⟩
          · have : l = r := congrArg Prod.snd h'
            simp [this]
          · exact (congrArg Prod.fst h').symm
        · have hb' : b.isDigit = false := by simpa using hb
          simp only [ha, hb', Bool.not_true, Bool.false_eq_true, if_false, Bool.not_false,
            if_true] at h
          have h' := Option.some.inj h
          right
          have hr : b :: l = r := congrArg Prod.snd h'
          subst hr
          exact ⟨a, ha, rfl, hb', (congrArg Prod.fst h').symm⟩
      · simp [ha] at h
    · rintro (⟨a', b', ha', hb', hs, hn⟩ | ⟨a', ha', hs, hnd, hn⟩)
      · simp only [List.cons.injEq] at hs
        obtain ⟨rfl, rfl, rfl⟩ := hs
        simp only [ha', hb', Bool.not_true, Bool.false_eq_true, if_false]
        simp only at hn
        rw [hn]
        rfl
      · simp only [List.cons.injEq] at hs
        obtain ⟨rfl, rfl⟩ := hs
        have hb' : b.isDigit = false := hnd
        simp only [ha', hb', Bool.not_true, Bool.false_eq_true, if_false, Bool.not_false,
          if_true]
        simp only at hn
        rw [hn]
        rfl

/-- The year chunk: four digits. -/
theorem longYear_iff (s : List Char) (y : Nat) :
    ((s.length < 4 || !isDigit s 0) = false ∧ atoi (s.take 4) = some y) ↔
      ∃ a b c d, a.isDigit = true ∧ b.isDigit = true ∧ c.isDigit = true ∧ d.isDigit = true ∧
        s = a :: b :: c :: d :: s.drop 4 ∧ y = decimal [a, b, c, d] := by
  match s with
  | [] => simp
  | [_] => simp
  | [_, _] => simp
  | [_, _, _] => simp
  | a :: b :: c :: d :: l =>
    have e0 : isDigit (a :: b :: c :: d :: l) 0 = a.isDigit := rfl
    rw [e0]
    simp only [atoi, List.take, List.all_cons, List.all_nil, Bool.and_true, List.drop]
    constructor
    · rintro ⟨h1, h2⟩
      by_cases hall : (a.isDigit && (b.isDigit && (c.isDigit && d.isDigit))) = true
      · rw [if_pos hall] at h2
        simp only [Bool.and_eq_true] at hall
        obtain ⟨ha, hb, hc, hd⟩ := hall
        exact ⟨a, b, c, d, ha, hb, hc, hd, rfl, (Option.some.inj h2).symm⟩
      · rw [if_neg hall] at h2
        cases h2
    · rintro ⟨a', b', c', d', ha, hb, hc, hd, hs, hy⟩
      simp only [List.cons.injEq] at hs
      obtain ⟨rfl, rfl, rfl, rfl, -⟩ := hs
      simp [ha, hb, hc, hd, hy]

theorem takeWhile_run {α : Type} (p : α → Bool) (ds : List α) (z : α) (r : List α)
    (hd : ∀ c ∈ ds, p c = true) (hz : p z = false) :
    (ds ++ z :: r).takeWhile p = ds ∧ (ds ++ z :: r).dropWhile p = z :: r := by
  induction ds with
  | nil => simp [List.takeWhile, List.dropWhile, hz]
  | cons a l ih =>
    have ha : p a = true := hd a (by simp)
    have := ih (fun c hc => hd c (List.mem_cons_of_mem _ hc))
    simp [List.takeWhile, List.dropWhile, ha, this]

theorem drop_takeWhile_length {α : Type} (p : α → Bool) (l : List α) :
    l.drop (l.takeWhile p).length = l.dropWhile p := by
  induction l with
  | nil => rfl
  | cons a l ih =>
    by_cases ha : p a = true
    · simp [List.takeWhile, List.dropWhile, ha, ih]
    · simp [List.takeWhile, List.dropWhile, ha]

theorem atoi_digits (ds : List Char) (hd : ∀ c ∈ ds, c.isDigit = true) :
    atoi ds = some (decimal ds) := by
  unfold atoi
  rw [if_pos]
  rw [List.all_eq_true]
  exact hd

/-- The nanoseconds `parseNanoseconds` reads from a fractional second. -/
theorem parseNanoseconds_eq (c : Char) (ds rest : List Char) (hc : commaOrPeriod c = true)
    (hd : ∀ x ∈ ds, x.isDigit = true) :
    parseNanoseconds (c :: (ds ++ rest)) (1 + ds.length) = some (nanoseconds (c :: ds)) := by
  unfold parseNanoseconds nanoseconds
  simp only [hc, Bool.not_true, Bool.false_eq_true, if_false, List.drop_succ_cons, List.drop_zero,
    List.length_cons, Nat.add_sub_cancel]
  by_cases hlen : 1 + ds.length > 10
  · have h9 : 9 ≤ ds.length := by omega
    have ht : List.take 9 (ds ++ rest) = List.take 9 ds := by
      rw [List.take_append_of_le_length h9]
    simp only [hlen, if_true, List.take_succ_cons, ht]
    simp only [List.drop_succ_cons, List.drop_zero]
    have h99 : List.take 9 (List.take 9 ds) = List.take 9 ds := by simp
    rw [h99, atoi_digits _ (fun x hx => hd x (List.mem_of_mem_take hx))]
    simp [Nat.min_eq_left h9]
  · have h9 : ds.length ≤ 9 := by omega
    simp only [hlen, if_false]
    have e1 : 1 + ds.length = ds.length + 1 := by omega
    rw [e1, List.take_succ_cons, List.take_left]
    simp only [List.drop_succ_cons, List.drop_zero]
    rw [atoi_digits ds hd]
    simp only [Option.map_some']
    rw [List.take_of_length_le h9, Nat.min_eq_right h9]
    have e2 : 10 - (ds.length + 1) = 9 - ds.length := by omega
    rw [e2]

/-- The fractional second and the final `Z`. -/
theorem fractionalSecond_iff (v : List Char) (ns : Nat) :
    (∃ p, fractionalSecond v = some p ∧ skip p.2 'Z' = some [] ∧ p.1 = ns) ↔
      ∃ f, Fraction f ∧ v = f ++ ['Z'] ∧ ns = nanoseconds f := by
  have hZ : Char.isDigit 'Z' = false := by decide
  constructor
  · rintro ⟨⟨n, r⟩, hf, hs, rfl⟩
    rw [skip_iff] at hs
    simp only at hs
    subst hs
    match v with
    | [] => simp [fractionalSecond] at hf
    | [c] =>
      simp [fractionalSecond] at hf
      obtain ⟨rfl, rfl⟩ := hf
      exact ⟨[], Or.inl rfl, rfl, by simp [nanoseconds, decimal]⟩
    | c :: d :: l =>
      have e1 : isDigit (c :: d :: l) 1 = d.isDigit := rfl
      unfold fractionalSecond at hf
      rw [e1] at hf
      by_cases hcond : d.isDigit = true ∧ commaOrPeriod c = true
      · obtain ⟨hd, hc⟩ := hcond
        simp only [List.length_cons, hd, hc, Bool.and_true, ge_iff_le, Nat.le_add_left,
          decide_True, if_true, Option.map_eq_some', Prod.mk.injEq] at hf
        obtain ⟨nsec, hpn, rfl, hdrop⟩ := hf
        simp only [List.drop_succ_cons, List.drop_zero] at hpn hdrop
        rw [Nat.add_comm, List.drop_succ_cons, drop_takeWhile_length] at hdrop
        have hsplit := List.takeWhile_append_dropWhile Char.isDigit (d :: l)
        rw [hdrop] at hsplit
        have hdig : ∀ x ∈ (d :: l).takeWhile Char.isDigit, x.isDigit = true :=
          fun x hx => (List.mem_takeWhile_imp hx)
        have hne : (d :: l).takeWhile Char.isDigit ≠ [] := by
          simp [List.takeWhile, hd]
        refine ⟨c :: (d :: l).takeWhile Char.isDigit, Or.inr ⟨c, _, rfl, ?_, hne, hdig⟩, ?_, ?_⟩
        · simpa [commaOrPeriod] using hc
        · simp only [List.cons_append]
          rw [hsplit]
        · have := parseNanoseconds_eq c ((d :: l).takeWhile Char.isDigit) ['Z'] hc hdig
          rw [hsplit] at this
          rw [this] at hpn
          exact (Option.some.inj hpn).symm
      · have hfalse : (decide ((c :: d :: l).length ≥ 2) && d.isDigit &&
            (match c :: d :: l with
             | c :: _ => commaOrPeriod c
             | [] => false)) = false := by
          simp only [Bool.and_eq_false_iff]
          by_cases hd : d.isDigit = true
          · right
            have : commaOrPeriod c ≠ true := fun h => hcond ⟨hd, h⟩
            simpa using this
          · left; right; simpa using hd
        rw [hfalse] at hf
        simp at hf
  · rintro ⟨f, hF, rfl, rfl⟩
    rcases hF with rfl | ⟨p, ds, rfl, hp, hne, hd⟩
    · exact ⟨(0, ['Z']), by simp [fractionalSecond], by simp [skip], by simp [nanoseconds, decimal]⟩
    · have hc : commaOrPeriod p = true := by
        rcases hp with rfl | rfl <;> decide
      obtain ⟨ht, hdw⟩ := takeWhile_run Char.isDigit ds 'Z' [] hd hZ
      match ds, hne with
      | d :: ds', _ =>
        have hdd : d.isDigit = true := hd d (by simp)
        refine ⟨(nanoseconds (p :: d :: ds'), ['Z']), ?_, by simp [skip], rfl⟩
        unfold fractionalSecond
        have e1 : isDigit (p :: (d :: ds') ++ ['Z']) 1 = d.isDigit := rfl
        rw [e1]
        simp only [List.cons_append, List.length_cons, hdd, hc, Bool.and_true, ge_iff_le,
          Nat.le_add_left, decide_True, if_true, List.drop_succ_cons, List.drop_zero]
        simp only [List.cons_append] at ht hdw
        rw [ht]
        have := parseNanoseconds_eq p (d :: ds') ['Z'] hc hd
        simp only [List.cons_append] at this
        rw [this]
        simp only [Option.map_some', Option.some.injEq, Prod.mk.injEq, true_and]
        rw [Nat.add_comm, List.drop_succ_cons]
        have h2 := drop_takeWhile_length Char.isDigit (d :: (ds' ++ ['Z']))
        rw [ht, hdw] at h2
        exact h2

/-- What `parse` accepts in the layout with separator `sep`, and what it
returns: exactly the timestamps of that layout. -/
theorem parse_iff (sep : Char) (hsep : sep.isDigit = false) (s : List Char) (t : Instant) :
    parse sep s = some t ↔ Timestamp sep s t := by
  constructor
  · intro h
    unfold parse at h
    by_cases h0 : (decide (s.length < 4) || !isDigit s 0) = true
    · rw [if_pos h0] at h
      cases h
    rw [if_neg h0] at h
    obtain ⟨year, hy, h⟩ := Option.bind_eq_some.1 h
    obtain ⟨v₁, hv₁, h⟩ := Option.bind_eq_some.1 h
    obtain ⟨month, hmo, h⟩ := Option.bind_eq_some.1 h
    by_cases hmr : month.1 ≤ 0 ∨ 12 < month.1
    · rw [if_pos hmr] at h
      cases h
    rw [if_neg hmr] at h
    obtain ⟨v₂, hv₂, h⟩ := Option.bind_eq_some.1 h
    obtain ⟨day, hda, h⟩ := Option.bind_eq_some.1 h
    obtain ⟨v₃, hv₃, h⟩ := Option.bind_eq_some.1 h
    obtain ⟨hour, hho, h⟩ := Option.bind_eq_some.1 h
    by_cases hhr : 24 ≤ hour.1
    · rw [if_pos hhr] at h
      cases h
    rw [if_neg hhr] at h
    obtain ⟨v₄, hv₄, h⟩ := Option.bind_eq_some.1 h
    obtain ⟨min, hmi, h⟩ := Option.bind_eq_some.1 h
    by_cases hmir : 60 ≤ min.1
    · rw [if_pos hmir] at h
      cases h
    rw [if_neg hmir] at h
    obtain ⟨v₅, hv₅, h⟩ := Option.bind_eq_some.1 h
    obtain ⟨sec, hse, h⟩ := Option.bind_eq_some.1 h
    by_cases hsr : 60 ≤ sec.1
    · rw [if_pos hsr] at h
      cases h
    rw [if_neg hsr] at h
    obtain ⟨nsec, hns, h⟩ := Option.bind_eq_some.1 h
    obtain ⟨v₆, hv₆, h⟩ := Option.bind_eq_some.1 h
    by_cases hlen : v₆.length ≠ 0
    · rw [if_pos hlen] at h
      cases h
    rw [if_neg hlen] at h
    by_cases hdr : day.1 < 1 ∨ day.1 > daysIn month.1 year
    · rw [if_pos hdr] at h
      cases h
    rw [if_neg hdr] at h
    have ht := (Option.some.inj h).symm
    have hv₆' : v₆ = [] := List.length_eq_zero.1 (not_not.1 hlen)
    subst hv₆'
    obtain ⟨f, hF, hfv, hfn⟩ := (fractionalSecond_iff sec.2 nsec.1).1 ⟨nsec, hns, hv₆, rfl⟩
    have h0' : (decide (s.length < 4) || !isDigit s 0) = false := by simpa using h0
    obtain ⟨y₁, y₂, y₃, y₄, hy₁, hy₂, hy₃, hy₄, hs, hyv⟩ := (longYear_iff s year).1 ⟨h0', hy⟩
    rw [skip_iff] at hv₁ hv₂ hv₃ hv₄ hv₅
    obtain ⟨m₁, m₂, hm₁, hm₂, hms, hmv⟩ := (getnum_fixed_iff _ _).1 hmo
    obtain ⟨d₁, d₂, hd₁, hd₂, hds, hdv⟩ := (getnum_fixed_iff _ _).1 hda
    obtain ⟨n₁, n₂, hn₁, hn₂, hnsq, hnv⟩ := (getnum_fixed_iff _ _).1 hmi
    obtain ⟨s₁, s₂, hs₁, hs₂, hss, hsv⟩ := (getnum_fixed_iff _ _).1 hse
    have hhour : ∃ hh, (Digits 1 hh ∨ Digits 2 hh) ∧ v₃ = hh ++ hour.2 ∧
        hour.1 = decimal hh := by
      rcases (getnum_free_iff _ _).1 hho with ⟨a, b, ha, hb, hs', hv⟩ | ⟨a, ha, hs', -, hv⟩
      · exact ⟨[a, b], Or.inr ((Digits_two _).2 ⟨a, b, rfl, ha, hb⟩), hs', hv⟩
      · exact ⟨[a], Or.inl ((Digits_one _).2 ⟨a, rfl, ha⟩), hs', hv⟩
    obtain ⟨hh, hhd, hhs, hhv⟩ := hhour
    refine ⟨[y₁, y₂, y₃, y₄], [m₁, m₂], [d₁, d₂], hh, [n₁, n₂], [s₁, s₂], f, ?_,
      (Digits_four _).2 ⟨_, _, _, _, rfl, hy₁, hy₂, hy₃, hy₄⟩,
      (Digits_two _).2 ⟨_, _, rfl, hm₁, hm₂⟩, (Digits_two _).2 ⟨_, _, rfl, hd₁, hd₂⟩, hhd,
      (Digits_two _).2 ⟨_, _, rfl, hn₁, hn₂⟩, (Digits_two _).2 ⟨_, _, rfl, hs₁, hs₂⟩, hF, ?_, ?_⟩
    · rw [hs, hv₁, hms, hv₂, hds, hv₃, hhs, hv₄, hnsq, hv₅, hss, hfv]
      simp
    · rw [ht, hyv, hmv, hdv, hhv, hnv, hsv, hfn]
    · rw [ht]
      simp only
      omega
  · rintro ⟨Y, M, D, hh, m, sc, f, hs, hY, hM, hD, hH, hm, hsc, hF, ht, hr₁, hr₂, hr₃, hr₄, hr₅,
      hr₆, hr₇⟩
    obtain ⟨y₁, y₂, y₃, y₄, rfl, hy₁, hy₂, hy₃, hy₄⟩ := (Digits_four _).1 hY
    obtain ⟨m₁, m₂, rfl, hm₁, hm₂⟩ := (Digits_two _).1 hM
    obtain ⟨d₁, d₂, rfl, hd₁, hd₂⟩ := (Digits_two _).1 hD
    obtain ⟨n₁, n₂, rfl, hn₁, hn₂⟩ := (Digits_two _).1 hm
    obtain ⟨s₁, s₂, rfl, hs₁, hs₂⟩ := (Digits_two _).1 hsc
    subst ht
    simp only at hr₁ hr₂ hr₃ hr₄ hr₅ hr₆ hr₇
    have hfrac := (fractionalSecond_iff (f ++ ['Z']) (nanoseconds f)).2 ⟨f, hF, rfl, rfl⟩
    obtain ⟨nsec, hns, hskipZ, hnv⟩ := hfrac
    have hhour : getnum (hh ++ (sep :: (n₁ :: n₂ :: (sep :: (s₁ :: s₂ :: (f ++ ['Z'])))))) false =
        some (decimal hh, sep :: (n₁ :: n₂ :: (sep :: (s₁ :: s₂ :: (f ++ ['Z']))))) := by
      rw [getnum_free_iff]
      rcases hH with h1 | h2
      · obtain ⟨a, rfl, ha⟩ := (Digits_one _).1 h1
        exact Or.inr ⟨a, ha, rfl, by simp [isDigit, hsep], rfl⟩
      · obtain ⟨a, b, rfl, ha, hb⟩ := (Digits_two _).1 h2
        exact Or.inl ⟨a, b, ha, hb, rfl, rfl⟩
    subst hs
    unfold parse
    rw [if_neg (by simp [isDigit, hy₁])]
    refine Option.bind_eq_some.2 ⟨decimal [y₁, y₂, y₃, y₄], ?_, ?_⟩
    · exact atoi_digits [y₁, y₂, y₃, y₄] (by simp [hy₁, hy₂, hy₃, hy₄])
    refine Option.bind_eq_some.2 ⟨_, (skip_iff _ _ _).2 rfl, ?_⟩
    refine Option.bind_eq_some.2 ⟨(decimal [m₁, m₂], _),
      (getnum_fixed_iff _ _).2 ⟨m₁, m₂, hm₁, hm₂, rfl, rfl⟩, ?_⟩
    rw [if_neg (by simp only; omega)]
    refine Option.bind_eq_some.2 ⟨_, (skip_iff _ _ _).2 rfl, ?_⟩
    refine Option.bind_eq_some.2 ⟨(decimal [d₁, d₂], _),
      (getnum_fixed_iff _ _).2 ⟨d₁, d₂, hd₁, hd₂, rfl, rfl⟩, ?_⟩
    refine Option.bind_eq_some.2 ⟨_, (skip_iff _ _ _).2 rfl, ?_⟩
    refine Option.bind_eq_some.2 ⟨_, hhour, ?_⟩
    rw [if_neg (by simp only; omega)]
    refine Option.bind_eq_some.2 ⟨_, (skip_iff _ _ _).2 rfl, ?_⟩
    refine Option.bind_eq_some.2 ⟨(decimal [n₁, n₂], _),
      (getnum_fixed_iff _ _).2 ⟨n₁, n₂, hn₁, hn₂, rfl, rfl⟩, ?_⟩
    rw [if_neg (by simp only; omega)]
    refine Option.bind_eq_some.2 ⟨_, (skip_iff _ _ _).2 rfl, ?_⟩
    refine Option.bind_eq_some.2 ⟨(decimal [s₁, s₂], _),
      (getnum_fixed_iff _ _).2 ⟨s₁, s₂, hs₁, hs₂, rfl, rfl⟩, ?_⟩
    rw [if_neg (by simp only; omega)]
    refine Option.bind_eq_some.2 ⟨nsec, hns, ?_⟩
    refine Option.bind_eq_some.2 ⟨[], hskipZ, ?_⟩
    rw [if_neg (by simp), if_neg (by simp only; omega), hnv]

/-- The two layouts are read with `-` and with `:` between hour, minute and
second. -/
theorem timeParse_layouts (value : String) (t : Instant) :
    (timeParse releaseTagTimeLayout value = Except.ok t ↔ Timestamp '-' value.data t) ∧
    (timeParse releaseTagTimeLayoutBackup value = Except.ok t ↔ Timestamp ':' value.data t) := by
  have h₁ : releaseTagTimeLayoutBackup ≠ releaseTagTimeLayout := by decide
  constructor
  · rw [← parse_iff '-' (by decide)]
    unfold timeParse
    simp only [if_true]
    cases parse '-' value.data <;> simp
  · rw [← parse_iff ':' (by decide)]
    unfold timeParse
    simp only [h₁, if_false, if_true]
    cases parse ':' value.data <;> simp

/-! ## Lemmas: the calls on a cache that satisfies the invariant -/

theorem Inv.lookup_of_mem {c : LRUCache T} (h : Inv c) (e : Entry T) (he : e ∈ entries c) :
    lookup c e.key = some e := by
  obtain ⟨ps, h⟩ := h
  rw [h.lookup_eq, h.entries_eq]
  rw [h.entries_eq] at he
  obtain ⟨p, hp, rfl⟩ := List.mem_map.1 he
  exact find_map_of_mem (fun q => (c.mem q).entry) Entry.key ps p h.distinct hp

/-- The cache `exNew` is what `NewLRUCache(2, 10)` returns. -/
theorem exNew_ok : NewLRUCache Nat 2 10 = Outcome.ok exNew := rfl

/-- The cache `exOne` satisfies the invariant. -/
theorem exOne_Inv : Inv exOne :=
  Inv_Set exNew "a" 1 5 ⟨[], (WF_new 2 10 exNew exNew_ok).1⟩

/-- On a cache that satisfies the structural invariant: a `Get` on a present
key whose expiration is zero (none) or not before
the clock reading `now₁` returns the stored value and `true`; afterwards the
key's entry is first in the recency order with expiration `now₂ + ttl` when
`ttl > 0` (`now₂` is the clock reading of the refresh) and its old expiration
otherwise, and every other entry keeps its value, expiration and relative
position, in the list and in the map. -/
theorem Get_live_promotes [Inhabited T] (c : LRUCache T) (k : String) (now₁ now₂ : Int)
    (e : Entry T) (hinv : Inv c) (hk : lookup c k = some e)
    (hlive : e.expireAt = 0 ∨ now₁ ≤ e.expireAt) :
    (Get c k now₁ now₂).2 = (e.value, true) ∧
    entries (Get c k now₁ now₂).1 =
      ⟨k, e.value, if c.ttl > 0 then now₂ + c.ttl else e.expireAt⟩ ::
        (entries c).filter (fun x => decide (x.key ≠ k)) ∧
    lookup (Get c k now₁ now₂).1 k =
      some ⟨k, e.value, if c.ttl > 0 then now₂ + c.ttl else e.expireAt⟩ ∧
    (∀ k', k' ≠ k → lookup (Get c k now₁ now₂).1 k' = lookup c k') ∧
    Inv (Get c k now₁ now₂).1 := by
  obtain ⟨hres, hE, hinv', -, -⟩ := Get_live_entries c k now₁ now₂ e hinv hk hlive
  have hL := lookup_of_cons hinv hinv' _ hE
  refine ⟨hres, hE, ?_, ?_, hinv'⟩
  · have := hL k; simpa using this
  · intro k' hk'
    have := hL k'
    simpa [hk'] using this

/-- `Get_live_promotes` at a concrete input: `a` (set at 5, TTL 10) is read at time 7. -/
theorem Get_live_promotes_witness :
    (Get exOne "a" 7 8).2 = (1, true) ∧
    entries (Get exOne "a" 7 8).1 = [⟨"a", 1, 18⟩] ∧
    lookup (Get exOne "a" 7 8).1 "a" = some ⟨"a", 1, 18⟩ := by
  have h := Get_live_promotes exOne "a" 7 8 ⟨"a", 1, 15⟩ exOne_Inv (by decide) (by decide)
  exact ⟨h.1, by rw [h.2.1]; decide, h.2.2.1⟩

/-- On a cache that satisfies the structural invariant, of capacity at least 1
and holding at most `capacity` entries,
`Set(k, v)` at time `now` leaves `k` first in the recency order with value
`v` and expiration `now + ttl` (zero, that is none, when `ttl ≤ 0`).  Behind
it come the other entries unchanged and in their old order: all of them when
`k` was present or there was room, all but the last (the least recently used
one) when `k` was absent and the cache was full. -/
theorem Set_spec (c : LRUCache T) (k : String) (v : T) (now : Int)
    (hinv : Inv c) (hcap : 1 ≤ c.capacity) (hn : (c.items.length : Int) ≤ c.capacity) :
    entries (Set c k v now) =
      ⟨k, v, if c.ttl > 0 then now + c.ttl else 0⟩ ::
        (if k ∈ keys c then (entries c).filter (fun x => decide (x.key ≠ k))
         else if (c.items.length : Int) < c.capacity then entries c
         else (entries c).dropLast) ∧
    lookup (Set c k v now) k = some ⟨k, v, if c.ttl > 0 then now + c.ttl else 0⟩ ∧
    (∀ k' e', k' ≠ k → lookup (Set c k v now) k' = some e' → lookup c k' = some e') ∧
    (∀ k', k' ≠ k → (k ∈ keys c ∨ (c.items.length : Int) < c.capacity) →
      lookup (Set c k v now) k' = lookup c k') ∧
    Inv (Set c k v now) ∧
    ((Set c k v now).items.length : Int) ≤ c.capacity := by
  obtain ⟨hE, hinv', hlen, -, -⟩ := Set_entries c k v now hinv hcap hn
  have hsub : ∀ x, x ∈ (if k ∈ keys c then (entries c).filter (fun x => decide (x.key ≠ k))
         else if (c.items.length : Int) < c.capacity then entries c
         else (entries c).dropLast) → x ∈ entries c := by
    intro x hx
    split_ifs at hx
    · exact List.mem_of_mem_filter hx
    · exact hx
    · exact List.mem_of_mem_dropLast hx
  refine ⟨hE, ?_, ?_, ?_, hinv', hlen⟩
  · rw [hinv'.lookup_find, hE]; simp
  · intro k' e' hk' hl
    rw [hinv'.lookup_find, hE, List.find?_cons] at hl
    have hne : ¬ (k = k') := fun h => hk' h.symm
    simp only [hne, decide_False] at hl
    have hmem := hsub e' (List.mem_of_find?_eq_some hl)
    have hkey : e'.key = k' := by simpa using List.find?_some hl
    rw [← hkey]
    exact hinv.lookup_of_mem e' hmem
  · intro k' hk' hcase
    rw [hinv'.lookup_find, hE, List.find?_cons, hinv.lookup_find]
    have hne : ¬ (k = k') := fun h => hk' h.symm
    simp only [hne, decide_False]
    rcases hcase with hmem | hlt
    · rw [if_pos hmem]
      exact find_filter_ne Entry.key _ _ _ hk'
    · by_cases hmem : k ∈ keys c
      · rw [if_pos hmem]
        exact find_filter_ne Entry.key _ _ _ hk'
      · rw [if_neg hmem, if_pos hlt]

/-- `Set_spec` at concrete inputs: a second key fits, a third evicts the oldest. -/
theorem Set_spec_witness :
    entries (Set exOne "b" 2 6) = [⟨"b", 2, 16⟩, ⟨"a", 1, 15⟩] ∧
    entries (Set (Set exOne "b" 2 6) "c" 3 7) = [⟨"c", 3, 17⟩, ⟨"b", 2, 16⟩] ∧
    lookup (Set exOne "b" 2 6) "b" = some ⟨"b", 2, 16⟩ := by
  have h := Set_spec exOne "b" 2 6 exOne_Inv (by decide) (by decide)
  have h2 := Set_spec (Set exOne "b" 2 6) "c" 3 7 h.2.2.2.2.1 (by decide) (by decide)
  exact ⟨by rw [h.1]; decide, by rw [h2.1]; decide, h.2.1⟩

/-- `Get_expired_removes` at a concrete input: `a` (set at 5, TTL 10) is read at time 20. -/
theorem Get_expired_removes_witness :
    (Get exOne "a" 20 20).2 = (0, false) ∧ lookup (Get exOne "a" 20 20).1 "a" = none ∧
    entries (Get exOne "a" 20 20).1 = [] ∧
    Get exOne "zz" 20 20 = (exOne, 0, false) := by
  have h := Get_expired_removes exOne "a" 20 20 exOne_Inv
  have h' := Get_expired_removes exOne "zz" 20 20 exOne_Inv
  have h3 := h.2 5 ⟨"a", 1, 15⟩ (by decide) (by decide) (by decide) (by decide) (by decide)
  exact ⟨h3.1, h3.2.1, by rw [h3.2.2.2.1]; decide, h'.1 (by decide)⟩

/-! ## Lemmas: archives without repeated names -/

theorem FindInSlice_found (slice : List String) (val : String) :
    ((FindInSlice slice val).2 = true ↔ val ∈ slice) ∧
    ((FindInSlice slice val).2 = true → (FindInSlice slice val).1 = val) := by
  induction slice with
  | nil => simp [FindInSlice]
  | cons item rest ih =>
    unfold FindInSlice
    by_cases h : item = val
    · simp [h]
    · simp only [h, if_false, List.mem_cons]
      refine ⟨?_, ih.2⟩
      rw [ih.1]
      constructor
      · intro h'; exact Or.inr h'
      · rintro (h' | h')
        · exact absurd h'.symm h
        · exact h'

/-- `ExtractTar` returns `nil` exactly when the number of extracted entries is the number of required names. -/
theorem ExtractTarLoop_error (files : List String) (archive : List TarEntry) (remaining : Int)
    (dir : Dir) :
    (ExtractTarLoop files archive remaining dir).2 = none ↔
      remaining = ((extracted files archive).length : Int) := by
  induction archive generalizing remaining dir with
  | nil =>
    unfold ExtractTarLoop extracted
    by_cases h : remaining = 0 <;> simp [h]
  | cons header rest ih =>
    unfold ExtractTarLoop
    by_cases h1 : header.Typeflag = TypeReg
    · by_cases h2 : (FindInSlice files header.Name).2 = true
      · simp only [h1, h2, if_true]
        rw [ih]
        simp only [extracted, List.filter_cons, h1, h2, decide_True, Bool.and_self, if_true,
          List.length_cons]
        push_cast
        omega
      · simp only [h1, h2, if_true, Bool.false_eq_true, if_false]
        rw [ih]
        simp [extracted, List.filter_cons, h1, h2]
    · simp only [h1, if_false]
      rw [ih]
      simp [extracted, List.filter_cons, h1]

/-- After `ExtractTar` a file holds the content of the last extracted entry with its base name. -/
theorem ExtractTarLoop_dir (files : List String) (archive : List TarEntry) (remaining : Int)
    (dir : Dir) (f : String) :
    (ExtractTarLoop files archive remaining dir).1 f =
      match (extracted files archive).reverse.find? (fun e => decide (pathBase e.Name = f)) with
      | some e => some e.content
      | none => dir f := by
  induction archive generalizing remaining dir with
  | nil => unfold ExtractTarLoop extracted; by_cases h : remaining = 0 <;> simp [h]
  | cons header rest ih =>
    unfold ExtractTarLoop
    by_cases h1 : header.Typeflag = TypeReg
    · by_cases h2 : (FindInSlice files header.Name).2 = true
      · simp only [h1, h2, if_true]
        rw [ih]
        have hname := (FindInSlice_found files header.Name).2 h2
        simp only [extracted, List.filter_cons, h1, h2, decide_True, Bool.and_self, if_true,
          List.reverse_cons, List.find?_append]
        cases hfind : List.find? (fun e => decide (pathBase e.Name = f))
            (List.filter (fun e => decide (e.Typeflag = TypeReg) && (FindInSlice files e.Name).2)
              rest).reverse with
        | some e => simp
        | none =>
          simp only [Option.none_or, List.find?_cons, List.find?_nil, ExtractFile, hname]
          by_cases h3 : pathBase header.Name = f
          · simp [h3]
          · have h4 : ¬ f = pathBase header.Name := fun h => h3 h.symm
            simp [h3, h4]
      · simp only [h1, h2, if_true, Bool.false_eq_true, if_false]
        rw [ih]
        simp [extracted, List.filter_cons, h1, h2]
    · simp only [h1, if_false]
      rw [ih]
      simp [extracted, List.filter_cons, h1]

theorem extracted_mem (files : List String) (archive : List TarEntry) (e : TarEntry) :
    e ∈ extracted files archive ↔ e ∈ archive ∧ e.Typeflag = TypeReg ∧ e.Name ∈ files := by
  unfold extracted
  rw [List.mem_filter, Bool.and_eq_true, decide_eq_true_eq, (FindInSlice_found files e.Name).1]

theorem extracted_names_nodup (files : List String) (archive : List TarEntry)
    (hnd : ((archive.filter (fun e => decide (e.Typeflag = TypeReg))).map TarEntry.Name).Nodup) :
    ((extracted files archive).map TarEntry.Name).Nodup := by
  refine List.Nodup.sublist (List.Sublist.map _ ?_) hnd
  unfold extracted
  have : archive.filter (fun e => decide (e.Typeflag = TypeReg) && (FindInSlice files e.Name).2) =
      (archive.filter (fun e => decide (e.Typeflag = TypeReg))).filter
        (fun e => (FindInSlice files e.Name).2) := by
    rw [List.filter_filter]
    congr 1
    funext e
    exact Bool.and_comm _ _
  rw [this]
  exact List.filter_sublist _

/-- On an archive whose regular-file entries have pairwise distinct names, and
for required names that are distinct with distinct base names, `ExtractTar`
returns `nil` exactly when every required name is the name of a regular-file
entry, and then every required file holds the content of that entry. -/
theorem ExtractTar_distinct (files : List String) (hfiles : files.Nodup)
    (hbase : ∀ f ∈ files, ∀ g ∈ files, pathBase f = pathBase g → f = g)
    (dir : Dir) (archive : List TarEntry)
    (hnd : ((archive.filter (fun e => decide (e.Typeflag = TypeReg))).map TarEntry.Name).Nodup) :
    ((ExtractTar files dir archive).2 = none ↔
      ∀ f ∈ files, ∃ e ∈ archive, e.Typeflag = TypeReg ∧ e.Name = f) ∧
    ((ExtractTar files dir archive).2 = none →
      ∀ f ∈ files, ∃ e ∈ archive, e.Typeflag = TypeReg ∧ e.Name = f ∧
        (ExtractTar files dir archive).1 (pathBase f) = some e.content) := by
  have hM := extracted_names_nodup files archive hnd
  have hsub : (extracted files archive).map TarEntry.Name ⊆ files := by
    intro n hn
    obtain ⟨e, he, rfl⟩ := List.mem_map.1 hn
    exact ((extracted_mem files archive e).1 he).2.2
  have hle : (extracted files archive).length ≤ files.length := by
    have := (List.subperm_of_subset hM hsub).length_le
    simpa using this
  have hall : (ExtractTar files dir archive).2 = none →
      ∀ f ∈ files, ∃ e ∈ extracted files archive, e.Name = f := by
    intro hok f hf
    unfold ExtractTar at hok
    rw [ExtractTarLoop_error] at hok
    have hlen : files.length ≤ ((extracted files archive).map TarEntry.Name).length := by
      rw [List.length_map]; exact_mod_cast hok.le
    have hperm := (List.subperm_of_subset hM hsub).perm_of_length_le hlen
    have := (hperm.mem_iff (a := f)).2 hf
    obtain ⟨e, he, rfl⟩ := List.mem_map.1 this
    exact ⟨e, he, rfl⟩
  refine ⟨⟨?_, ?_⟩, ?_⟩
  · intro hok f hf
    obtain ⟨e, he, hn⟩ := hall hok f hf
    obtain ⟨h1, h2, -⟩ := (extracted_mem files archive e).1 he
    exact ⟨e, h1, h2, hn⟩
  · intro hpres
    unfold ExtractTar
    rw [ExtractTarLoop_error]
    have hsub' : files ⊆ (extracted files archive).map TarEntry.Name := by
      intro f hf
      obtain ⟨e, h1, h2, h3⟩ := hpres f hf
      exact List.mem_map.2 ⟨e, (extracted_mem files archive e).2 ⟨h1, h2, h3 ▸ hf⟩, h3⟩
    have := (List.subperm_of_subset hfiles hsub').length_le
    rw [List.length_map] at this
    have h' : files.length = (extracted files archive).length := le_antisymm this hle
    exact_mod_cast h'
  · intro hok f hf
    obtain ⟨e, he, hn⟩ := hall hok f hf
    obtain ⟨h1, h2, -⟩ := (extracted_mem files archive e).1 he
    refine ⟨e, h1, h2, hn, ?_⟩
    unfold ExtractTar
    rw [ExtractTarLoop_dir]
    cases hfind : (extracted files archive).reverse.find?
        (fun e => decide (pathBase e.Name = pathBase f)) with
    | none =>
      have := List.find?_eq_none.1 hfind e (List.mem_reverse.2 he)
      simp [hn] at this
    | some e' =>
      have he' : e' ∈ extracted files archive := List.mem_reverse.1 (List.mem_of_find?_eq_some hfind)
      have hb : pathBase e'.Name = pathBase f := by simpa using List.find?_some hfind
      have hn' : e'.Name = f := hbase _ ((extracted_mem files archive e').1 he').2.2 _ hf hb
      have : e' = e := List.inj_on_of_nodup_map hM he' he (hn'.trans hn.symm)
      simp [this]

/-- The legacy attempt runs exactly when the modern attempt returns an error. -/
theorem locateArtifacts_legacy_iff (dir : Dir) (archive : List TarEntry) :
    (locateArtifacts dir archive).2.2 = true ↔ (ExtractTar latestAssets dir archive).2 ≠ none := by
  unfold locateArtifacts
  cases h1 : ExtractTar latestAssets dir archive with
  | mk d₁ r₁ =>
    cases r₁ with
    | none => simp
    | some err => simp

/-- On an archive whose regular-file entries have pairwise distinct names the
artifact-location step keeps the two conventions apart: the legacy attempt
runs exactly when the modern attempt fails, and when the step succeeds the
three destination files hold the contents of the three entries of one
convention, the modern one if its attempt succeeded and the legacy one
otherwise. -/
theorem locateArtifacts_distinct (dir : Dir) (archive : List TarEntry)
    (hnd : ((archive.filter (fun e => decide (e.Typeflag = TypeReg))).map TarEntry.Name).Nodup) :
    ((locateArtifacts dir archive).2.2 = true ↔ (ExtractTar latestAssets dir archive).2 ≠ none) ∧
    ((locateArtifacts dir archive).2.1 = none →
      ∃ assets, assets = (if (locateArtifacts dir archive).2.2 then legacyAssets else latestAssets) ∧
        ∀ f ∈ assets, ∃ e ∈ archive, e.Typeflag = TypeReg ∧ e.Name = f ∧
          (locateArtifacts dir archive).1 (pathBase f) = some e.content) := by
  have hL := ExtractTar_distinct latestAssets (by decide) (by decide) dir archive hnd
  unfold locateArtifacts
  cases h1 : ExtractTar latestAssets dir archive with
  | mk d₁ r₁ =>
    cases r₁ with
    | none =>
      rw [h1] at hL
      refine ⟨by simp, fun _ => ⟨_, rfl, ?_⟩⟩
      simpa using hL.2 rfl
    | some err =>
      have hG := ExtractTar_distinct legacyAssets (by decide) (by decide) d₁ archive hnd
      refine ⟨by simp, fun hok => ⟨_, rfl, ?_⟩⟩
      simpa using hG.2 hok

/-! ## Lemmas: misses, the stop flag and the shape of the list -/

/-- `unlinkNode` neither reads nor writes the stop flag. -/
theorem unlinkNode_stop (c : LRUCache T) (b : Bool) (p : Nat) :
    unlinkNode { c with stopClosed := b } p = { unlinkNode c p with stopClosed := b } := by
  unfold unlinkNode
  dsimp only
  cases (c.mem p).prev <;> dsimp only <;> split <;> rfl

/-- `addToFront` neither reads nor writes the stop flag. -/
theorem addToFront_stop (c : LRUCache T) (b : Bool) (p : Nat) :
    addToFront { c with stopClosed := b } p = { addToFront c p with stopClosed := b } := by
  unfold addToFront
  dsimp only
  cases c.head <;> dsimp only <;> split <;> rfl

/-- `moveToFront` neither reads nor writes the stop flag. -/
theorem moveToFront_stop (c : LRUCache T) (b : Bool) (p : Nat) :
    moveToFront { c with stopClosed := b } p = { moveToFront c p with stopClosed := b } := by
  unfold moveToFront
  dsimp only
  split
  · rfl
  · rw [unlinkNode_stop, addToFront_stop]

/-- `removeNode` neither reads nor writes the stop flag. -/
theorem removeNode_stop (c : LRUCache T) (b : Bool) (p : Nat) :
    removeNode { c with stopClosed := b } p = { removeNode c p with stopClosed := b } := by
  unfold removeNode
  exact unlinkNode_stop { c with items := mapDelete c.items (c.mem p).key } b p

/-- `removeOldest` neither reads nor writes the stop flag. -/
theorem removeOldest_stop (c : LRUCache T) (b : Bool) :
    removeOldest { c with stopClosed := b } = { removeOldest c with stopClosed := b } := by
  obtain ⟨mem, fresh, items, head, tail, capacity, ttl, stop⟩ := c
  cases tail
  · rfl
  · exact removeNode_stop _ b _

/-- The capacity test of `Set` neither reads nor writes the stop flag. -/
theorem evict_stop (c : LRUCache T) (b : Bool) :
    (if ((c.items.length : Int) > c.capacity) then removeOldest { c with stopClosed := b }
      else { c with stopClosed := b }) =
    { (if ((c.items.length : Int) > c.capacity) then removeOldest c else c) with
      stopClosed := b } := by
  split
  · exact removeOldest_stop c b
  · rfl

/-- `Get` neither reads nor writes the stop flag. -/
theorem Get_stop [Inhabited T] (c : LRUCache T) (b : Bool) (k : String) (now₁ now₂ : Int) :
    Get { c with stopClosed := b } k now₁ now₂ =
      ({ (Get c k now₁ now₂).1 with stopClosed := b }, (Get c k now₁ now₂).2) := by
  obtain ⟨mem, fresh, items, head, tail, capacity, ttl, stop⟩ := c
  unfold Get
  dsimp only
  cases mapGet items k with
  | none => rfl
  | some p =>
    dsimp only
    split
    · rw [removeNode_stop ⟨mem, fresh, items, head, tail, capacity, ttl, stop⟩ b p]
    · split
      · rw [moveToFront_stop ⟨store mem p { mem p with expireAt := now₂ + ttl }, fresh, items, head, tail, capacity, ttl, stop⟩ b p]
      · rw [moveToFront_stop ⟨mem, fresh, items, head, tail, capacity, ttl, stop⟩ b p]

/-- `Set` neither reads nor writes the stop flag. -/
theorem Set_stop (c : LRUCache T) (b : Bool) (k : String) (v : T) (now : Int) :
    Set { c with stopClosed := b } k v now = { Set c k v now with stopClosed := b } := by
  obtain ⟨mem, fresh, items, head, tail, capacity, ttl, stop⟩ := c
  unfold Set
  dsimp only
  cases mapGet items k with
  | some p =>
    dsimp only
    exact moveToFront_stop ⟨store mem p { mem p with value := v, expireAt := if ttl > 0 then now + ttl else 0 }, fresh, items, head, tail, capacity, ttl, stop⟩ b p
  | none =>
    dsimp only
    rw [addToFront_stop ⟨store mem fresh { key := k, value := v, expireAt := if ttl > 0 then now + ttl else 0, prev := none, next := none }, fresh + 1, mapSet items k fresh, head, tail, capacity, ttl, stop⟩ b fresh]
    exact evict_stop (addToFront ⟨store mem fresh { key := k, value := v, expireAt := if ttl > 0 then now + ttl else 0, prev := none, next := none }, fresh + 1, mapSet items k fresh, head, tail, capacity, ttl, stop⟩ fresh) b

/-! ### The shape of the recency list -/

/-- The entries after a `Delete`. -/
theorem Delete_entries (c : LRUCache T) (k : String) (hinv : Inv c) :
    entries (Delete c k) = (entries c).filter (fun x => decide (x.key ≠ k)) ∧
    Inv (Delete c k) ∧ (mapGet c.items k = none → Delete c k = c) ∧
    (Delete c k).capacity = c.capacity ∧ (Delete c k).ttl = c.ttl ∧
    (Delete c k).stopClosed = c.stopClosed := by
  obtain ⟨ps, h⟩ := hinv
  unfold Delete
  cases hg : mapGet c.items k with
  | none =>
    refine ⟨?_, ⟨_, h⟩, fun _ => rfl, rfl, rfl, rfl⟩
    symm
    rw [List.filter_eq_self]
    intro e he
    have hne := (h.mapGet_none k).1 hg
    rw [h.entries_eq] at he
    obtain ⟨p, hp, rfl⟩ := List.mem_map.1 he
    simpa using hne p hp
  | some p =>
    obtain ⟨hp, hpk⟩ := (h.mapGet_some k p).1 hg
    obtain ⟨l₁, l₂, rfl⟩ := List.append_of_mem hp
    obtain ⟨hw, hent, -, hc, ht, hs⟩ := removeNode_WF c l₁ l₂ p h
    have hE := entries_remove h hw (fun q _ => hent q)
    rw [hpk] at hE
    exact ⟨hE, ⟨_, hw⟩, fun hx => Option.noConfusion hx, hc, ht, hs⟩

/-! ### Delete and the sweep interval -/

/-- The cache `exTwo` satisfies the invariant. -/
theorem exTwo_Inv : Inv exTwo := Inv_Set exOne "b" 2 6 exOne_Inv

/-- For a TTL of at least two nanoseconds the sweep interval is positive and
the ticker is created. -/
theorem startSweep_of_two_le (c : LRUCache T) (h : 2 ≤ c.ttl) :
    0 < cleanupInterval c ∧ startSweep c = some (Outcome.ok (cleanupInterval c)) := by
  have hpos : 0 < cleanupInterval c := by
    unfold cleanupInterval
    have := Int.lt_tdiv_add_one_mul_self c.ttl (show (0 : Int) < 2 by decide)
    omega
  refine ⟨hpos, ?_⟩
  unfold startSweep NewTicker
  rw [if_pos (by omega), if_neg (by omega)]

/-- On a cache that satisfies the structural invariant, `Delete(k)`
leaves `k` absent from the map and from the recency list, keeps every other
entry with its value and expiration in the same relative order, and keeps the
map lookup of every other key; when `k` was absent the state is unchanged. -/
theorem Delete_spec (c : LRUCache T) (k : String) (hinv : Inv c) :
    mapGet (Delete c k).items k = none ∧ k ∉ keys (Delete c k) ∧
    entries (Delete c k) = (entries c).filter (fun x => decide (x.key ≠ k)) ∧
    (∀ k', k' ≠ k → lookup (Delete c k) k' = lookup c k') ∧
    Inv (Delete c k) ∧
    (mapGet c.items k = none → Delete c k = c) := by
  obtain ⟨hE, hI, hsame, -, -, -⟩ := Delete_entries c k hinv
  have hL := lookup_of_filter hinv hI k hE
  refine ⟨?_, ?_, hE, fun k' hk' => ?_, hI, hsame⟩
  · rw [← lookup_eq_none_iff, hL k, if_pos rfl]
  · rw [keys_eq_map_entries, hE]
    simp
  · rw [hL k', if_neg hk']

/-- `Delete_spec` at a concrete input: deleting `b` from the cache holding `b`, `a`
leaves `a` alone; deleting the absent `z` changes nothing. -/
theorem Delete_spec_witness :
    keys exTwo = ["b", "a"] ∧ keys (Delete exTwo "b") = ["a"] ∧
    entries (Delete exTwo "b") = [⟨"a", 1, 15⟩] ∧
    mapGet (Delete exTwo "b").items "b" = none ∧
    Delete exTwo "z" = exTwo := by
  have h := Delete_spec exTwo "b" exTwo_Inv
  have hz := Delete_spec exTwo "z" exTwo_Inv
  refine ⟨by decide, by decide, ?_, h.1, hz.2.2.2.2.2 (by decide)⟩
  rw [h.2.2.1]
  decide

/-! ## Lemmas: the service -/

/-- `GetTag` when the registry answers: the result is decided by the labels. -/
theorem GetTag_eq (env : Env) (imageName ref : String) (img : Image)
    (labels : List (String × String))
    (hp : env.ParseReference imageName = Except.ok ref)
    (hr : env.RemoteImage imageName = Except.ok img)
    (hc : env.ConfigFile imageName = Except.ok labels) :
    GetTag env imageName =
      (if (!(if !(labelGet labels "release").2 then labelGet labels "version"
              else labelGet labels "release").2 ||
            TrimSpace (if !(labelGet labels "release").2 then labelGet labels "version"
              else labelGet labels "release").1 = "") then
          Except.error "release tag not found"
        else
          Except.ok
            { Tag := TrimSpace (if !(labelGet labels "release").2 then labelGet labels "version"
                else labelGet labels "release").1
              Reference := ref
              Img := img },
        [Event.parseReference imageName, Event.parseReference imageName,
          Event.remoteImage imageName, Event.configFile imageName]) := by
  simp only [GetTag, FetchImage, hp, hr, hc]
  split <;> split <;> rfl

/-- The cache of a new service is what `NewLRUCache(20, 10 * time.Minute)`
returns. -/
theorem exService_ok : NewRetrieveService "/data" = Outcome.ok exService := rfl

/-- The flag of a label lookup says whether the key occurs in the map, and an
absent key reads as the empty string. -/
theorem labelGet_present (labels : List (String × String)) (key : String) :
    ((labelGet labels key).2 = true ↔ ∃ v, (key, v) ∈ labels) ∧
    ((labelGet labels key).2 = false → (labelGet labels key).1 = "") := by
  induction labels with
  | nil => simp [labelGet]
  | cons kv rest ih =>
    obtain ⟨k, v⟩ := kv
    unfold labelGet
    by_cases h : k = key
    · subst h
      simp
    · simp only [h, if_false]
      refine ⟨?_, ih.2⟩
      rw [ih.1]
      constructor
      · rintro ⟨w, hw⟩
        exact ⟨w, List.mem_cons_of_mem _ hw⟩
      · rintro ⟨w, hw⟩
        rcases List.mem_cons.1 hw with heq | hw
        · cases heq
          exact absurd rfl h
        · exact ⟨w, hw⟩

/-- C1: with expiration disabled (TTL = 0) and capacity `C ≥ 1`, after every
sequence of `Set` and `Get` calls on a new cache the map holds at most `C`
entries and the recency list is exactly the first `min C d` keys of the touch
log (distinct keys, most recently touched first), where `d` is the number of
distinct keys ever set. -/
theorem lru_resident_keys (T : Type) [Inhabited T] (C : Int) (hC : 1 ≤ C) :
    ∃ c₀ : LRUCache T, NewLRUCache T C 0 = Outcome.ok c₀ ∧
      ∀ calls : List (Call T),
        ((run c₀ calls).items.length : Int) ≤ C ∧
        (keys (run c₀ calls)).length = (run c₀ calls).items.length ∧
        keys (run c₀ calls) = (touched c₀ calls).take C.toNat ∧
        (∀ k, (lookup (run c₀ calls) k).isSome ↔ k ∈ (touched c₀ calls).take C.toNat) ∧
        (touched c₀ calls).Nodup ∧
        (∀ k, k ∈ touched c₀ calls ↔ k ∈ keysSet calls) ∧
        (keys (run c₀ calls)).length = min C.toNat (keysSet calls).dedup.length := by
  have hnew : ∃ c₀ : LRUCache T, NewLRUCache T C 0 = Outcome.ok c₀ := by
    unfold NewLRUCache
    rw [if_neg (by omega)]
    exact ⟨_, rfl⟩
  obtain ⟨c₀, hc₀⟩ := hnew
  refine ⟨c₀, hc₀, fun calls => ?_⟩
  obtain ⟨hres, hrun, hmem⟩ := Resident_fold C hC calls c₀ [] (Resident_new C c₀ hc₀)
  have hlog : (calls.foldl touchedStep (c₀, [])).2 = touched c₀ calls := rfl
  rw [hrun, hlog] at hres
  rw [hlog] at hmem
  have hk := hres.keys_take
  have hperm : (touched c₀ calls).Perm (keysSet calls).dedup := by
    rw [List.perm_ext_iff_of_nodup hres.nodup (List.nodup_dedup _)]
    intro k
    rw [hmem k, List.mem_dedup]
    simp
  refine ⟨hres.len, hres.inv.length_keys, hk, fun k => ?_, hres.nodup, fun k => ?_, ?_⟩
  · rw [hres.inv.lookup_isSome k, hk]
  · rw [hmem k]; simp
  · rw [hk, List.length_take, hperm.length_eq]

/-- C1 at a concrete input: capacity 2 and five calls on three keys; `b` is
evicted by `Set c` because `Get a` touched `a` after `b` was set. -/
theorem lru_resident_keys_witness :
    NewLRUCache Nat 2 0 = Outcome.ok exNoTTL ∧
    touched exNoTTL exCalls = ["c", "a", "b"] ∧
    keys (run exNoTTL exCalls) = ["c", "a"] ∧
    (keys (run exNoTTL exCalls)).length = min 2 (keysSet exCalls).dedup.length := by
  obtain ⟨c₀, h, hall⟩ := lru_resident_keys Nat 2 (by decide)
  have h0 : NewLRUCache Nat 2 0 = Outcome.ok exNoTTL := rfl
  have hc : c₀ = exNoTTL := by
    rw [h0] at h
    exact (Outcome.ok.inj h).symm
  subst hc
  have ht : touched exNoTTL exCalls = ["c", "a", "b"] := by decide
  refine ⟨h0, ht, ?_, (hall exCalls).2.2.2.2.2.2⟩
  rw [(hall exCalls).2.2.1, ht]
  rfl

/-- C2 (the code at a failing input): for sizes 10, 5, 50 the candidates are
the layers 1 and 2 and the largest is the last one, of size 50; the code
returns layer 0, of size 10.  For sizes 10, 50, 5 and for a single layer it
returns what the claim says. -/
theorem FindLargestLayer_misses_last_layer :
    FindLargestLayer layersLastLargest = Outcome.ok ("aa", 10) ∧
    FindLargestLayer layersSpecExample = Outcome.ok ("bb", 50) ∧
    FindLargestLayer { Layers := Except.ok [⟨sha256 "aa", 7⟩] } = Outcome.ok ("aa", 7) := by
  decide

/-- C3 (the code at a failing input): with three layers of sizes 100, 50, 5 the
code compares against layer 0 and returns its digest and size. -/
theorem FindLargestLayer_selects_first_layer :
    FindLargestLayer layersFirstLargest = Outcome.ok ("aa", 100) := by
  decide

/-- C4 (the code at a failing input): after a sweep whose removal step ran on
the stale node of `a`, the cache holds `b` (set at 21, TTL 10) and `c` in the
map and only `c` in the recency list.  `Get("b")` at 32 finds `b` expired and
removes it, and unlinking the node of `b`, which is in no list, sets `head`
and `tail` to nil: `c` is in the recency list before the call and not after
it, while the map still holds it. -/
theorem Get_expired_drops_other_key :
    sweepCandidates = [0] ∧
    lookup orphanState "b" = some ⟨"b", 2, 31⟩ ∧
    lookup orphanState "c" = some ⟨"c", 3, 33⟩ ∧
    keys orphanState = ["c"] ∧
    (Get orphanState "b" 32 32).2 = (0, false) ∧
    lookup (Get orphanState "b" 32 32).1 "b" = none ∧
    lookup (Get orphanState "b" 32 32).1 "c" = some ⟨"c", 3, 33⟩ ∧
    keys (Get orphanState "b" 32 32).1 = [] ∧
    (Get orphanState "b" 32 32).1.head = none ∧
    (Get orphanState "b" 32 32).1.tail = none := by
  decide

/-- C5 (the code at a failing input): on the same state `Get("b")` at 25
finds `b` live and returns its value; promoting the node of `b`, which is in
no list, first unlinks it, which sets `head` and `tail` to nil, and then puts
it in front of an empty list: `c` is in the recency list before the call and
not after it, while the map still holds it. -/
theorem Get_live_drops_other_key :
    lookup orphanState "b" = some ⟨"b", 2, 31⟩ ∧
    keys orphanState = ["c"] ∧
    (Get orphanState "b" 25 25).2 = (2, true) ∧
    lookup (Get orphanState "b" 25 25).1 "b" = some ⟨"b", 2, 35⟩ ∧
    lookup (Get orphanState "b" 25 25).1 "c" = some ⟨"c", 3, 33⟩ ∧
    keys (Get orphanState "b" 25 25).1 = ["b"] := by
  decide

/-- C6 (the code at a failing input): after a sweep whose removal step ran on
the stale node of the evicted `a`, the cache of capacity 2 holds `b` and `c`
with `head` and `tail` nil.  `Set("d", 4)` at 23 links `d` as the only node of
the list, finds three entries, and evicts the tail, which is `d` itself: `d`
is absent after the call and no other key was removed. -/
theorem Set_evicts_inserted_key :
    evictedState.capacity = 2 ∧ evictedState.items.length = 2 ∧
    lookup evictedState "d" = none ∧
    evictedState.head = none ∧ evictedState.tail = none ∧
    lookup (Set evictedState "d" 4 23) "d" = none ∧
    lookup (Set evictedState "d" 4 23) "b" = some ⟨"b", 2, 31⟩ ∧
    lookup (Set evictedState "d" 4 23) "c" = some ⟨"c", 3, 31⟩ ∧
    keys (Set evictedState "d" 4 23) = [] := by
  decide

/-- C7 (the code at a failing input): the candidate node of `a` is collected
by the scan at 20; before the removal `a` is looked up (expired, so removed)
and set again, which allocates a new node expiring at 31.  The removal at 22
re-validates the stale node, deletes the map entry of `a` although its current
entry is not expired, and resets `head` and `tail` to `nil` although `b` is
still in the map. -/
theorem sweep_removes_refreshed_key :
    sweepCandidates = [0] ∧
    lookup sweepMiddle "a" = some ⟨"a", 2, 31⟩ ∧
    keys sweepMiddle = ["b", "a"] ∧
    lookup sweepEnd "a" = none ∧
    lookup sweepEnd "b" = some ⟨"b", 3, 31⟩ ∧
    sweepEnd.head = none ∧ sweepEnd.tail = none ∧ keys sweepEnd = [] := by
  decide

/-- C8 (the claim at a failing input): the segment `2024-01-02T3-04-05Z` has a
one-digit hour and the segment `2024-01-02T03-04-05,5Z` a fractional second;
neither has the shape `YYYY-MM-DDTHH-MM-SSZ` or `YYYY-MM-DDTHH:MM:SSZ`, and
`ParseReleaseTag` succeeds on both tags. -/
theorem ParseReleaseTag_accepts_short_hour :
    Split "RELEASE.2024-01-02T3-04-05Z" '.' = ["RELEASE", "2024-01-02T3-04-05Z"] ∧
    strictShape '-' "2024-01-02T3-04-05Z" = false ∧
    strictShape ':' "2024-01-02T3-04-05Z" = false ∧
    ParseReleaseTag timeParse "RELEASE.2024-01-02T3-04-05Z" =
      Except.ok ⟨2024, 1, 2, 3, 4, 5, 0⟩ ∧
    Split "RELEASE.2024-01-02T03-04-05,5Z" '.' = ["RELEASE", "2024-01-02T03-04-05,5Z"] ∧
    strictShape '-' "2024-01-02T03-04-05,5Z" = false ∧
    strictShape ':' "2024-01-02T03-04-05,5Z" = false ∧
    ParseReleaseTag timeParse "RELEASE.2024-01-02T03-04-05,5Z" =
      Except.ok ⟨2024, 1, 2, 3, 4, 5, 500000000⟩ ∧
    strictShape '-' "2024-01-02T03-04-05Z" = true := by
  decide

/-- C8 (amended): `ParseReleaseTag` reads the second `.`-separated segment of
the tag when there is more than one and the whole tag otherwise, and returns
the instant `t` exactly when that segment is a timestamp for `t` as
`time.Parse` reads the two layouts: four digits of year, `-`, two digits of
month, `-`, two digits of day, `T`, one or two digits of hour, two digits of
minute and of second, each after `-` (or each after `:`), an optional
fractional second (`.` or `,` and digits), and `Z`, with every field in range;
on any other segment it returns an error. -/
theorem ParseReleaseTag_timestamp (tag : String) :
    ∃ seg : String,
      (1 < (Split tag '.').length → (Split tag '.')[1]? = some seg) ∧
      ((Split tag '.').length ≤ 1 → seg = tag) ∧
      (∀ t, ParseReleaseTag timeParse tag = Except.ok t ↔
        (Timestamp '-' seg.data t ∨ Timestamp ':' seg.data t)) ∧
      ((¬ ∃ t, Timestamp '-' seg.data t ∨ Timestamp ':' seg.data t) →
        ∃ e, ParseReleaseTag timeParse tag = Except.error e) := by
  obtain ⟨seg, h₁, h₂, heq, -⟩ := ParseReleaseTag_spec timeParse tag
  have hiff : ∀ t, ParseReleaseTag timeParse tag = Except.ok t ↔
      (Timestamp '-' seg.data t ∨ Timestamp ':' seg.data t) := by
    intro t
    rw [heq, ← (timeParse_layouts seg t).2]
    cases h : timeParse releaseTagTimeLayout seg with
    | ok t' =>
      have ht' := (timeParse_layouts seg t').1.1 h
      simp only
      constructor
      · intro e
        left
        rw [← Except.ok.inj e]
        exact ht'
      · rintro (hd | hc)
        · have := (timeParse_layouts seg t).1.2 hd
          rw [h] at this
          exact this
        · exfalso
          have hc' := (timeParse_layouts seg t).2.1 hc
          obtain ⟨Y, M, D, hh, m, sc, f, hs, hY, hM, hD, hH, -⟩ := ht'
          obtain ⟨Y', M', D', hh', m', sc', f', hs', hY', hM', hD', hH', -⟩ := hc'
          obtain ⟨y₁, y₂, y₃, y₄, rfl, -⟩ := (Digits_four _).1 hY
          obtain ⟨y₁', y₂', y₃', y₄', rfl, -⟩ := (Digits_four _).1 hY'
          obtain ⟨m₁, m₂, rfl, -⟩ := (Digits_two _).1 hM
          obtain ⟨m₁', m₂', rfl, -⟩ := (Digits_two _).1 hM'
          obtain ⟨d₁, d₂, rfl, -⟩ := (Digits_two _).1 hD
          obtain ⟨d₁', d₂', rfl, -⟩ := (Digits_two _).1 hD'
          rw [hs] at hs'
          have hcolon : Char.isDigit ':' = false := by decide
          have hhyphen : Char.isDigit '-' = false := by decide
          rcases hH with h1 | h2 <;> rcases hH' with h1' | h2'
          · obtain ⟨a, rfl, -⟩ := (Digits_one _).1 h1
            obtain ⟨a', rfl, -⟩ := (Digits_one _).1 h1'
            simp at hs'
          · obtain ⟨a, rfl, -⟩ := (Digits_one _).1 h1
            obtain ⟨a', b', rfl, -, hb'⟩ := (Digits_two _).1 h2'
            simp only [List.cons_append, List.nil_append, List.cons.injEq] at hs'
            obtain ⟨-, -, -, -, -, -, -, -, -, -, -, -, hb, -⟩ := hs'
            rw [← hb] at hb'
            rw [hhyphen] at hb'
            cases hb'
          · obtain ⟨a, b, rfl, -, hb⟩ := (Digits_two _).1 h2
            obtain ⟨a', rfl, -⟩ := (Digits_one _).1 h1'
            simp only [List.cons_append, List.nil_append, List.cons.injEq] at hs'
            obtain ⟨-, -, -, -, -, -, -, -, -, -, -, -, hb', -⟩ := hs'
            rw [hb'] at hb
            rw [hcolon] at hb
            cases hb
          · obtain ⟨a, b, rfl, -⟩ := (Digits_two _).1 h2
            obtain ⟨a', b', rfl, -⟩ := (Digits_two _).1 h2'
            simp at hs'
    | error e =>
      simp only
      constructor
      · intro h'
        exact Or.inr h'
      · rintro (hd | hc)
        · have := (timeParse_layouts seg t).1.2 hd
          rw [h] at this
          cases this
        · exact hc
  refine ⟨seg, h₁, h₂, hiff, fun hno => ?_⟩
  cases hp : ParseReleaseTag timeParse tag with
  | ok t => exact absurd ⟨t, (hiff t).1 hp⟩ hno
  | error e => exact ⟨e, rfl⟩

/-- C8 (amended) at the three tags of the specification: the first is read in
the hyphen layout, the second in the colon layout, and on `garbage` both
layouts fail. -/
theorem ParseReleaseTag_examples :
    ParseReleaseTag timeParse "RELEASE.2024-01-01T00-00-00Z" =
      Except.ok ⟨2024, 1, 1, 0, 0, 0, 0⟩ ∧
    ParseReleaseTag timeParse "2024-01-01T00:00:05Z" = Except.ok ⟨2024, 1, 1, 0, 0, 5, 0⟩ ∧
    ParseReleaseTag timeParse "garbage" =
      Except.error "parsing time garbage: cannot parse" ∧
    (Timestamp '-' "2024-01-01T00-00-00Z".data ⟨2024, 1, 1, 0, 0, 0, 0⟩ ∨
      Timestamp ':' "2024-01-01T00-00-00Z".data ⟨2024, 1, 1, 0, 0, 0, 0⟩) := by
  have e₁ : ParseReleaseTag timeParse "RELEASE.2024-01-01T00-00-00Z" =
      Except.ok ⟨2024, 1, 1, 0, 0, 0, 0⟩ := by decide
  refine ⟨e₁, by decide, by decide, ?_⟩
  obtain ⟨seg, hseg, -, hiff, -⟩ := ParseReleaseTag_timestamp "RELEASE.2024-01-01T00-00-00Z"
  have hs : seg = "2024-01-01T00-00-00Z" := by
    have := hseg (by decide)
    have h2 : (Split "RELEASE.2024-01-01T00-00-00Z" '.')[1]? = some "2024-01-01T00-00-00Z" := by
      decide
    rw [h2] at this
    exact (Option.some.inj this).symm
  subst hs
  exact (hiff _).1 e₁

/-- C9 (the code at a failing input): on an empty layer list the code indexes
`layers[0]`, a run-time panic, and returns no error value. -/
theorem FindLargestLayer_empty_panics :
    FindLargestLayer noLayers = Outcome.panic "index out of range" := by
  decide

/-- C10 (the code at a failing input): the modern attempt writes `minio` and
fails; the legacy attempt counts the checksum twice, succeeds without a
legacy binary, and the result mixes the two conventions. -/
theorem locateArtifacts_mixes_conventions :
    (ExtractTar latestAssets emptyDir mixedArchive).2 = some "EOF reached before extracting" ∧
    (locateArtifacts emptyDir mixedArchive).2 = (none, true) ∧
    (locateArtifacts emptyDir mixedArchive).1 "minio" = some "modern binary" ∧
    (locateArtifacts emptyDir mixedArchive).1 "minio.sha256sum" = some "legacy checksum 2" ∧
    (locateArtifacts emptyDir mixedArchive).1 "minio.minisig" = some "legacy signature" := by
  decide

/-- C14 (the code at a failing input): on a cache miss for an image without
layers the pipeline does not return an error: `FindLargestLayer` panics and so
does `RetrieveContent`, after the registry calls and before any step of the
extraction; on the same registry with layers the call caches the digest. -/
theorem RetrieveContent_panics_without_layers :
    Except.map ImgRefs.Tag (GetTag exEnvNoLayers "minio/minio:latest").1 = Except.ok exTag ∧
    (Get exService.cache exTag 1 1).2.2 = false ∧
    (createContentImage exEnvNoLayers "/data"
      { Tag := exTag, Reference := "minio/minio:latest", Img := noLayers }).1 =
      Outcome.panic "index out of range" ∧
    (RetrieveContent exService exEnvNoLayers "minio/minio:latest" 1 1 2).2.1 =
      Outcome.panic "index out of range" ∧
    (∀ x ∈ (RetrieveContent exService exEnvNoLayers "minio/minio:latest" 1 1 2).2.2,
      x.isExtraction = false) ∧
    lookup (RetrieveContent exService exEnv "minio/minio:latest" 1 1 2).1.cache exTag =
      some ⟨exTag, "bb", 600000000002⟩ := by
  decide

/-- C15: when the registry answers, `GetTag` takes the `release` label if the
map has one and the `version` label otherwise, trims the value, and fails with
`release tag not found` exactly when neither label is present or the trimmed
value is empty; a blank `release` label fails whatever the `version` label
holds. -/
theorem GetTag_label_rule (env : Env) (imageName ref : String) (img : Image)
    (labels : List (String × String))
    (hp : env.ParseReference imageName = Except.ok ref)
    (hr : env.RemoteImage imageName = Except.ok img)
    (hc : env.ConfigFile imageName = Except.ok labels) :
    (∀ v, labelGet labels "release" = (v, true) →
      (GetTag env imageName).1 =
        if TrimSpace v = "" then Except.error "release tag not found"
        else Except.ok { Tag := TrimSpace v, Reference := ref, Img := img }) ∧
    (∀ v, (labelGet labels "release").2 = false → labelGet labels "version" = (v, true) →
      (GetTag env imageName).1 =
        if TrimSpace v = "" then Except.error "release tag not found"
        else Except.ok { Tag := TrimSpace v, Reference := ref, Img := img }) ∧
    ((labelGet labels "release").2 = false → (labelGet labels "version").2 = false →
      (GetTag env imageName).1 = Except.error "release tag not found") ∧
    ((∃ e, (GetTag env imageName).1 = Except.error e) ↔
      ((labelGet labels "release").2 = false ∧ (labelGet labels "version").2 = false) ∨
      TrimSpace (if (labelGet labels "release").2 then (labelGet labels "release").1
        else (labelGet labels "version").1) = "") := by
  rw [GetTag_eq env imageName ref img labels hp hr hc]
  dsimp only
  cases h1 : labelGet labels "release" with
  | mk v₁ b₁ =>
    cases h2 : labelGet labels "version" with
    | mk v₂ b₂ =>
      cases b₁ <;> cases b₂ <;> simp
      all_goals by_cases h : TrimSpace v₁ = "" <;> by_cases h' : TrimSpace v₂ = "" <;> simp [h, h']

/-- C15 at concrete inputs: a padded `release` label is trimmed, a blank
`release` label fails although a `version` label is present, and the
`version` label is used when there is no `release` label. -/
theorem GetTag_label_rule_witness :
    Except.map ImgRefs.Tag (GetTag exEnv "minio/minio:latest").1 = Except.ok exTag ∧
    (GetTag exEnvBlank "minio/minio:latest").1 = Except.error "release tag not found" ∧
    Except.map ImgRefs.Tag (GetTag exEnvVersion "minio/minio:latest").1 = Except.ok "1.0" := by
  have h := GetTag_label_rule exEnvBlank "minio/minio:latest" "minio/minio:latest"
    layersSpecExample [("version", "1.0"), ("release", " \t ")] rfl rfl rfl
  have h' := GetTag_label_rule exEnvVersion "minio/minio:latest" "minio/minio:latest"
    layersSpecExample [("version", " 1.0 ")] rfl rfl rfl
  refine ⟨by decide, ?_, ?_⟩
  · rw [h.1 " \t " (by decide), if_pos (by decide)]
  · rw [h'.2.1 " 1.0 " (by decide) (by decide)]
    decide

/-- C16 (the code at a failing input): on the state of the orphan scenario
`Delete("b")` unlinks the node of `b`, which is in no list, and sets `head`
and `tail` to nil: `c` is in the recency list before the call and not after
it, while the map still holds it. -/
theorem Delete_drops_other_key :
    lookup orphanState "b" = some ⟨"b", 2, 31⟩ ∧
    keys orphanState = ["c"] ∧
    lookup (Delete orphanState "b") "b" = none ∧
    lookup (Delete orphanState "b") "c" = some ⟨"c", 3, 33⟩ ∧
    keys (Delete orphanState "b") = [] ∧
    (Delete orphanState "b").head = none ∧ (Delete orphanState "b").tail = none := by
  decide

/-- C17: `Close` never panics and returns the cache with the stop flag set,
all other fields untouched; a `Close` of a closed cache returns it unchanged;
`Get` and `Set` on the closed cache return what they return on the cache
itself, with the flag set. -/
theorem Close_idempotent [Inhabited T] (c : LRUCache T) :
    Close c = Outcome.ok { c with stopClosed := true } ∧
    Close { c with stopClosed := true } = Outcome.ok { c with stopClosed := true } ∧
    (∀ k now₁ now₂, Get { c with stopClosed := true } k now₁ now₂ =
      ({ (Get c k now₁ now₂).1 with stopClosed := true }, (Get c k now₁ now₂).2)) ∧
    (∀ k v now, Set { c with stopClosed := true } k v now =
      { Set c k v now with stopClosed := true }) := by
  refine ⟨?_, rfl, fun k n₁ n₂ => Get_stop c true k n₁ n₂,
    fun k v now => Set_stop c true k v now⟩
  obtain ⟨mem, fresh, items, head, tail, capacity, ttl, stop⟩ := c
  cases stop <;> rfl

/-- C18 (the code at a failing input): with the binary stored twice and no
signature the three matching entries bring the counter to zero and the call
succeeds without having written `minio.minisig`; with all three artifacts
present and the binary stored twice the counter ends at -1 and the call
returns the end-of-archive error. -/
theorem ExtractTar_counts_repeated_entries :
    (ExtractTar latestAssets emptyDir repeatedArchive).2 = none ∧
    (∀ e ∈ repeatedArchive, e.Name ≠ "opt/bin/minio.minisig") ∧
    (ExtractTar latestAssets emptyDir repeatedArchive).1 "minio.minisig" = none ∧
    (ExtractTar latestAssets emptyDir completeArchive).2 =
      some "EOF reached before extracting" ∧
    (∀ f ∈ latestAssets, ∃ e ∈ completeArchive, e.Typeflag = TypeReg ∧ e.Name = f) := by
  decide

/-- C20 (the code at a failing input): `NewLRUCache(1, 1)` returns a cache
with TTL 1 > 0, so the sweep is started; its interval `1 / 2` is 0 and
`time.NewTicker(0)` panics. -/
theorem cleanupInterval_zero_at_one :
    NewLRUCache Nat 1 1 = Outcome.ok exShortTTL ∧ exShortTTL.ttl > 0 ∧
    cleanupInterval exShortTTL = 0 ∧
    startSweep exShortTTL = some (Outcome.panic "non-positive interval for NewTicker") :=
  ⟨rfl, by decide, by decide, by decide⟩

end Upgrademinio
